import Mathlib

/-! Query language interpreter (behavioral/interpreter/query_language).

A shallow embedding of `query_language.go`: the expression tree and its
`Interpret` methods, the recursive-descent `QueryParser.Parse` with its helpers
`findSplitIndex` and `tryConvertValue`, and `QueryEngine.Filter`.

Modelling conventions.

* A Go `string` is modelled as the list of its Unicode code points
  (`GoString`), and an index into it counts code points. The source only ever
  cuts a string at positions adjacent to ASCII bytes, so a code point index
  cuts the text where Go's byte offset does; the integer itself differs when a
  non-ASCII code point stands before the cut. `findSplitIndexBytes` is
  `findSplitIndex` on the bytes, with the integer Go returns, and
  `findSplitIndex_utf8Encode` relates the two.
* Go's `int` is the 64-bit signed integer; values are carried as `Int` and
  range limits are stated where a conversion checks them (`Atoi`).
* Index and slice expressions are checked: an out-of-range access is the
  outcome `Fault.panic`, as the Go runtime panics there.
* The Go standard library pieces that are too large to transcribe (the float64
  type with its comparisons, `strconv.ParseFloat`, `strconv.FormatFloat` and
  the Unicode case-folding table for pairs of non-ASCII runes) are the fields
  of a parameter `GoLib`; every theorem holds for every such library.
-/

namespace QueryLanguage

/-- A Go string, as the list of its code points. -/
abbrev GoString := List Char

/-- The two ways an evaluation of the model can fail to return a value: a Go
run-time panic, or the recursion budget of `ParseFuel` being used up. -/
inductive Fault where
  | panic
  | outOfFuel
  deriving DecidableEq, Repr

/-- Outcome of a computation that may panic. -/
abbrev Result (α : Type) := Except Fault α

/-- Go standard library primitives taken as parameters. -/
structure GoLib where
  /-- The type `float64`. -/
  Float64 : Type
  /-- Value of `strconv.ParseFloat(s, 64)` when it returns a nil error. -/
  parseFloat : GoString → Option Float64
  /-- Text of `strconv.FormatFloat(v, 'f', -1, 64)`. -/
  formatFloat : Float64 → GoString
  /-- The comparison `v == w` on float64. -/
  feq : Float64 → Float64 → Bool
  /-- The comparison `v > w` on float64. -/
  fgt : Float64 → Float64 → Bool
  /-- The comparison `v < w` on float64. -/
  flt : Float64 → Float64 → Bool
  /-- Whether two distinct non-ASCII runes lie on one `unicode.SimpleFold` orbit. -/
  foldEq : Char → Char → Bool

/-- A library in which no text denotes a float; it serves closed examples whose
evaluation never reaches a float conversion. -/
def GoLib.plain : GoLib where
  Float64 := Unit
  parseFloat := fun _ => none
  formatFloat := fun _ => []
  feq := fun _ _ => true
  fgt := fun _ _ => false
  flt := fun _ _ => false
  foldEq := fun _ _ => false

/-- A dynamically typed Go value (`interface{}`): the untyped nil, the four
dynamic types the source switches on, and any other dynamic type. -/
inductive Value (L : GoLib) where
  | nil
  | bool (b : Bool)
  | str (s : GoString)
  | int (n : Int)
  | float (f : L.Float64)
  | other (tag : Nat)

/-- A record: `map[string]interface{}` as an association list, looked up by
first match. -/
abbrev Context (L : GoLib) := List (GoString × Value L)

/-- The expression tree: one constructor per struct implementing `Expression`. -/
inductive Expression (L : GoLib) where
  | LiteralExpression (Value : Value L)
  | VariableExpression (Name : GoString)
  | EqualsExpression (Variable : GoString) (Value : Value L)
  | GreaterThanExpression (Variable : GoString) (Value : Value L)
  | LessThanExpression (Variable : GoString) (Value : Value L)
  | AndExpression (Left Right : Expression L)
  | OrExpression (Left Right : Expression L)
  | NotExpression (Expression : Expression L)

/-- A Go slice value: the nil slice or an allocated one with its elements. -/
inductive Slice (α : Type) where
  | nil
  | mk (elems : List α)

/-- Elements of a slice. -/
def Slice.toList {α : Type} : Slice α → List α
  | .nil => []
  | .mk elems => elems

/-- The builtin `append(s, x)`; the result is never nil. -/
def Slice.append {α : Type} (s : Slice α) (x : α) : Slice α :=
  .mk (s.toList ++ [x])

/-! ## Strings -/

/-- The predicate `unicode.IsSpace`: the code points with the White_Space property. -/
def isSpace (c : Char) : Bool :=
  let n := c.toNat
  (9 ≤ n && n ≤ 13) || n == 32 || n == 133 || n == 160 || n == 5760 ||
  (8192 ≤ n && n ≤ 8202) || n == 8232 || n == 8233 || n == 8239 || n == 8287 ||
  n == 12288

/-- The function `strings.TrimSpace`: leading and trailing white space removed. -/
def TrimSpace (s : GoString) : GoString :=
  ((s.dropWhile isSpace).reverse.dropWhile isSpace).reverse

/-- The function `strings.HasPrefix`. -/
def HasPrefix (s pre : GoString) : Bool := pre.isPrefixOf s

/-- The function `strings.HasSuffix`. -/
def HasSuffix (s suf : GoString) : Bool := suf.isSuffixOf s

/-- The index expression `s[i]`. -/
def index (s : GoString) (i : Int) : Result Char :=
  if 0 ≤ i ∧ i < s.length then
    match s.get? i.toNat with
    | some c => .ok c
    | none => .error .panic
  else .error .panic

/-- The slice expression `s[lo:hi]`; it panics unless `0 ≤ lo ≤ hi ≤ len(s)`. -/
def slice (s : GoString) (lo hi : Int) : Result GoString :=
  if 0 ≤ lo ∧ lo ≤ hi ∧ hi ≤ s.length then
    .ok ((s.drop lo.toNat).take (hi.toNat - lo.toNat))
  else .error .panic

/-- One step of `strings.EqualFold`: whether two runes are equal under simple
case folding. Among ASCII runes only a letter and its other case match; an
ASCII rune matches a non-ASCII one only on the orbits K, k, KELVIN SIGN and
S, s, LATIN SMALL LETTER LONG S. -/
def foldRune (L : GoLib) (a b : Char) : Bool :=
  if a = b then true
  else
    let lo := min a.toNat b.toNat
    let hi := max a.toNat b.toNat
    if hi < 128 then 65 ≤ lo && lo ≤ 90 && hi == lo + 32
    else if lo < 128 then
      ((lo == 75 || lo == 107) && hi == 8490) || ((lo == 83 || lo == 115) && hi == 383)
    else L.foldEq a b

/-- The function `strings.EqualFold`. -/
def EqualFold (L : GoLib) : GoString → GoString → Bool
  | [], [] => true
  | a :: s, b :: t => foldRune L a b && EqualFold L s t
  | _, _ => false

/-! ## strconv -/

/-- Value of a run of decimal digits, `none` when a rune is not a digit. -/
def parseDigits : List Char → Nat → Option Nat
  | [], acc => some acc
  | c :: cs, acc =>
    if 48 ≤ c.toNat ∧ c.toNat ≤ 57 then parseDigits cs (acc * 10 + (c.toNat - 48)) else none

/-- The function `strconv.Atoi` on a 64-bit platform: an optional sign and a non-empty run of
decimal digits whose value fits `int`; `none` stands for a non-nil error. -/
def Atoi (s : GoString) : Option Int :=
  let neg := s.head? == some '-'
  let body := if s.head? == some '-' || s.head? == some '+' then s.tail else s
  if body = [] then none
  else
    match parseDigits body 0 with
    | none => none
    | some n =>
      let v : Int := if neg then -(n : Int) else (n : Int)
      if -(2 : Int) ^ 63 ≤ v ∧ v < (2 : Int) ^ 63 then some v else none

/-- Decimal digits of a natural number, most significant first. -/
def natDigits (n : Nat) : List Char := Nat.toDigits 10 n

/-- The function `strconv.Itoa`. -/
def Itoa (n : Int) : GoString :=
  if n < 0 then '-' :: natDigits n.natAbs else natDigits n.natAbs

/-- The function `strconv.FormatBool`. -/
def FormatBool (b : Bool) : GoString :=
  if b then "true".toList else "false".toList

/-- ASCII lower-casing of one rune, as in strconv's `lower`. -/
def asciiLower (c : Char) : Char :=
  if 65 ≤ c.toNat ∧ c.toNat ≤ 90 then Char.ofNat (c.toNat + 32) else c

/-- A condition every text accepted by `strconv.ParseFloat` meets: it holds a
decimal digit, or it is one of the names of infinity and NaN. -/
def floatCandidate (s : GoString) : Bool :=
  s.any (fun c => 48 ≤ c.toNat && c.toNat ≤ 57) ||
  (s.map asciiLower) ∈ ["inf".toList, "+inf".toList, "-inf".toList, "infinity".toList,
    "+infinity".toList, "-infinity".toList, "nan".toList]

/-- The call `strconv.ParseFloat(s, 64)`, `none` for a non-nil error. -/
def ParseFloat (L : GoLib) (s : GoString) : Option L.Float64 :=
  if floatCandidate s then L.parseFloat s else none

/-! ## Expressions -/

/-- The helper `toString`. -/
def toString (L : GoLib) : Value L → GoString
  | .nil => []
  | .str value => value
  | .int value => Itoa value
  | .float value => L.formatFloat value
  | .bool value => FormatBool value
  | .other _ => []

/-- The type switch shared by `LiteralExpression.Interpret` and
`VariableExpression.Interpret`. -/
def truthy (L : GoLib) : Value L → Bool
  | .bool v => v
  | .str v => v != []
  | .int v => v != 0
  | .nil => false
  | .float _ => true
  | .other _ => true

/-- The method `EqualsExpression.Interpret` once the field is known to exist. -/
def equalsValue (L : GoLib) (value target : Value L) : Bool :=
  let fallback := EqualFold L (toString L value) (toString L target)
  match value with
  | .str v =>
    match target with
    | .str strValue => v == strValue
    | _ => fallback
  | .int v =>
    match target with
    | .int intValue => v == intValue
    | .str strValue =>
      match Atoi strValue with
      | some intValue => v == intValue
      | none => fallback
    | _ => fallback
  | .float v =>
    match target with
    | .float floatValue => L.feq v floatValue
    | .str strValue =>
      match ParseFloat L strValue with
      | some floatValue => L.feq v floatValue
      | none => fallback
    | _ => fallback
  | .bool v =>
    match target with
    | .bool boolValue => v == boolValue
    | .str strValue =>
      if strValue = "true".toList then v == true
      else if strValue = "false".toList then v == false
      else fallback
    | _ => fallback
  | _ => fallback

/-- The method `GreaterThanExpression.Interpret` once the field is known to exist. -/
def greaterValue (L : GoLib) (value target : Value L) : Bool :=
  match value with
  | .int v =>
    match target with
    | .int intValue => decide (v > intValue)
    | .str strValue =>
      match Atoi strValue with
      | some intValue => decide (v > intValue)
      | none => false
    | _ => false
  | .float v =>
    match target with
    | .float floatValue => L.fgt v floatValue
    | .str strValue =>
      match ParseFloat L strValue with
      | some floatValue => L.fgt v floatValue
      | none => false
    | _ => false
  | _ => false

/-- The method `LessThanExpression.Interpret` once the field is known to exist. -/
def lessValue (L : GoLib) (value target : Value L) : Bool :=
  match value with
  | .int v =>
    match target with
    | .int intValue => decide (v < intValue)
    | .str strValue =>
      match Atoi strValue with
      | some intValue => decide (v < intValue)
      | none => false
    | _ => false
  | .float v =>
    match target with
    | .float floatValue => L.flt v floatValue
    | .str strValue =>
      match ParseFloat L strValue with
      | some floatValue => L.flt v floatValue
      | none => false
    | _ => false
  | _ => false

/-- The method `Interpret` of every expression struct. -/
def Interpret (L : GoLib) : Expression L → Context L → Bool
  | .LiteralExpression v, _ => truthy L v
  | .VariableExpression name, context =>
    match context.lookup name with
    | none => false
    | some value => truthy L value
  | .EqualsExpression varName target, context =>
    match context.lookup varName with
    | none => false
    | some value => equalsValue L value target
  | .GreaterThanExpression varName target, context =>
    match context.lookup varName with
    | none => false
    | some value => greaterValue L value target
  | .LessThanExpression varName target, context =>
    match context.lookup varName with
    | none => false
    | some value => lessValue L value target
  | .AndExpression left right, context => Interpret L left context && Interpret L right context
  | .OrExpression left right, context => Interpret L left context || Interpret L right context
  | .NotExpression e, context => !Interpret L e context

/-! ## Parser -/

/-- The loop of `findSplitIndex`: `count` iterations remain, `i` is the loop
variable and `level` the parenthesis depth. -/
def findSplitLoop (query operator : GoString) : Nat → Int → Int → Result Int
  | 0, _, _ => .ok (-1)
  | count + 1, i, level => do
    let c ← index query i
    if c = '(' then findSplitLoop query operator count (i + 1) (level + 1)
    else if c = ')' then findSplitLoop query operator count (i + 1) (level - 1)
    else if level = 0 then do
      let sub ← slice query i (i + operator.length)
      if sub = operator then .ok i
      else findSplitLoop query operator count (i + 1) level
    else findSplitLoop query operator count (i + 1) level

/-- The method `findSplitIndex` on the code points of the strings, as `Parse`
uses it: the loop runs for `i = 0 .. len(query)-opLen`, that is
`len(query) - opLen + 1` times when that number is positive. The result counts
code points; `findSplitIndexBytes` is the method on the bytes. -/
def findSplitIndex (query operator : GoString) : Result Int :=
  findSplitLoop query operator ((query.length : Int) - operator.length + 1).toNat 0 0

/-- The function `tryConvertValue`. -/
def tryConvertValue (L : GoLib) (valueStr : GoString) : Result (Value L) :=
  let valueStr := TrimSpace valueStr
  (if (HasPrefix valueStr [Char.ofNat 34] && HasSuffix valueStr [Char.ofNat 34]) ||
      (HasPrefix valueStr [Char.ofNat 39] && HasSuffix valueStr [Char.ofNat 39]) then
    slice valueStr 1 ((valueStr.length : Int) - 1)
  else .ok valueStr) >>= fun valueStr =>
    if EqualFold L valueStr "true".toList then .ok (.bool true)
    else if EqualFold L valueStr "false".toList then .ok (.bool false)
    else
      match Atoi valueStr with
      | some intVal => .ok (.int intVal)
      | none =>
        match ParseFloat L valueStr with
        | some floatVal => .ok (.float floatVal)
        | none => .ok (.str valueStr)

/-- The `range` loop of step 1 of `Parse` over the runes from position `i` on:
it yields the final `level` and `match`. -/
def parenLoop (len : Nat) : List Char → Int → Int → Int × Bool
  | [], _, level => (level, true)
  | char :: rest, i, level =>
    let level := if char = '(' then level + 1 else if char = ')' then level - 1 else level
    if level = 0 ∧ i < (len : Int) - 1 then (level, false)
    else parenLoop len rest (i + 1) level

/-- The loop of step 5 of `Parse` over the comparison operators still to try;
`none` when the loop ends without returning. -/
def compLoop (L : GoLib) (query : GoString) : List GoString → Result (Option (Expression L))
  | [] => .ok none
  | op :: ops => do
    let opIndex ← findSplitIndex query op
    if opIndex ≠ -1 then do
      let left ← slice query 0 opIndex
      let right ← slice query (opIndex + op.length) query.length
      let value ← tryConvertValue L (TrimSpace right)
      if op = " = ".toList then pure (some (.EqualsExpression (TrimSpace left) value))
      else if op = " > ".toList then pure (some (.GreaterThanExpression (TrimSpace left) value))
      else if op = " < ".toList then pure (some (.LessThanExpression (TrimSpace left) value))
      else compLoop L query ops
    else compLoop L query ops

/-- Steps 5 and 6 of `Parse` on the trimmed query: a comparison, a boolean
literal or a variable name. -/
def parseLeaf (L : GoLib) (query : GoString) : Result (Expression L) := do
  let found ← compLoop L query [" = ".toList, " > ".toList, " < ".toList]
  match found with
  | some e => pure e
  | none =>
    if EqualFold L query "true".toList then pure (.LiteralExpression (.bool true))
    else if EqualFold L query "false".toList then pure (.LiteralExpression (.bool false))
    else pure (.VariableExpression query)

/-- Steps 2 to 6 of `Parse` on the trimmed query; `recur` is the recursive call. -/
def parseOperators (L : GoLib) (recur : GoString → Result (Expression L))
    (query : GoString) : Result (Expression L) := do
  let orIndex ← findSplitIndex query " OR ".toList
  if orIndex ≠ -1 then do
    let left ← (slice query 0 orIndex) >>= recur
    let right ← (slice query (orIndex + 4) query.length) >>= recur
    pure (.OrExpression left right)
  else do
    let andIndex ← findSplitIndex query " AND ".toList
    if andIndex ≠ -1 then do
      let left ← (slice query 0 andIndex) >>= recur
      let right ← (slice query (andIndex + 5) query.length) >>= recur
      pure (.AndExpression left right)
    else if HasPrefix query "NOT ".toList then do
      let expression ← (slice query 4 query.length) >>= recur
      pure (.NotExpression expression)
    else parseLeaf L query

/-- The body of `Parse`; `recur` is the recursive call. -/
def parseBody (L : GoLib) (recur : GoString → Result (Expression L))
    (query : GoString) : Result (Expression L) :=
  let query := TrimSpace query
  if query = [] then .ok (.LiteralExpression (.bool false))
  else if HasPrefix query "(".toList && HasSuffix query ")".toList then
    let scan := parenLoop query.length query 0 0
    if scan.2 && scan.1 == 0 then (slice query 1 ((query.length : Int) - 1)) >>= recur
    else if scan.1 ≠ 0 then .ok (.LiteralExpression (.bool false))
    else parseOperators L recur query
  else parseOperators L recur query

/-- The method `Parse` with a bound on the depth of the recursion. -/
def ParseFuel (L : GoLib) : Nat → GoString → Result (Expression L)
  | 0, _ => .error .outOfFuel
  | fuel + 1, query => parseBody L (ParseFuel L fuel) query

/-- The method `QueryParser.Parse`: every recursive call is on a shorter string,
so a depth of `len(query) + 1` is never exceeded. -/
def Parse (L : GoLib) (query : GoString) : Result (Expression L) :=
  ParseFuel L (query.length + 1) query

/-- The loop of `Filter` over the records still to visit. -/
def filterLoop (L : GoLib) (expression : Expression L) :
    List (Context L) → Slice (Context L) → Slice (Context L)
  | [], result => result
  | item :: rest, result =>
    if Interpret L expression item then filterLoop L expression rest (result.append item)
    else filterLoop L expression rest result

/-- The method `QueryEngine.Filter`. -/
def Filter (L : GoLib) (data : List (Context L)) (query : GoString) :
    Result (Slice (Context L)) := do
  let expression ← Parse L query
  return filterLoop L expression data (.mk [])

/-! ## Specification functions used to state and prove the properties -/

/-- Offset of the left-most occurrence of `op` in `s` that starts at a rune
other than a parenthesis where the running parenthesis depth, `level` at the
start of `s`, is zero. -/
def findFrom (op : GoString) : GoString → Int → Option Nat
  | [], _ => none
  | c :: rest, level =>
    if c = '(' then (findFrom op rest (level + 1)).map (· + 1)
    else if c = ')' then (findFrom op rest (level - 1)).map (· + 1)
    else if level = 0 ∧ op.isPrefixOf (c :: rest) then some 0
    else (findFrom op rest level).map (· + 1)

/-- The integer `findSplitIndex` reports for an offset found from position `base`. -/
def splitResult (base : Nat) : Option Nat → Int
  | some k => ((base + k : Nat) : Int)
  | none => -1

/-- Net parenthesis depth of a text: the number of `(` minus the number of `)`. -/
def depthOf : GoString → Int
  | [] => 0
  | c :: rest => (if c = '(' then 1 else if c = ')' then -1 else 0) + depthOf rest

/-- Balanced parentheses: every prefix has at least as many `(` as `)` and the
totals are equal. -/
def Balanced (s : GoString) : Prop :=
  (∀ k, k ≤ s.length → 0 ≤ depthOf (s.take k)) ∧ depthOf s = 0

/-- The value `Parse(q).Interpret(ctx)`. -/
def evalQuery (L : GoLib) (q : GoString) (ctx : Context L) : Result Bool :=
  (Parse L q) >>= fun e => pure (Interpret L e ctx)

/-- A text without the quote characters `"` and `'`. -/
def NoQuote (s : GoString) : Prop := ∀ c ∈ s, c ≠ Char.ofNat 34 ∧ c ≠ Char.ofNat 39

/-- ASCII letters and digits. -/
def isAlnum (c : Char) : Bool :=
  let n := c.toNat
  (48 ≤ n && n ≤ 57) || (65 ≤ n && n ≤ 90) || (97 ≤ n && n ≤ 122)

/-- A field name or operand word: a non-empty alphanumeric token other than the
keywords `AND`, `OR` and `NOT`. -/
def Token (t : GoString) : Prop :=
  t ≠ [] ∧ (∀ c ∈ t, isAlnum c = true) ∧
  t ≠ "AND".toList ∧ t ≠ "OR".toList ∧ t ≠ "NOT".toList

/-- A comparison atom: field, operator and word. -/
structure Atom where
  field : GoString
  op : GoString
  word : GoString

/-- The atom is well formed: the operator is `=`, `>` or `<`, and field and
word are tokens. -/
def Atom.Valid (a : Atom) : Prop :=
  Token a.field ∧ Token a.word ∧
  (a.op = "=".toList ∨ a.op = ">".toList ∨ a.op = "<".toList)

/-- The text `field op word` of an atom. -/
def Atom.render (a : Atom) : GoString :=
  a.field ++ " ".toList ++ a.op ++ " ".toList ++ a.word

/-- The texts joined with a separator between neighbours, as `strings.Join`. -/
def joinWith (sep : GoString) : List GoString → GoString
  | [] => []
  | [x] => x
  | x :: y :: rest => x ++ sep ++ joinWith sep (y :: rest)

/-- A group: its atoms joined with ` AND `. -/
def renderGroup (g : List Atom) : GoString :=
  joinWith " AND ".toList (g.map Atom.render)

/-- A query: its groups joined with ` OR `. -/
def renderQuery (groups : List (List Atom)) : GoString :=
  joinWith " OR ".toList (groups.map renderGroup)

/-- A rune that is neither white space, nor a parenthesis, nor a quote. -/
def CleanChar (c : Char) : Prop :=
  isSpace c = false ∧ c ≠ '(' ∧ c ≠ ')' ∧ c ≠ Char.ofNat 34 ∧ c ≠ Char.ofNat 39

/-- A non-empty run of clean runes. -/
def Clean (t : GoString) : Prop := t ≠ [] ∧ ∀ c ∈ t, CleanChar c

/-- Clean tokens, none equal to `kw`, separated by single spaces. -/
inductive Phrase (kw : GoString) : GoString → Prop where
  | single (t : GoString) : Clean t → t ≠ kw → Phrase kw t
  | snoc (A t : GoString) : Phrase kw A → Clean t → t ≠ kw → Phrase kw (A ++ ' ' :: t)

/-- The operator text ` kw `. -/
def sepOf (kw : GoString) : GoString := ' ' :: (kw ++ [' '])

/-- The value of `Parse(atom).Interpret(ctx)`, false if `Parse` did not return. -/
def atomValue (L : GoLib) (ctx : Context L) (a : Atom) : Bool :=
  match evalQuery L a.render ctx with
  | .ok b => b
  | .error _ => false

/-- Following the spec: one layer of matching single or double quotes is
removed when the text starts and ends with the same quote character. -/
def stripQuotes : GoString → GoString
  | [] => []
  | c :: rest =>
    if (c = Char.ofNat 34 ∨ c = Char.ofNat 39) ∧ rest.getLast? = some c then rest.dropLast
    else c :: rest

/-- Following the spec: the literal is, in this order, a Boolean when the text
equals `true` or `false` ignoring case, an Integer when it is a decimal integer
in range, a Float when it parses as a float, and otherwise the String itself. -/
def classify (L : GoLib) (u : GoString) : Value L :=
  if EqualFold L u "true".toList then .bool true
  else if EqualFold L u "false".toList then .bool false
  else
    match Atoi u with
    | some n => .int n
    | none =>
      match ParseFloat L u with
      | some f => .float f
      | none => .str u

/-- The John record of the spec's scenario. -/
def recordJohn (L : GoLib) : Context L :=
  [("name".toList, .str "John".toList), ("age".toList, .int 34),
   ("department".toList, .str "Engineering".toList)]

/-- The Sarah record of the spec's scenario. -/
def recordSarah (L : GoLib) : Context L :=
  [("name".toList, .str "Sarah".toList), ("age".toList, .int 29),
   ("department".toList, .str "Marketing".toList)]

/-- The operator occurs in the query at index `i` and the number of `(` minus
the number of `)` before `i` is zero. -/
def OccursAt (op q : GoString) (i : Nat) : Prop :=
  op.isPrefixOf (q.drop i) = true ∧ depthOf (q.take i) = 0

/-- Index `i` is the left-most depth-0 occurrence of the operator. -/
def LeftMost (op q : GoString) (i : Nat) : Prop :=
  OccursAt op q i ∧ ∀ j, j < i → ¬ OccursAt op q j

/-- Step 1 of `Parse` returns on the trimmed query: it is wrapped in
parentheses and either one matching outer pair spans it or the final depth is
not zero. -/
def parenStepApplies (query : GoString) : Bool :=
  HasPrefix query "(".toList && HasSuffix query ")".toList &&
    ((parenLoop query.length query 0 0).2 && (parenLoop query.length query 0 0).1 == 0 ||
      (parenLoop query.length query 0 0).1 != 0)

/-- Redundant outer parentheses: every layer puts one pair of parentheses around
the text, with the layer's two white-space pads outside the pair; the first
layer of the list is the outermost. -/
def wrapParens : List (GoString × GoString) → GoString → GoString
  | [], q => q
  | layer :: layers, q => layer.1 ++ '(' :: (wrapParens layers q ++ ')' :: layer.2)

/-- The method `Parse` by well-founded recursion on the length of the query:
the recursive call is available on strictly shorter texts only. -/
def ParseWF (L : GoLib) (query : GoString) : Result (Expression L) :=
  parseBody L (fun x => if _h : x.length < query.length then ParseWF L x else .error .outOfFuel)
    query
termination_by query.length

/-! ## The operator search on the bytes of a string -/

/-- A Go string as it lies in memory: the sequence of its bytes. -/
abbrev ByteString := List Nat

/-- The UTF-8 encoding of one code point. -/
def utf8EncodeRune (c : Char) : ByteString :=
  if c.toNat < 128 then [c.toNat]
  else if c.toNat < 2048 then [192 + c.toNat / 64, 128 + c.toNat % 64]
  else if c.toNat < 65536 then
    [224 + c.toNat / 4096, 128 + c.toNat / 64 % 64, 128 + c.toNat % 64]
  else
    [240 + c.toNat / 262144, 128 + c.toNat / 4096 % 64, 128 + c.toNat / 64 % 64,
      128 + c.toNat % 64]

/-- The bytes of a text: the UTF-8 encodings of its code points in a row. -/
def utf8Encode : GoString → ByteString
  | [] => []
  | c :: rest => utf8EncodeRune c ++ utf8Encode rest

/-- The index expression `s[i]` on the bytes of a string. -/
def byteAt (s : ByteString) (i : Int) : Result Nat :=
  if 0 ≤ i ∧ i < s.length then
    match s.get? i.toNat with
    | some b => .ok b
    | none => .error .panic
  else .error .panic

/-- The slice expression `s[lo:hi]` on the bytes of a string. -/
def byteSlice (s : ByteString) (lo hi : Int) : Result ByteString :=
  if 0 ≤ lo ∧ lo ≤ hi ∧ hi ≤ s.length then
    .ok ((s.drop lo.toNat).take (hi.toNat - lo.toNat))
  else .error .panic

/-- The loop of `findSplitIndex` on the bytes of the strings: `count`
iterations remain, `i` is the loop variable and `level` the parenthesis depth;
40 and 41 are the bytes `(` and `)`. -/
def findSplitLoopBytes (query operator : ByteString) : Nat → Int → Int → Result Int
  | 0, _, _ => .ok (-1)
  | count + 1, i, level => do
    let b ← byteAt query i
    if b = 40 then findSplitLoopBytes query operator count (i + 1) (level + 1)
    else if b = 41 then findSplitLoopBytes query operator count (i + 1) (level - 1)
    else if level = 0 then do
      let sub ← byteSlice query i (i + operator.length)
      if sub = operator then .ok i
      else findSplitLoopBytes query operator count (i + 1) level
    else findSplitLoopBytes query operator count (i + 1) level

/-- The method `findSplitIndex` on the bytes of the strings, as Go runs it:
`len`, the index and the slice expressions count bytes, and so does the
result. -/
def findSplitIndexBytes (query operator : ByteString) : Result Int :=
  findSplitLoopBytes query operator ((query.length : Int) - operator.length + 1).toNat 0 0

/-- Offset of the left-most occurrence of `op` in the bytes `s` that starts at
a byte other than a parenthesis where the running parenthesis depth, `level`
at the start of `s`, is zero. -/
def findFromBytes (op : ByteString) : ByteString → Int → Option Nat
  | [], _ => none
  | b :: rest, level =>
    if b = 40 then (findFromBytes op rest (level + 1)).map (· + 1)
    else if b = 41 then (findFromBytes op rest (level - 1)).map (· + 1)
    else if level = 0 ∧ op.isPrefixOf (b :: rest) then some 0
    else (findFromBytes op rest level).map (· + 1)

/-- Net parenthesis depth of a run of bytes: the number of `(` minus the
number of `)`. -/
def depthOfBytes : ByteString → Int
  | [] => 0
  | b :: rest => (if b = 40 then 1 else if b = 41 then -1 else 0) + depthOfBytes rest

/-- The operator occurs in the query at byte index `i`, that is
`query[i:i+len(op)] == op`, and the number of `(` minus the number of `)` in
`query[0:i]` is zero. -/
def OccursAtBytes (op q : ByteString) (i : Nat) : Prop :=
  op.isPrefixOf (q.drop i) = true ∧ depthOfBytes (q.take i) = 0

/-- Byte index `i` is the smallest one at which the operator occurs at depth 0. -/
def LeftMostBytes (op q : ByteString) (i : Nat) : Prop :=
  OccursAtBytes op q i ∧ ∀ j, j < i → ¬ OccursAtBytes op q j

end QueryLanguage

/-! # Document editor (behavioral/memento/document_editor)

The caretaker `History` of `history.go` with the originator's content held in
the same record; a `time.Time` is a number. An index or slice expression that
would panic yields `none`. -/

namespace DocumentEditor

/-- The struct `concreteMemento`. -/
structure Memento where
  state : String
  date : Nat
  deriving DecidableEq, Repr

/-- The struct `History` together with the content of the `Document` it points to. -/
structure History where
  history : List Memento
  redoStack : List Memento
  document : String
  deriving DecidableEq, Repr

/-- The index expression `s[i]` on a slice. -/
def indexAt {α : Type} (s : List α) (i : Int) : Option α :=
  if 0 ≤ i ∧ i < s.length then s.get? i.toNat else none

/-- The slice expression `s[:i]`. -/
def sliceTo {α : Type} (s : List α) (i : Int) : Option (List α) :=
  if 0 ≤ i ∧ i ≤ s.length then some (s.take i.toNat) else none

/-- The method `History.Save`; `now` is the value of `time.Now()`. -/
def Save (h : History) (now : Nat) : History :=
  { h with history := h.history ++ [⟨h.document, now⟩], redoStack := [] }

/-- The method `History.Undo`. -/
def Undo (h : History) : Option History :=
  if (h.history.length : Int) ≤ 1 then some h
  else
    let lastIndex : Int := (h.history.length : Int) - 1
    (indexAt h.history lastIndex).bind fun currentMemento =>
    (sliceTo h.history lastIndex).bind fun history =>
    let redoStack := h.redoStack ++ [currentMemento]
    (indexAt history ((history.length : Int) - 1)).bind fun previousMemento =>
    some { history := history, redoStack := redoStack, document := previousMemento.state }

/-- The method `History.Redo`. -/
def Redo (h : History) : Option History :=
  if (h.redoStack.length : Int) = 0 then some h
  else
    let lastIndex : Int := (h.redoStack.length : Int) - 1
    (indexAt h.redoStack lastIndex).bind fun mementoToRestore =>
    (sliceTo h.redoStack lastIndex).bind fun redoStack =>
    some { history := h.history ++ [mementoToRestore], redoStack := redoStack,
           document := mementoToRestore.state }

end DocumentEditor

/-! # Order state machine (behavioral/state/order_processing)

Every state object created through `NewOrder` and `setState` points back to the
one order, so an order is the record of its items, the kind of its state and
its identifier. -/

namespace OrderProcessing

/-- The five structs implementing `OrderState`. -/
inductive OrderState where
  | NewOrderState
  | PendingPaymentState
  | ShippedState
  | DeliveredState
  | CancelledState
  deriving DecidableEq, Repr

/-- The struct `Order`. -/
structure Order where
  items : List String
  state : OrderState
  orderID : String
  deriving DecidableEq, Repr

/-- The function `NewOrder`. -/
def NewOrder (orderID : String) : Order :=
  { orderID := orderID, items := [], state := .NewOrderState }

/-- The method `Order.setState`. -/
def setState (o : Order) (state : OrderState) : Order := { o with state := state }

/-- The method `Order.AddItem`, delegating to the current state. -/
def AddItem (o : Order) (item : String) : Order :=
  match o.state with
  | .NewOrderState => { o with items := o.items ++ [item] }
  | .PendingPaymentState => o
  | .ShippedState => o
  | .DeliveredState => o
  | .CancelledState => o

/-- The method `Order.ProcessPayment`, delegating to the current state. -/
def ProcessPayment (o : Order) : Order :=
  match o.state with
  | .NewOrderState => if o.items.length = 0 then o else setState o .PendingPaymentState
  | .PendingPaymentState => o
  | .ShippedState => o
  | .DeliveredState => o
  | .CancelledState => o

/-- The method `Order.Ship`, delegating to the current state. -/
def Ship (o : Order) : Order :=
  match o.state with
  | .NewOrderState => o
  | .PendingPaymentState => setState o .ShippedState
  | .ShippedState => o
  | .DeliveredState => o
  | .CancelledState => o

/-- The method `Order.Deliver`, delegating to the current state. -/
def Deliver (o : Order) : Order :=
  match o.state with
  | .NewOrderState => o
  | .PendingPaymentState => o
  | .ShippedState => setState o .DeliveredState
  | .DeliveredState => o
  | .CancelledState => o

/-- The method `Order.Cancel`, delegating to the current state. -/
def Cancel (o : Order) : Order :=
  match o.state with
  | .NewOrderState => setState o .CancelledState
  | .PendingPaymentState => setState o .CancelledState
  | .ShippedState => o
  | .DeliveredState => o
  | .CancelledState => o

/-- One call of a public method of `Order`. -/
inductive Call where
  | AddItem (item : String)
  | ProcessPayment
  | Ship
  | Deliver
  | Cancel
  deriving DecidableEq, Repr

/-- The order after one call. -/
def perform (o : Order) : Call → Order
  | .AddItem item => AddItem o item
  | .ProcessPayment => ProcessPayment o
  | .Ship => Ship o
  | .Deliver => Deliver o
  | .Cancel => Cancel o

/-- The order after a sequence of calls, made from left to right. -/
def performAll (o : Order) (calls : List Call) : Order := calls.foldl perform o

/-- An order that is paid, shipped or delivered holds at least one item. -/
def PaidHasItems (o : Order) : Prop :=
  (o.state = .PendingPaymentState ∨ o.state = .ShippedState ∨ o.state = .DeliveredState) →
    o.items ≠ []

end OrderProcessing

/-! # File system composite (structural/composite/file_system)

A component is a `*File` or a `*Directory`; `ptr` is the address of the object,
which is what the interface comparison `child == component` compares. Go's
`int` is the 64-bit signed integer and `+=` wraps around. -/

namespace FileSystem

/-- A file system component: a file, or a directory with its children. -/
inductive Component where
  | file (ptr : Nat) (name : String) (size : Int)
  | dir (ptr : Nat) (name : String) (children : List Component)

/-- The address of the object behind a component. -/
def Component.ptr : Component → Nat
  | .file p _ _ => p
  | .dir p _ _ => p

/-- The comparison `child == component` of two interface values: the same kind
of pointer to the same object. -/
def sameComponent : Component → Component → Bool
  | .file p _ _, .file q _ _ => p == q
  | .dir p _ _, .dir q _ _ => p == q
  | _, _ => false

/-- The value of a mathematical integer as a 64-bit two's complement `int`. -/
def wrapInt (x : Int) : Int := (x + 2 ^ 63) % 2 ^ 64 - 2 ^ 63

mutual
/-- The method `GetSize` of `File` and of `Directory`. -/
def GetSize : Component → Int
  | .file _ _ size => size
  | .dir _ _ children => sizeLoop children 0
/-- The loop of `Directory.GetSize` over the children still to visit, with the
running `totalSize`. -/
def sizeLoop : List Component → Int → Int
  | [], totalSize => totalSize
  | child :: rest, totalSize => sizeLoop rest (wrapInt (totalSize + GetSize child))
end

/-- The loop of `Directory.Remove`: `before` holds the children already passed,
the second list those from index `i` on. It yields the children afterwards and
the result. -/
def removeLoop (component : Component) : List Component → List Component → List Component × Bool
  | before, [] => (before, false)
  | before, child :: rest =>
    if sameComponent child component then (before ++ rest, true)
    else removeLoop component (before ++ [child]) rest

/-- The method `Directory.Remove` on the children of a directory: the children
afterwards and the result. -/
def Remove (children : List Component) (component : Component) : List Component × Bool :=
  removeLoop component [] children

mutual
/-- The exact sum of the sizes of the files in the subtree of a component. -/
def leafSum : Component → Int
  | .file _ _ size => size
  | .dir _ _ children => leafSumList children
/-- The exact sum of the sizes of the files in the subtrees of a list of components. -/
def leafSumList : List Component → Int
  | [] => 0
  | child :: rest => leafSum child + leafSumList rest
end

end FileSystem

/-! # Data stream iterator (behavioral/iterator/data_stream_processor) -/

namespace DataStreamProcessor

/-- What a call returns besides a value: a Go `error` with its text. -/
abbrev Outcome (α : Type) := Except String α

/-- The struct `DataStream`; `α` is the type of the chunks (`interface{}`). -/
structure DataStream (α : Type) where
  dataChunks : List α

/-- The function `NewDataStream`. -/
def NewDataStream (α : Type) : DataStream α := ⟨[]⟩

/-- The method `AddChunk`. -/
def AddChunk {α : Type} (ds : DataStream α) (chunk : α) : DataStream α :=
  ⟨ds.dataChunks ++ [chunk]⟩

/-- The method `GetCount`. -/
def GetCount {α : Type} (ds : DataStream α) : Int := ds.dataChunks.length

/-- The method `Get`; past the bounds check the index expression cannot panic. -/
def Get {α : Type} (ds : DataStream α) (index : Int) : Outcome α :=
  if index < 0 ∨ index ≥ ds.dataChunks.length then .error "index out of bounds"
  else
    match ds.dataChunks.get? index.toNat with
    | some v => .ok v
    | none => .error "panic: index out of range"

/-- The struct `StreamIterator`. -/
structure StreamIterator (α : Type) where
  stream : DataStream α
  position : Int

/-- The method `CreateIterator`. -/
def CreateIterator {α : Type} (ds : DataStream α) : StreamIterator α := ⟨ds, 0⟩

/-- The method `HasNext`. -/
def HasNext {α : Type} (it : StreamIterator α) : Bool := it.position < GetCount it.stream

/-- The method `Next`: what it returns and the iterator afterwards. -/
def Next {α : Type} (it : StreamIterator α) : Outcome α × StreamIterator α :=
  if !HasNext it then (.error "no more elements", it)
  else
    match Get it.stream it.position with
    | .error e => (.error e, it)
    | .ok value => (.ok value, { it with position := it.position + 1 })

/-- The loop `for it.HasNext() { chunk, err := it.Next(); ... }` run for at most
`fuel` iterations: the results of the calls of `Next` and the iterator
afterwards, `none` when the loop has not ended by then. -/
def drain {α : Type} : Nat → StreamIterator α → Option (List (Outcome α) × StreamIterator α)
  | 0, it => if HasNext it then none else some ([], it)
  | fuel + 1, it =>
    if HasNext it then
      (drain fuel (Next it).2).map fun r => ((Next it).1 :: r.1, r.2)
    else some ([], it)

/-- The stream obtained from a fresh one by `AddChunk` on each chunk in turn. -/
def streamOf {α : Type} (chunks : List α) : DataStream α :=
  chunks.foldl AddChunk (NewDataStream α)

end DataStreamProcessor

namespace QueryLanguage

/-! ## Theorems -/


/-! ### Index and slice expressions; `findSplitIndex` never panics -/

theorem slice_nat (s : GoString) (lo hi : Nat) (h1 : lo ≤ hi) (h2 : hi ≤ s.length) :
    slice s lo hi = .ok ((s.drop lo).take (hi - lo)) := by
  unfold slice
  rw [if_pos (by omega)]
  simp

theorem splitResult_map (base : Nat) (o : Option Nat) :
    splitResult base (o.map (· + 1)) = splitResult (base + 1) o := by
  cases o <;> simp [splitResult]; omega

theorem index_append (pre suf : GoString) (c : Char) :
    index (pre ++ c :: suf) pre.length = .ok c := by
  unfold index
  rw [if_pos (by simp)]
  have : (pre ++ c :: suf).get? pre.length = some c := by
    rw [List.get?_eq_getElem?, List.getElem?_append_right (le_refl _)]; simp
  simp only [Int.toNat_ofNat, this]

theorem findFrom_short (op : GoString) : ∀ (s : GoString) (level : Int),
    s.length < op.length → findFrom op s level = none := by
  intro s
  induction s with
  | nil => intro level _; rfl
  | cons c rest ih =>
    intro level h
    have h1 : rest.length < op.length := by simp at h; omega
    have h2 : op.isPrefixOf (c :: rest) = false := by
      by_contra hc
      rw [Bool.not_eq_false] at hc
      have := List.IsPrefix.length_le (List.isPrefixOf_iff_prefix.mp hc)
      omega
    simp [findFrom, ih _ h1, h2]

theorem take_eq_iff_isPrefixOf (op s : GoString) :
    (s.take op.length = op) ↔ op.isPrefixOf s = true := by
  rw [List.isPrefixOf_iff_prefix]
  constructor
  · intro h1; rw [← h1]; exact List.take_prefix _ _
  · intro h1; exact List.prefix_iff_eq_take.mp h1 |>.symm

theorem findSplitLoop_eq (op : GoString) (hop : op ≠ []) : ∀ (suf pre : GoString) (level : Int),
    findSplitLoop (pre ++ suf) op (suf.length + 1 - op.length) pre.length level =
      .ok (splitResult pre.length (findFrom op suf level)) := by
  have hlen : 0 < op.length := List.length_pos.mpr hop
  intro suf
  induction suf with
  | nil =>
    intro pre level
    have : ([] : GoString).length + 1 - op.length = 0 := by simp; omega
    rw [this]; simp [findSplitLoop, findFrom, splitResult]
  | cons c rest ih =>
    intro pre level
    by_cases hshort : (c :: rest).length < op.length
    · have : (c :: rest).length + 1 - op.length = 0 := by omega
      rw [this, findFrom_short op _ level hshort]; simp [findSplitLoop, splitResult]
    · have hcount : (c :: rest).length + 1 - op.length = (rest.length + 1 - op.length) + 1 := by
        simp at hshort ⊢; omega
      rw [hcount]
      have hpre : pre ++ c :: rest = (pre ++ [c]) ++ rest := by simp
      have ih1 : ∀ lv, findSplitLoop (pre ++ c :: rest) op (rest.length + 1 - op.length)
          ((pre.length : Int) + 1) lv = .ok (splitResult (pre.length + 1) (findFrom op rest lv)) := by
        intro lv
        have := ih (pre ++ [c]) lv
        simpa [← hpre] using this
      rw [findSplitLoop, index_append]
      simp only [Except.bind, bind]
      by_cases h1 : c = '('
      · subst h1
        rw [if_pos rfl, ih1, findFrom, if_pos rfl, splitResult_map]
      · by_cases h2 : c = ')'
        · subst h2
          rw [if_neg (by decide), if_pos rfl, ih1, findFrom, if_neg (by decide), if_pos rfl,
            splitResult_map]
        · rw [if_neg h1, if_neg h2, findFrom, if_neg h1, if_neg h2]
          by_cases h3 : level = 0
          · have hs : slice (pre ++ c :: rest) pre.length (pre.length + op.length) =
                .ok ((c :: rest).take op.length) := by
              have := slice_nat (pre ++ c :: rest) pre.length (pre.length + op.length) (by omega)
                (by simp at hshort ⊢; omega)
              simpa using this
            rw [if_pos h3, hs]
            simp only []
            by_cases h4 : op.isPrefixOf (c :: rest) = true
            · have := (take_eq_iff_isPrefixOf op (c :: rest)).mpr h4
              rw [if_pos this, if_pos ⟨h3, h4⟩]
              simp [splitResult]
            · have h5 : ¬ ((c :: rest).take op.length = op) := fun h =>
                h4 ((take_eq_iff_isPrefixOf op (c :: rest)).mp h)
              rw [if_neg h5, if_neg (fun h => h4 h.2), h3, ih1, splitResult_map]
          · rw [if_neg h3, if_neg (fun h => h3 h.1), ih1, splitResult_map]

/-- The method `findSplitIndex` never indexes out of range and reports the
left-most depth-0 occurrence of a non-empty operator, or -1. -/
theorem findSplitIndex_eq (query op : GoString) (hop : op ≠ []) :
    findSplitIndex query op = .ok (splitResult 0 (findFrom op query 0)) := by
  have h := findSplitLoop_eq op hop query [] 0
  simp only [List.nil_append, List.length_nil] at h
  unfold findSplitIndex
  have hc : ((query.length : Int) - op.length + 1).toNat = query.length + 1 - op.length := by omega
  rw [hc]
  exact h

theorem slice_length (s x : GoString) (lo hi : Int) (h : slice s lo hi = .ok x) :
    (x.length : Int) = hi - lo ∧ 0 ≤ lo ∧ hi ≤ s.length := by
  unfold slice at h
  split at h
  · rename_i hb
    injection h with h
    subst h
    simp only [List.length_take, List.length_drop]
    omega
  · cases h

theorem bind_slice_congr {α : Type} (q : GoString) (lo hi : Int) (r1 r2 : GoString → Result α)
    (hlt : hi - lo < q.length)
    (h : ∀ x : GoString, x.length < q.length → r1 x = r2 x) :
    (slice q lo hi >>= r1) = (slice q lo hi >>= r2) := by
  cases hs : slice q lo hi with
  | error e => rfl
  | ok x =>
    have := slice_length q x lo hi hs
    exact h x (by omega)

theorem findFrom_bound (op : GoString) : ∀ (s : GoString) (level : Int) (k : Nat),
    findFrom op s level = some k → k + op.length ≤ s.length := by
  intro s
  induction s with
  | nil => intro level k h; simp [findFrom] at h
  | cons c rest ih =>
    intro level k h
    rw [findFrom] at h
    split at h
    · cases hf : findFrom op rest (level + 1) with
      | none => simp [hf] at h
      | some j => simp [hf] at h; have := ih _ _ hf; simp; omega
    · split at h
      · cases hf : findFrom op rest (level - 1) with
        | none => simp [hf] at h
        | some j => simp [hf] at h; have := ih _ _ hf; simp; omega
      · split at h
        · rename_i hp
          injection h with h
          have := List.IsPrefix.length_le (List.isPrefixOf_iff_prefix.mp hp.2)
          omega
        · cases hf : findFrom op rest level with
          | none => simp [hf] at h
          | some j => simp [hf] at h; have := ih _ _ hf; simp; omega

/-! ### The steps of `Parse` in terms of the recursive call -/

theorem parseOperators_or (L : GoLib) (query : GoString) (recur : GoString → Result (Expression L))
    (k : Nat) (h : findFrom " OR ".toList query 0 = some k) :
    parseOperators L recur query =
      (recur (query.take k) >>= fun left => recur (query.drop (k + 4)) >>= fun right =>
        pure (.OrExpression left right)) := by
  have hb : k + 4 ≤ query.length := findFrom_bound _ _ _ _ h
  unfold parseOperators
  rw [findSplitIndex_eq query _ (by decide), h]
  have e1 := slice_nat query 0 k (by omega) (by omega)
  have e2 := slice_nat query (k + 4) query.length (by omega) (by omega)
  simp only [List.drop_zero, Nat.sub_zero, Nat.cast_zero] at e1
  rw [List.take_of_length_le (by simp)] at e2
  simp only [splitResult, Nat.zero_add, bind, Except.bind, ne_eq]
  rw [if_pos (by omega)]
  push_cast at e2
  rw [e1, e2]

theorem parseOperators_and (L : GoLib) (query : GoString) (recur : GoString → Result (Expression L))
    (k : Nat) (hor : findFrom " OR ".toList query 0 = none)
    (h : findFrom " AND ".toList query 0 = some k) :
    parseOperators L recur query =
      (recur (query.take k) >>= fun left => recur (query.drop (k + 5)) >>= fun right =>
        pure (.AndExpression left right)) := by
  have hb : k + 5 ≤ query.length := findFrom_bound _ _ _ _ h
  unfold parseOperators
  rw [findSplitIndex_eq query _ (by decide), findSplitIndex_eq query _ (by decide), h, hor]
  have e1 := slice_nat query 0 k (by omega) (by omega)
  have e2 := slice_nat query (k + 5) query.length (by omega) (by omega)
  simp only [List.drop_zero, Nat.sub_zero, Nat.cast_zero] at e1
  rw [List.take_of_length_le (by simp)] at e2
  simp only [splitResult, Nat.zero_add, bind, Except.bind, ne_eq, not_true_eq_false, if_false]
  rw [if_pos (by omega)]
  push_cast at e2
  rw [e1, e2]

theorem parseOperators_not (L : GoLib) (query : GoString) (recur : GoString → Result (Expression L))
    (hor : findFrom " OR ".toList query 0 = none)
    (hand : findFrom " AND ".toList query 0 = none)
    (h : HasPrefix query "NOT ".toList = true) :
    parseOperators L recur query =
      (recur (query.drop 4) >>= fun e => pure (.NotExpression e)) := by
  have hl : 4 ≤ query.length := by
    have := List.IsPrefix.length_le (List.isPrefixOf_iff_prefix.mp h)
    simpa using this
  unfold parseOperators
  rw [findSplitIndex_eq query _ (by decide), findSplitIndex_eq query _ (by decide), hand, hor]
  have e2 := slice_nat query 4 query.length (by omega) (by omega)
  rw [List.take_of_length_le (by simp)] at e2
  simp only [splitResult, bind, Except.bind, ne_eq, not_true_eq_false, if_false, h, if_true]
  push_cast at e2
  rw [e2]

theorem parseOperators_leaf (L : GoLib) (query : GoString) (recur : GoString → Result (Expression L))
    (hor : findFrom " OR ".toList query 0 = none)
    (hand : findFrom " AND ".toList query 0 = none)
    (h : HasPrefix query "NOT ".toList = false) :
    parseOperators L recur query = parseLeaf L query := by
  unfold parseOperators
  rw [findSplitIndex_eq query _ (by decide), findSplitIndex_eq query _ (by decide), hand, hor]
  simp only [splitResult, bind, Except.bind, ne_eq, not_true_eq_false, if_false, h,
    Bool.false_eq_true]

theorem parseOperators_congr (L : GoLib) (query : GoString) (r1 r2 : GoString → Result (Expression L))
    (h : ∀ x : GoString, x.length < query.length → r1 x = r2 x) :
    parseOperators L r1 query = parseOperators L r2 query := by
  cases hor : findFrom " OR ".toList query 0 with
  | some k =>
    have hb : k + 4 ≤ query.length := findFrom_bound _ _ _ _ hor
    rw [parseOperators_or L query r1 k hor, parseOperators_or L query r2 k hor,
      h (query.take k) (by simp; omega), h (query.drop (k + 4)) (by simp; omega)]
  | none =>
    cases hand : findFrom " AND ".toList query 0 with
    | some k =>
      have hb : k + 5 ≤ query.length := findFrom_bound _ _ _ _ hand
      rw [parseOperators_and L query r1 k hor hand, parseOperators_and L query r2 k hor hand,
        h (query.take k) (by simp; omega), h (query.drop (k + 5)) (by simp; omega)]
    | none =>
      cases hnot : HasPrefix query "NOT ".toList with
      | true =>
        have hl : 4 ≤ query.length := by
          have := List.IsPrefix.length_le (List.isPrefixOf_iff_prefix.mp hnot)
          simpa using this
        rw [parseOperators_not L query r1 hor hand hnot, parseOperators_not L query r2 hor hand hnot,
          h (query.drop 4) (by simp; omega)]
      | false =>
        rw [parseOperators_leaf L query r1 hor hand hnot, parseOperators_leaf L query r2 hor hand hnot]

/-! ### The recursion budget of `ParseFuel` is never used up -/

theorem TrimSpace_length_le (s : GoString) : (TrimSpace s).length ≤ s.length := by
  unfold TrimSpace
  have h1 := (List.dropWhile_suffix isSpace (l := s)).length_le
  have h2 := (List.dropWhile_suffix isSpace (l := (s.dropWhile isSpace).reverse)).length_le
  simp only [List.length_reverse] at h2 ⊢
  omega

theorem parseBody_congr (L : GoLib) (query : GoString) (r1 r2 : GoString → Result (Expression L))
    (h : ∀ x : GoString, x.length < (TrimSpace query).length → r1 x = r2 x) :
    parseBody L r1 query = parseBody L r2 query := by
  unfold parseBody
  simp only []
  by_cases he : TrimSpace query = []
  · rw [if_pos he, if_pos he]
  · rw [if_neg he, if_neg he]
    have hpos : 0 < (TrimSpace query).length := List.length_pos.mpr he
    rw [parseOperators_congr L _ r1 r2 h,
      bind_slice_congr (TrimSpace query) 1 (((TrimSpace query).length : Int) - 1) r1 r2 (by omega) h]

theorem ParseFuel_stable (L : GoLib) : ∀ (n m : Nat) (q : GoString), q.length < n → q.length < m →
    ParseFuel L n q = ParseFuel L m q := by
  intro n
  induction n with
  | zero => intro m q h; omega
  | succ n ih =>
    intro m q hn hm
    cases m with
    | zero => omega
    | succ m =>
      rw [ParseFuel, ParseFuel]
      apply parseBody_congr
      intro x hx
      have := TrimSpace_length_le q
      exact ih m x (by omega) (by omega)

/-- The unfolding equation of `Parse`: the recursive calls are calls of `Parse`. -/
theorem Parse_unfold (L : GoLib) (q : GoString) : Parse L q = parseBody L (Parse L) q := by
  unfold Parse
  rw [ParseFuel]
  apply parseBody_congr
  intro x hx
  have := TrimSpace_length_le q
  exact ParseFuel_stable L _ _ x (by omega) (by omega)


/-! ### The only fault of `Parse` is a panic -/

theorem bind_error {α β : Type} (r : Result α) (g : α → Result β) (f : Fault)
    (h : (r >>= g) = .error f) : r = .error f ∨ ∃ x, r = .ok x ∧ g x = .error f := by
  cases r with
  | error e => left; simpa [bind, Except.bind] using h
  | ok x => right; exact ⟨x, rfl, by simpa [bind, Except.bind] using h⟩

theorem slice_fault (s : GoString) (lo hi : Int) (f : Fault) (h : slice s lo hi = .error f) :
    f = .panic := by
  unfold slice at h
  split at h
  · cases h
  · injection h with h; exact h.symm

theorem tryConvertValue_fault (L : GoLib) (v : GoString) (f : Fault)
    (h : tryConvertValue L v = .error f) : f = .panic := by
  unfold tryConvertValue at h
  simp only [] at h
  rcases bind_error _ _ _ h with h1 | ⟨x, _, h2⟩
  · split at h1
    · exact slice_fault _ _ _ _ h1
    · cases h1
  · split at h2
    · cases h2
    · split at h2
      · cases h2
      · split at h2
        · cases h2
        · split at h2 <;> cases h2

theorem compLoop_fault (L : GoLib) (query : GoString) : ∀ (ops : List GoString),
    (∀ op ∈ ops, op ≠ []) → ∀ f, compLoop L query ops = .error f → f = .panic := by
  intro ops
  induction ops with
  | nil => intro _ f h; cases h
  | cons op ops ih =>
    intro hops f h
    have ih1 := ih (fun o ho => hops o (List.mem_cons_of_mem _ ho)) f
    rw [compLoop, findSplitIndex_eq query op (hops op (List.mem_cons_self _ _))] at h
    simp only [bind, Except.bind] at h
    split at h
    · split at h
      · rename_i e he; injection h with h; subst h; exact slice_fault _ _ _ _ he
      · split at h
        · rename_i e he; injection h with h; subst h; exact slice_fault _ _ _ _ he
        · split at h
          · rename_i e he; injection h with h; subst h; exact tryConvertValue_fault _ _ _ he
          · split at h
            · cases h
            · split at h
              · cases h
              · split at h
                · cases h
                · exact ih1 h
    · exact ih1 h

theorem parseLeaf_fault (L : GoLib) (query : GoString) (f : Fault)
    (h : parseLeaf L query = .error f) : f = .panic := by
  unfold parseLeaf at h
  rcases bind_error _ _ _ h with h1 | ⟨x, _, h2⟩
  · exact compLoop_fault L query _ (by decide) f h1
  · split at h2
    · cases h2
    · split at h2
      · cases h2
      · split at h2 <;> cases h2

theorem parseOperators_fault (L : GoLib) (query : GoString) (recur : GoString → Result (Expression L))
    (hr : ∀ x : GoString, x.length < query.length → ∀ f, recur x = .error f → f = .panic)
    (f : Fault) (h : parseOperators L recur query = .error f) : f = .panic := by
  cases hor : findFrom " OR ".toList query 0 with
  | some k =>
    have hb : k + 4 ≤ query.length := findFrom_bound _ _ _ _ hor
    rw [parseOperators_or L query recur k hor] at h
    rcases bind_error _ _ _ h with h1 | ⟨x, _, h2⟩
    · exact hr _ (by simp; omega) f h1
    · rcases bind_error _ _ _ h2 with h3 | ⟨y, _, h4⟩
      · exact hr _ (by simp; omega) f h3
      · cases h4
  | none =>
    cases hand : findFrom " AND ".toList query 0 with
    | some k =>
      have hb : k + 5 ≤ query.length := findFrom_bound _ _ _ _ hand
      rw [parseOperators_and L query recur k hor hand] at h
      rcases bind_error _ _ _ h with h1 | ⟨x, _, h2⟩
      · exact hr _ (by simp; omega) f h1
      · rcases bind_error _ _ _ h2 with h3 | ⟨y, _, h4⟩
        · exact hr _ (by simp; omega) f h3
        · cases h4
    | none =>
      cases hnot : HasPrefix query "NOT ".toList with
      | true =>
        have hl : 4 ≤ query.length := by
          have := List.IsPrefix.length_le (List.isPrefixOf_iff_prefix.mp hnot)
          simpa using this
        rw [parseOperators_not L query recur hor hand hnot] at h
        rcases bind_error _ _ _ h with h1 | ⟨x, _, h2⟩
        · exact hr _ (by simp; omega) f h1
        · cases h2
      | false =>
        rw [parseOperators_leaf L query recur hor hand hnot] at h
        exact parseLeaf_fault L query f h

theorem parseBody_fault (L : GoLib) (query : GoString) (recur : GoString → Result (Expression L))
    (hr : ∀ x : GoString, x.length < (TrimSpace query).length →
      ∀ f, recur x = .error f → f = .panic)
    (f : Fault) (h : parseBody L recur query = .error f) : f = .panic := by
  unfold parseBody at h
  simp only [] at h
  split at h
  · cases h
  · rename_i he
    have hpos : 0 < (TrimSpace query).length := List.length_pos.mpr he
    split at h
    · split at h
      · rcases bind_error _ _ _ h with h1 | ⟨x, hx, h2⟩
        · exact slice_fault _ _ _ _ h1
        · have := slice_length _ _ _ _ hx
          exact hr x (by omega) f h2
      · split at h
        · cases h
        · exact parseOperators_fault L _ recur hr f h
    · exact parseOperators_fault L _ recur hr f h

/-- The method `Parse` never reports `outOfFuel`. -/
theorem Parse_fault (L : GoLib) : ∀ (n : Nat) (q : GoString), q.length < n →
    ∀ f, Parse L q = .error f → f = .panic := by
  intro n
  induction n with
  | zero => intro q h; omega
  | succ n ih =>
    intro q hq f h
    rw [Parse_unfold] at h
    refine parseBody_fault L q (Parse L) ?_ f h
    intro x hx
    have := TrimSpace_length_le q
    exact ih x (by omega)

/-! ### The method `Filter` -/

theorem filterLoop_eq (L : GoLib) (e : Expression L) : ∀ (data acc : List (Context L)),
    filterLoop L e data (.mk acc) = .mk (acc ++ data.filter (fun r => Interpret L e r)) := by
  intro data
  induction data with
  | nil => intro acc; simp [filterLoop]
  | cons item rest ih =>
    intro acc
    rw [filterLoop]
    by_cases h : Interpret L e item = true
    · rw [if_pos h, Slice.append, Slice.toList, ih, List.filter_cons_of_pos (by simpa using h)]
      simp
    · rw [if_neg h, ih, List.filter_cons_of_neg (by simpa using h)]

theorem Filter_of_Parse (L : GoLib) (R : List (Context L)) (q : GoString) (e : Expression L)
    (h : Parse L q = .ok e) :
    Filter L R q = .ok (.mk (R.filter (fun r => Interpret L e r))) := by
  unfold Filter
  rw [h]
  simp only [bind, Except.bind, pure, Except.pure]
  rw [filterLoop_eq]
  simp

/-- C1. Whenever `Parse` returns an expression for the query, `Filter` returns
the allocated slice holding exactly the records on which that expression
interprets to true, in input order: the `List.filter` of the records by the
parsed expression. -/
theorem Filter_eq_filter (L : GoLib) (R : List (Context L)) (q : GoString) (e : Expression L)
    (h : Parse L q = .ok e) :
    Filter L R q = .ok (.mk (R.filter (fun r => Interpret L e r))) :=
  Filter_of_Parse L R q e h

theorem Filter_eq_filter_witness :
    Parse GoLib.plain "age > 30".toList = .ok (.GreaterThanExpression "age".toList (.int 30)) ∧
    Filter GoLib.plain
        [[("name".toList, .str "John".toList), ("age".toList, .int 34)],
         [("name".toList, .str "Sarah".toList), ("age".toList, .int 29)]] "age > 30".toList =
      .ok (.mk ([[("name".toList, .str "John".toList), ("age".toList, .int 34)],
         [("name".toList, .str "Sarah".toList), ("age".toList, .int 29)]].filter
           (fun r => Interpret GoLib.plain (.GreaterThanExpression "age".toList (.int 30)) r))) :=
  ⟨rfl, Filter_eq_filter GoLib.plain _ _ _ rfl⟩

/-- C2 (failing input). On the query `a = "`, whose right-hand side is a lone
double quote, `tryConvertValue` evaluates the slice `valueStr[1:0]` and `Parse`
panics instead of returning an expression. -/
theorem Parse_panics_on_lone_quote (L : GoLib) :
    Parse L "a = \"".toList = .error .panic := by
  rfl

/-- Whenever `Filter` returns, the elements of its result form a sublist of the
input (same records, same relative order, none added); the only case in which
it returns nothing is the panic of `Parse` on that query. -/
theorem Filter_subsequence (L : GoLib) (R : List (Context L)) (q : GoString) :
    (∃ res, Filter L R q = .ok res ∧ List.Sublist res.toList R) ∨
    (Filter L R q = .error .panic ∧ Parse L q = .error .panic) := by
  cases h : Parse L q with
  | ok e =>
    left
    exact ⟨_, Filter_of_Parse L R q e h, List.filter_sublist R⟩
  | error f =>
    right
    have hf := Parse_fault L (q.length + 1) q (by omega) f h
    subst hf
    refine ⟨?_, rfl⟩
    unfold Filter
    rw [h]
    rfl

/-- C3 (failing input). On the query `a = "` `Filter` panics, whatever the
records, instead of returning a subsequence of them; on every query on which
`Filter` does return, its result is a sublist of the input. -/
theorem Filter_panics_on_lone_quote (L : GoLib) (R : List (Context L)) :
    Filter L R "a = \"".toList = .error .panic ∧
    ∀ (q : GoString) (res : Slice (Context L)), Filter L R q = .ok res →
      List.Sublist res.toList R := by
  refine ⟨by rfl, ?_⟩
  intro q res h
  rcases Filter_subsequence L R q with ⟨r, h1, h2⟩ | ⟨h1, _⟩
  · rw [h1] at h
    injection h with h
    rw [← h]
    exact h2
  · rw [h1] at h
    cases h


/-! ### The conversions `Atoi` and `Itoa` -/

theorem digitChar_toNat (d : Nat) (h : d < 10) : (Nat.digitChar d).toNat = 48 + d := by
  interval_cases d <;> rfl

theorem parseDigits_append (xs ys : List Char) : ∀ acc,
    parseDigits (xs ++ ys) acc = (parseDigits xs acc).bind (fun v => parseDigits ys v) := by
  induction xs with
  | nil => intro acc; rfl
  | cons c cs ih =>
    intro acc
    simp only [List.cons_append, parseDigits]
    split
    · exact ih _
    · rfl

theorem toDigitsCore_spec : ∀ (fuel n : Nat) (ds : List Char), n < fuel →
    ∃ pre : List Char, Nat.toDigitsCore 10 fuel n ds = pre ++ ds ∧ pre ≠ [] ∧
      (∀ c ∈ pre, 48 ≤ c.toNat ∧ c.toNat ≤ 57) ∧
      ∀ acc, parseDigits pre acc = some (acc * 10 ^ pre.length + n) := by
  intro fuel
  induction fuel with
  | zero => intro n ds h; omega
  | succ fuel ih =>
    intro n ds h
    have hd := digitChar_toNat (n % 10) (Nat.mod_lt _ (by decide))
    rw [Nat.toDigitsCore]
    by_cases h0 : n / 10 = 0
    · simp only [h0, if_true]
      refine ⟨[Nat.digitChar (n % 10)], rfl, by simp, ?_, ?_⟩
      · intro c hc
        simp only [List.mem_singleton] at hc
        subst hc; omega
      · intro acc
        simp only [parseDigits, hd, List.length_singleton, pow_one]
        rw [if_pos (by omega)]
        congr 1
        omega
    · simp only [h0, if_false]
      obtain ⟨pre, e1, _, e3, e4⟩ := ih (n / 10) (Nat.digitChar (n % 10) :: ds) (by omega)
      refine ⟨pre ++ [Nat.digitChar (n % 10)], by rw [e1]; simp, by simp, ?_, ?_⟩
      · intro c hc
        rcases List.mem_append.mp hc with hc | hc
        · exact e3 c hc
        · simp only [List.mem_singleton] at hc
          subst hc; omega
      · intro acc
        rw [parseDigits_append, e4]
        simp only [Option.bind, parseDigits, hd, List.length_append, List.length_singleton]
        rw [if_pos (by omega)]
        congr 1
        rw [pow_succ]
        have := Nat.div_add_mod n 10
        have e : 48 + n % 10 - 48 = n % 10 := by omega
        rw [e]
        nlinarith [Nat.div_add_mod n 10]

theorem natDigits_spec (n : Nat) : natDigits n ≠ [] ∧
    (∀ c ∈ natDigits n, 48 ≤ c.toNat ∧ c.toNat ≤ 57) ∧ parseDigits (natDigits n) 0 = some n := by
  obtain ⟨pre, e1, e2, e3, e4⟩ := toDigitsCore_spec (n + 1) n [] (by omega)
  have e : natDigits n = pre := by simpa [natDigits, Nat.toDigits] using e1
  rw [e]
  exact ⟨e2, e3, by simpa using e4 0⟩

/-- On every Go `int`, `Atoi` reads back what `Itoa` printed. -/
theorem Atoi_Itoa (n : Int) (h : -(2 : Int) ^ 63 ≤ n ∧ n < (2 : Int) ^ 63) :
    Atoi (Itoa n) = some n := by
  obtain ⟨hne, hdig, hparse⟩ := natDigits_spec n.natAbs
  unfold Itoa
  by_cases hneg : n < 0
  · rw [if_pos hneg]
    unfold Atoi
    simp only [List.head?_cons, List.tail_cons, beq_self_eq_true, Bool.true_or, if_true]
    rw [if_neg hne, hparse]
    simp only []
    have e : -((n.natAbs : Nat) : Int) = n := by omega
    rw [e, if_pos h]
  · rw [if_neg hneg]
    cases hd : natDigits n.natAbs with
    | nil => exact absurd hd hne
    | cons c cs =>
      have hc := hdig c (by rw [hd]; exact List.mem_cons_self _ _)
      have hc1 : (c == '-') = false := by
        rw [beq_eq_false_iff_ne]; intro hh; subst hh; revert hc; decide
      have hc2 : (c == '+') = false := by
        rw [beq_eq_false_iff_ne]; intro hh; subst hh; revert hc; decide
      unfold Atoi
      simp only [List.head?_cons, Option.some_beq_some, hc1, hc2, Bool.or_self, Bool.false_eq_true,
        if_false]
      rw [if_neg (by simp), ← hd, hparse]
      simp only []
      have e : ((n.natAbs : Nat) : Int) = n := by omega
      rw [e, if_pos h]

theorem foldRune_digit (L : GoLib) (a b : Char)
    (ha : a.toNat = 45 ∨ (48 ≤ a.toNat ∧ a.toNat ≤ 57)) (h : foldRune L a b = true) : b = a := by
  unfold foldRune at h
  by_cases hab : a = b
  · exact hab.symm
  · rw [if_neg hab] at h
    simp only [] at h
    exfalso
    split at h
    · simp only [Bool.and_eq_true, decide_eq_true_eq, beq_iff_eq] at h
      omega
    · split at h
      · simp only [Bool.and_eq_true, Bool.or_eq_true, beq_iff_eq] at h
        omega
      · omega

theorem EqualFold_digits (L : GoLib) : ∀ (t s : GoString),
    (∀ c ∈ t, c.toNat = 45 ∨ (48 ≤ c.toNat ∧ c.toNat ≤ 57)) → EqualFold L t s = true → s = t := by
  intro t
  induction t with
  | nil => intro s _ h; cases s with
    | nil => rfl
    | cons b s => simp [EqualFold] at h
  | cons a t ih =>
    intro s ht h
    cases s with
    | nil => simp [EqualFold] at h
    | cons b s =>
      simp only [EqualFold, Bool.and_eq_true] at h
      have h1 := foldRune_digit L a b (ht a (List.mem_cons_self _ _)) h.1
      have h2 := ih s (fun c hc => ht c (List.mem_cons_of_mem _ hc)) h.2
      rw [h1, h2]

theorem EqualFold_Itoa (L : GoLib) (n : Int) (s : GoString) (h : EqualFold L (Itoa n) s = true) :
    s = Itoa n := by
  apply EqualFold_digits L _ _ _ h
  obtain ⟨_, hdig, _⟩ := natDigits_spec n.natAbs
  intro c hc
  unfold Itoa at hc
  split at hc
  · rcases List.mem_cons.mp hc with hc | hc
    · left; subst hc; rfl
    · right; exact hdig c hc
  · right; exact hdig c hc


/-! ### Precedence, grouping and malformed input on concrete queries -/

/-- C4. The query `a = 1 OR b = 2 AND c = 3` parses, and on every context its
expression evaluates to `Equals(a,1) OR (Equals(b,2) AND Equals(c,3))`. -/
theorem Parse_precedence (L : GoLib) :
    ∃ e, Parse L "a = 1 OR b = 2 AND c = 3".toList = .ok e ∧
      ∀ ctx : Context L, Interpret L e ctx =
        (Interpret L (.EqualsExpression "a".toList (.int 1)) ctx ||
          (Interpret L (.EqualsExpression "b".toList (.int 2)) ctx &&
            Interpret L (.EqualsExpression "c".toList (.int 3)) ctx)) :=
  ⟨_, rfl, fun _ => rfl⟩

/-- C7. The query `(a = 1 OR b = 1) AND c = 1` parses to the grouped form
`(Equals(a,1) OR Equals(b,1)) AND Equals(c,1)`; on the context
`a = 1, b = 0, c = 0` it is false while the query without the parentheses is
true. -/
theorem Parse_grouping (L : GoLib) :
    (∃ e, Parse L "(a = 1 OR b = 1) AND c = 1".toList = .ok e ∧
      (∀ ctx : Context L, Interpret L e ctx =
        ((Interpret L (.EqualsExpression "a".toList (.int 1)) ctx ||
          Interpret L (.EqualsExpression "b".toList (.int 1)) ctx) &&
            Interpret L (.EqualsExpression "c".toList (.int 1)) ctx)) ∧
      Interpret L e [("a".toList, .int 1), ("b".toList, .int 0), ("c".toList, .int 0)] = false) ∧
    (∃ e, Parse L "a = 1 OR b = 1 AND c = 1".toList = .ok e ∧
      Interpret L e [("a".toList, .int 1), ("b".toList, .int 0), ("c".toList, .int 0)] = true) :=
  ⟨⟨_, rfl, fun _ => rfl, rfl⟩, ⟨_, rfl, rfl⟩⟩

/-- C8 (failing input). The expression parsed from the unbalanced `(a = 1` is
true on the context whose only field is named `(a = 1` and holds `true`, where
a malformed query is to be false on every context. -/
theorem Parse_unbalanced_counterexample :
    ∃ e, Parse GoLib.plain "(a = 1".toList = .ok e ∧
      Interpret GoLib.plain e [("(a = 1".toList, .bool true)] = true :=
  ⟨_, rfl, rfl⟩

/-- What `Parse` makes of `(a = 1`: the variable named `(a = 1`, which is false
on every context with no field of that name, and otherwise has the truthiness
of that field. -/
theorem Parse_unbalanced (L : GoLib) :
    Parse L "(a = 1".toList = .ok (.VariableExpression "(a = 1".toList) ∧
    ∀ ctx : Context L, Interpret L (.VariableExpression "(a = 1".toList) ctx =
      match ctx.lookup "(a = 1".toList with
      | none => false
      | some value => truthy L value :=
  ⟨rfl, fun _ => rfl⟩

theorem TrimSpace_blank (q : GoString) (h : ∀ c ∈ q, isSpace c = true) : TrimSpace q = [] := by
  unfold TrimSpace
  have : q.dropWhile isSpace = [] := by
    rw [List.dropWhile_eq_nil_iff]; exact h
  rw [this]; rfl

/-- C9. `Filter` on the empty query returns the allocated empty slice, and for
every query made of white space only `Parse` returns `Literal(false)` and
`Filter` returns the allocated empty slice, whatever the records. -/
theorem Filter_blank (L : GoLib) (R : List (Context L)) (q : GoString)
    (h : ∀ c ∈ q, isSpace c = true) :
    Filter L R [] = .ok (.mk []) ∧
    Parse L q = .ok (.LiteralExpression (.bool false)) ∧
    Filter L R q = .ok (.mk []) ∧
    (Slice.mk [] : Slice (Context L)) ≠ Slice.nil := by
  have hp : ∀ q' : GoString, (∀ c ∈ q', isSpace c = true) →
      Parse L q' = .ok (.LiteralExpression (.bool false)) := by
    intro q' h'
    rw [Parse_unfold, parseBody]
    simp only [TrimSpace_blank q' h', if_true]
  have hf : ∀ q' : GoString, (∀ c ∈ q', isSpace c = true) → Filter L R q' = .ok (.mk []) := by
    intro q' h'
    rw [Filter_of_Parse L R q' _ (hp q' h')]
    simp [Interpret, truthy]
  exact ⟨hf [] (by simp), hp q h, hf q h, fun hh => by cases hh⟩

theorem Filter_blank_witness :
    (∀ c ∈ " \t ".toList, isSpace c = true) ∧
    Filter GoLib.plain [[("name".toList, .str "John".toList)]] [] = .ok (.mk []) ∧
    Parse GoLib.plain " \t ".toList = .ok (.LiteralExpression (.bool false)) ∧
    Filter GoLib.plain [[("name".toList, .str "John".toList)]] " \t ".toList = .ok (.mk []) :=
  ⟨by decide,
    (Filter_blank GoLib.plain [[("name".toList, .str "John".toList)]] " \t ".toList
      (by decide)).1,
    (Filter_blank GoLib.plain [[("name".toList, .str "John".toList)]] " \t ".toList
      (by decide)).2.1,
    (Filter_blank GoLib.plain [[("name".toList, .str "John".toList)]] " \t ".toList
      (by decide)).2.2.1⟩

/-- C10. When the field holds an Integer `n` (a Go `int`) and the target is a
String `s`, `EqualsExpression` is true exactly when `Atoi` converts `s` to some
`m` with `n = m`; so `Equals("age", "30")` is true for `age = 30` and false for
`age = 31`. -/
theorem Equals_int_string (L : GoLib) (ctx : Context L) (name s : GoString) (n : Int)
    (hctx : ctx.lookup name = some (.int n))
    (hn : -(2 : Int) ^ 63 ≤ n ∧ n < (2 : Int) ^ 63) :
    (Interpret L (.EqualsExpression name (.str s)) ctx = true ↔ ∃ m, Atoi s = some m ∧ n = m) ∧
    Interpret L (.EqualsExpression "age".toList (.str "30".toList)) [("age".toList, .int 30)] = true ∧
    Interpret L (.EqualsExpression "age".toList (.str "30".toList)) [("age".toList, .int 31)] = false := by
  refine ⟨?_, rfl, rfl⟩
  simp only [Interpret, hctx, equalsValue]
  cases ha : Atoi s with
  | some m => simp
  | none =>
    simp only [toString]
    constructor
    · intro hf
      have := EqualFold_Itoa L n s hf
      rw [this, Atoi_Itoa n hn] at ha
      cases ha
    · rintro ⟨m, hm, _⟩
      cases hm


theorem Equals_int_string_witness :
    ([("age".toList, Value.int 30)] : Context GoLib.plain).lookup "age".toList = some (.int 30) ∧
    (-(2 : Int) ^ 63 ≤ 30 ∧ (30 : Int) < (2 : Int) ^ 63) ∧
    (Interpret GoLib.plain (.EqualsExpression "age".toList (.str "30".toList))
      [("age".toList, .int 30)] = true ↔ ∃ m, Atoi "30".toList = some m ∧ (30 : Int) = m) :=
  ⟨rfl, by decide,
    (Equals_int_string GoLib.plain [("age".toList, .int 30)] "age".toList "30".toList 30 rfl
      (by decide)).1⟩


/-! ### Parenthesised groups -/

theorem map_add_map (o : Option Nat) (a b : Nat) :
    (o.map (· + a)).map (· + b) = o.map (· + (a + b)) := by
  cases o <;> simp [Nat.add_assoc]

theorem depthOf_take_succ (c : Char) (t : GoString) (k : Nat) :
    depthOf ((c :: t).take (k + 1)) =
      (if c = '(' then 1 else if c = ')' then -1 else 0) + depthOf (t.take k) := by
  simp [depthOf]

theorem findFrom_inside (op : GoString) : ∀ (q rest : GoString) (level : Int),
    (∀ k, k ≤ q.length → 0 < level + depthOf (q.take k)) →
    findFrom op (q ++ ')' :: rest) level =
      (findFrom op rest (level + depthOf q - 1)).map (· + (q.length + 1)) := by
  intro q
  induction q with
  | nil =>
    intro rest level _
    simp [findFrom, depthOf]
  | cons c t ih =>
    intro rest level h
    have h0 : 0 < level := by simpa [depthOf] using h 0 (by simp)
    have hs : ∀ k, k ≤ t.length →
        0 < level + ((if c = '(' then 1 else if c = ')' then -1 else 0) + depthOf (t.take k)) := by
      intro k hk
      have := h (k + 1) (by simp; omega)
      rwa [depthOf_take_succ] at this
    rw [List.cons_append, findFrom]
    by_cases h1 : c = '('
    · subst h1
      simp only [if_true] at hs ⊢
      rw [ih rest (level + 1) (fun k hk => by have := hs k hk; omega), map_add_map]
      simp only [depthOf, if_true, List.length_cons]
      congr 2; omega
    · by_cases h2 : c = ')'
      · subst h2
        simp only [if_neg h1, if_true] at hs ⊢
        rw [ih rest (level - 1) (fun k hk => by have := hs k hk; omega), map_add_map]
        simp only [depthOf, if_neg h1, if_true, List.length_cons]
        congr 2; omega
      · simp only [if_neg h1, if_neg h2] at hs ⊢
        rw [if_neg (fun hh => by omega),
          ih rest level (fun k hk => by have := hs k hk; omega), map_add_map]
        simp only [depthOf, if_neg h1, if_neg h2, List.length_cons]
        congr 2; omega

theorem findFrom_group (op q rest : GoString) (h : Balanced q) :
    findFrom op ('(' :: (q ++ ')' :: rest)) 0 = (findFrom op rest 0).map (· + (q.length + 2)) := by
  rw [findFrom, if_pos rfl,
    findFrom_inside op q rest (0 + 1) (fun k hk => by have := h.1 k hk; omega), map_add_map, h.2]
  simp

theorem parenLoop_inside (len : Nat) : ∀ (q rest : GoString) (i level : Int),
    (∀ k, k ≤ q.length → 0 < level + depthOf (q.take k)) →
    parenLoop len (q ++ rest) i level = parenLoop len rest (i + q.length) (level + depthOf q) := by
  intro q
  induction q with
  | nil => intro rest i level _; simp [depthOf]
  | cons c t ih =>
    intro rest i level h
    have hs : ∀ k, k ≤ t.length →
        0 < level + ((if c = '(' then 1 else if c = ')' then -1 else 0) + depthOf (t.take k)) := by
      intro k hk
      have := h (k + 1) (by simp; omega)
      rwa [depthOf_take_succ] at this
    have h1 := hs 0 (by omega)
    simp only [List.take_zero, depthOf, add_zero] at h1
    rw [List.cons_append, parenLoop]
    have e : (if c = '(' then level + 1 else if c = ')' then level - 1 else level) =
        level + (if c = '(' then 1 else if c = ')' then -1 else 0) := by
      split
      · rfl
      · split <;> omega
    simp only [e]
    rw [if_neg (fun hh => by omega), ih rest _ _ (fun k hk => by have := hs k hk; omega)]
    simp only [depthOf, List.length_cons]
    congr 1
    · push_cast; omega
    · omega

theorem TrimSpace_of_ends (s : GoString)
    (h1 : ∀ a, s.head? = some a → isSpace a = false)
    (h2 : ∀ b, s.getLast? = some b → isSpace b = false) : TrimSpace s = s := by
  unfold TrimSpace
  cases s with
  | nil => rfl
  | cons a t =>
    have ha := h1 a rfl
    rw [List.dropWhile_cons_of_neg (by simp [ha])]
    cases hr : (a :: t).reverse with
    | nil => simp at hr
    | cons b r =>
      have hb : isSpace b = false := by
        apply h2
        rw [← List.head?_reverse, hr]; rfl
      rw [List.dropWhile_cons_of_neg (by simp [hb]), ← hr, List.reverse_reverse]

theorem TrimSpace_group (q : GoString) (rest : GoString) (hr : rest = [] ∨ rest.getLast? = some ')') :
    TrimSpace ('(' :: (q ++ ')' :: rest)) = '(' :: (q ++ ')' :: rest) := by
  apply TrimSpace_of_ends
  · intro a ha
    simp only [List.head?_cons, Option.some.injEq] at ha
    subst ha; rfl
  · intro b hb
    have : ('(' :: (q ++ ')' :: rest)).getLast? = some ')' := by
      rcases hr with hr | hr
      · subst hr
        rw [show '(' :: (q ++ [')']) = ('(' :: q) ++ [')'] by simp, List.getLast?_append]
        simp
      · rw [show '(' :: (q ++ ')' :: rest) = ('(' :: q ++ [')']) ++ rest by simp,
          List.getLast?_append, hr]
        simp
    rw [this] at hb
    injection hb with hb
    subst hb; rfl

theorem HasSuffix_group (q : GoString) (rest : GoString) (hr : rest = [] ∨ rest.getLast? = some ')') :
    HasSuffix ('(' :: (q ++ ')' :: rest)) ")".toList = true := by
  unfold HasSuffix
  rw [List.isSuffixOf_iff_suffix]
  rcases hr with hr | hr
  · subst hr
    exact ⟨'(' :: q, by simp⟩
  · have hne : rest ≠ [] := by intro h; subst h; simp at hr
    refine ⟨'(' :: (q ++ ')' :: rest.dropLast), ?_⟩
    have := List.dropLast_append_getLast? ')' (by simpa using hr)
    simp only [List.cons_append, List.append_assoc, String.toList]
    rw [this]

theorem parenLoop_group (len : Nat) (q rest : GoString) (h : Balanced q) :
    parenLoop len ('(' :: (q ++ ')' :: rest)) 0 0 =
      if ((q.length : Int) + 1 < (len : Int) - 1) then (0, false)
      else parenLoop len rest ((q.length : Int) + 2) 0 := by
  rw [parenLoop]
  simp only [if_true]
  rw [if_neg (by omega), parenLoop_inside len q (')' :: rest) (0 + 1) (0 + 1)
    (fun k hk => by have := h.1 k hk; omega), h.2, parenLoop]
  simp only [if_neg (show ¬ (')' = '(') by decide), if_true]
  by_cases hc : (q.length : Int) + 1 < (len : Int) - 1
  · rw [if_pos hc, if_pos ⟨by omega, by omega⟩]
    congr 1
  · rw [if_neg hc, if_neg (fun hh => hc (by omega))]
    congr 1; omega

theorem HasPrefix_group (s : GoString) : HasPrefix ('(' :: s) "(".toList = true := by
  simp [HasPrefix, List.isPrefixOf]

theorem slice_group (q : GoString) :
    slice ('(' :: (q ++ [')'])) 1 ((('(' :: (q ++ [')'])).length : Int) - 1) = .ok q := by
  have := slice_nat ('(' :: (q ++ [')'])) 1 (q.length + 1) (by omega) (by simp)
  simp only [List.drop_succ_cons, List.drop_zero, Nat.add_sub_cancel] at this
  rw [List.take_left'] at this
  · rw [← this]
    congr 1
    simp
  · rfl

/-- A balanced text wrapped in one pair of parentheses parses as the text itself. -/
theorem Parse_paren (L : GoLib) (q : GoString) (h : Balanced q) :
    Parse L ('(' :: (q ++ [')'])) = Parse L q := by
  have hscan : parenLoop ('(' :: (q ++ [')'])).length ('(' :: (q ++ [')'])) 0 0 = (0, true) := by
    rw [parenLoop_group _ q [] h,
      if_neg (by simp only [List.length_cons, List.length_append, List.length_nil]
                 push_cast; omega)]
    rfl
  rw [Parse_unfold, parseBody]
  simp only []
  rw [TrimSpace_group q [] (Or.inl rfl), if_neg (by simp), HasPrefix_group,
    HasSuffix_group q [] (Or.inl rfl), hscan, slice_group]
  rfl

/-- C6. For balanced `q1` and `q2`, the query `(q1) OR (q2)` parses to the
`Or` of the parses of `q1` and `q2`, and `(q1) AND (q2)` to their `And`
(panicking exactly when one of the two parses does, left first); hence on every
context the query evaluates to the disjunction, respectively conjunction, of
the values of `q1` and `q2`. -/
theorem Parse_parenthesised_groups (L : GoLib) (q1 q2 : GoString)
    (h1 : Balanced q1) (h2 : Balanced q2) :
    (Parse L ("(".toList ++ q1 ++ ") OR (".toList ++ q2 ++ ")".toList) =
      (Parse L q1 >>= fun l => Parse L q2 >>= fun r => pure (.OrExpression l r))) ∧
    (Parse L ("(".toList ++ q1 ++ ") AND (".toList ++ q2 ++ ")".toList) =
      (Parse L q1 >>= fun l => Parse L q2 >>= fun r => pure (.AndExpression l r))) ∧
    (∀ ctx, evalQuery L ("(".toList ++ q1 ++ ") OR (".toList ++ q2 ++ ")".toList) ctx =
      (evalQuery L q1 ctx >>= fun a => evalQuery L q2 ctx >>= fun b => pure (a || b))) ∧
    (∀ ctx, evalQuery L ("(".toList ++ q1 ++ ") AND (".toList ++ q2 ++ ")".toList) ctx =
      (evalQuery L q1 ctx >>= fun a => evalQuery L q2 ctx >>= fun b => pure (a && b))) := by
  have hor : Parse L ("(".toList ++ q1 ++ ") OR (".toList ++ q2 ++ ")".toList) =
      (Parse L q1 >>= fun l => Parse L q2 >>= fun r => pure (.OrExpression l r)) := by
    have hq : "(".toList ++ q1 ++ ") OR (".toList ++ q2 ++ ")".toList =
        '(' :: (q1 ++ ')' :: (" OR ".toList ++ ('(' :: (q2 ++ [')'])))) := by simp
    have hlast : (" OR ".toList ++ ('(' :: (q2 ++ [')']))).getLast? = some ')' := by
      rw [show " OR ".toList ++ ('(' :: (q2 ++ [')'])) = (" OR ".toList ++ '(' :: q2) ++ [')'] by simp,
        List.getLast?_append]
      simp
    have hscan : parenLoop ('(' :: (q1 ++ ')' :: (" OR ".toList ++ ('(' :: (q2 ++ [')']))))).length
        ('(' :: (q1 ++ ')' :: (" OR ".toList ++ ('(' :: (q2 ++ [')']))))) 0 0 = (0, false) := by
      rw [parenLoop_group _ q1 _ h1,
        if_pos (by simp only [List.length_cons, List.length_append, String.toList]
                   push_cast; omega)]
    have hfind : findFrom " OR ".toList
        ('(' :: (q1 ++ ')' :: (" OR ".toList ++ ('(' :: (q2 ++ [')']))))) 0 = some (q1.length + 2) := by
      rw [findFrom_group _ q1 _ h1]
      simp [findFrom, List.isPrefixOf]
    rw [hq, Parse_unfold, parseBody]
    simp only []
    rw [TrimSpace_group q1 _ (Or.inr hlast), if_neg (by simp), HasPrefix_group,
      HasSuffix_group q1 _ (Or.inr hlast), hscan]
    simp only [Bool.and_false, Bool.false_and, Bool.false_eq_true, if_false, ne_eq,
      not_true_eq_false, Bool.true_and]
    rw [parseOperators_or L _ (Parse L) _ hfind]
    have e1 : List.take (q1.length + 2) ('(' :: (q1 ++ ')' :: (" OR ".toList ++ ('(' :: (q2 ++ [')'])))))
        = '(' :: (q1 ++ [')']) := by
      rw [show '(' :: (q1 ++ ')' :: (" OR ".toList ++ ('(' :: (q2 ++ [')'])))) =
        ('(' :: (q1 ++ [')'])) ++ (" OR ".toList ++ ('(' :: (q2 ++ [')']))) by simp]
      exact List.take_left' (by simp)
    have e2 : List.drop (q1.length + 2 + 4) ('(' :: (q1 ++ ')' :: (" OR ".toList ++ ('(' :: (q2 ++ [')'])))))
        = '(' :: (q2 ++ [')']) := by
      rw [show '(' :: (q1 ++ ')' :: (" OR ".toList ++ ('(' :: (q2 ++ [')'])))) =
        (('(' :: (q1 ++ [')'])) ++ " OR ".toList) ++ ('(' :: (q2 ++ [')'])) by simp]
      exact List.drop_left' (by simp)
    rw [e1, e2, Parse_paren L q1 h1, Parse_paren L q2 h2]
    simp only [ite_self]
  have hand : Parse L ("(".toList ++ q1 ++ ") AND (".toList ++ q2 ++ ")".toList) =
      (Parse L q1 >>= fun l => Parse L q2 >>= fun r => pure (.AndExpression l r)) := by
    have hq : "(".toList ++ q1 ++ ") AND (".toList ++ q2 ++ ")".toList =
        '(' :: (q1 ++ ')' :: (" AND ".toList ++ ('(' :: (q2 ++ [')'])))) := by simp
    have hlast : (" AND ".toList ++ ('(' :: (q2 ++ [')']))).getLast? = some ')' := by
      rw [show " AND ".toList ++ ('(' :: (q2 ++ [')'])) = (" AND ".toList ++ '(' :: q2) ++ [')'] by simp,
        List.getLast?_append]
      simp
    have hscan : parenLoop ('(' :: (q1 ++ ')' :: (" AND ".toList ++ ('(' :: (q2 ++ [')']))))).length
        ('(' :: (q1 ++ ')' :: (" AND ".toList ++ ('(' :: (q2 ++ [')']))))) 0 0 = (0, false) := by
      rw [parenLoop_group _ q1 _ h1,
        if_pos (by simp only [List.length_cons, List.length_append, String.toList]
                   push_cast; omega)]
    have hnone : findFrom " OR ".toList
        ('(' :: (q1 ++ ')' :: (" AND ".toList ++ ('(' :: (q2 ++ [')']))))) 0 = none := by
      have hskip : ∀ Y : GoString, findFrom " OR ".toList (" AND ".toList ++ ('(' :: Y)) 0 =
          (findFrom " OR ".toList ('(' :: Y) 0).map (· + 5) := by
        intro Y
        simp only [findFrom, String.toList, List.cons_append, List.nil_append, List.isPrefixOf]
        simp [Option.map_map, Function.comp_def]
      have hq2 := findFrom_group " OR ".toList q2 [] h2
      rw [show findFrom " OR ".toList [] 0 = none from rfl] at hq2
      rw [findFrom_group _ q1 _ h1, hskip, hq2]
      rfl
    have hfind : findFrom " AND ".toList
        ('(' :: (q1 ++ ')' :: (" AND ".toList ++ ('(' :: (q2 ++ [')']))))) 0 = some (q1.length + 2) := by
      rw [findFrom_group _ q1 _ h1]
      simp [findFrom, List.isPrefixOf]
    rw [hq, Parse_unfold, parseBody]
    simp only []
    rw [TrimSpace_group q1 _ (Or.inr hlast), if_neg (by simp), HasPrefix_group,
      HasSuffix_group q1 _ (Or.inr hlast), hscan]
    simp only [Bool.and_false, Bool.false_and, Bool.false_eq_true, if_false, ne_eq,
      not_true_eq_false, Bool.true_and]
    rw [parseOperators_and L _ (Parse L) _ hnone hfind]
    have e1 : List.take (q1.length + 2) ('(' :: (q1 ++ ')' :: (" AND ".toList ++ ('(' :: (q2 ++ [')'])))))
        = '(' :: (q1 ++ [')']) := by
      rw [show '(' :: (q1 ++ ')' :: (" AND ".toList ++ ('(' :: (q2 ++ [')'])))) =
        ('(' :: (q1 ++ [')'])) ++ (" AND ".toList ++ ('(' :: (q2 ++ [')']))) by simp]
      exact List.take_left' (by simp)
    have e2 : List.drop (q1.length + 2 + 5) ('(' :: (q1 ++ ')' :: (" AND ".toList ++ ('(' :: (q2 ++ [')'])))))
        = '(' :: (q2 ++ [')']) := by
      rw [show '(' :: (q1 ++ ')' :: (" AND ".toList ++ ('(' :: (q2 ++ [')'])))) =
        (('(' :: (q1 ++ [')'])) ++ " AND ".toList) ++ ('(' :: (q2 ++ [')'])) by simp]
      exact List.drop_left' (by simp)
    rw [e1, e2, Parse_paren L q1 h1, Parse_paren L q2 h2]
    simp only [ite_self]
  refine ⟨hor, hand, ?_, ?_⟩
  · intro ctx
    unfold evalQuery
    rw [hor]
    cases Parse L q1 <;> cases Parse L q2 <;> rfl
  · intro ctx
    unfold evalQuery
    rw [hand]
    cases Parse L q1 <;> cases Parse L q2 <;> rfl

theorem Parse_parenthesised_groups_witness :
    Balanced "a = 1 OR b = 2".toList ∧ Balanced "(c) AND d".toList ∧
    Parse GoLib.plain ("(".toList ++ "a = 1 OR b = 2".toList ++ ") AND (".toList ++
        "(c) AND d".toList ++ ")".toList) =
      (Parse GoLib.plain "a = 1 OR b = 2".toList >>= fun l =>
        Parse GoLib.plain "(c) AND d".toList >>= fun r => pure (.AndExpression l r)) :=
  ⟨by unfold Balanced; decide, by unfold Balanced; decide,
    (Parse_parenthesised_groups GoLib.plain _ _ (by unfold Balanced; decide)
      (by unfold Balanced; decide)).2.1⟩

/-! ### Totality of `Parse` on queries without quote characters -/

theorem mem_TrimSpace (s : GoString) (c : Char) (h : c ∈ TrimSpace s) : c ∈ s := by
  unfold TrimSpace at h
  rw [List.mem_reverse] at h
  have h1 := (List.dropWhile_suffix isSpace (l := (s.dropWhile isSpace).reverse)).subset h
  rw [List.mem_reverse] at h1
  exact (List.dropWhile_suffix isSpace (l := s)).subset h1

theorem NoQuote_TrimSpace (s : GoString) (h : NoQuote s) : NoQuote (TrimSpace s) :=
  fun c hc => h c (mem_TrimSpace s c hc)

theorem NoQuote_take (s : GoString) (k : Nat) (h : NoQuote s) : NoQuote (s.take k) :=
  fun c hc => h c (List.mem_of_mem_take hc)

theorem NoQuote_drop (s : GoString) (k : Nat) (h : NoQuote s) : NoQuote (s.drop k) :=
  fun c hc => h c (List.mem_of_mem_drop hc)

theorem tryConvertValue_ok (L : GoLib) (v : GoString) (h : NoQuote v) :
    ∃ x, tryConvertValue L v = .ok x := by
  have ht := NoQuote_TrimSpace v h
  have hcond : ((HasPrefix (TrimSpace v) [Char.ofNat 34] && HasSuffix (TrimSpace v) [Char.ofNat 34]) ||
      (HasPrefix (TrimSpace v) [Char.ofNat 39] && HasSuffix (TrimSpace v) [Char.ofNat 39])) = false := by
    have p1 : HasPrefix (TrimSpace v) [Char.ofNat 34] = false := by
      cases hv : TrimSpace v with
      | nil => rfl
      | cons c t =>
        have := (ht c (by rw [hv]; exact List.mem_cons_self _ _)).1
        simp [HasPrefix, List.isPrefixOf, this.symm]
    have p2 : HasPrefix (TrimSpace v) [Char.ofNat 39] = false := by
      cases hv : TrimSpace v with
      | nil => rfl
      | cons c t =>
        have := (ht c (by rw [hv]; exact List.mem_cons_self _ _)).2
        simp [HasPrefix, List.isPrefixOf, this.symm]
    rw [p1, p2]; rfl
  unfold tryConvertValue
  simp only [hcond, Bool.false_eq_true, if_false, bind, Except.bind]
  split
  · exact ⟨_, rfl⟩
  · split
    · exact ⟨_, rfl⟩
    · split
      · exact ⟨_, rfl⟩
      · split <;> exact ⟨_, rfl⟩

theorem compLoop_ok (L : GoLib) (query : GoString) (hq : NoQuote query) : ∀ (ops : List GoString),
    (∀ op ∈ ops, op ≠ []) → ∃ r, compLoop L query ops = .ok r := by
  intro ops
  induction ops with
  | nil => intro _; exact ⟨_, rfl⟩
  | cons op ops ih =>
    intro hops
    have ih1 := ih (fun o ho => hops o (List.mem_cons_of_mem _ ho))
    rw [compLoop, findSplitIndex_eq query op (hops op (List.mem_cons_self _ _))]
    simp only [bind, Except.bind]
    cases hf : findFrom op query 0 with
    | none => simpa [splitResult] using ih1
    | some k =>
      have hb := findFrom_bound _ _ _ _ hf
      have e1 := slice_nat query 0 k (by omega) (by omega)
      have e2 := slice_nat query (k + op.length) query.length (by omega) (by omega)
      simp only [Nat.cast_zero] at e1
      push_cast at e2
      obtain ⟨x, hx⟩ := tryConvertValue_ok L
        (TrimSpace (List.take (query.length - (k + op.length)) (List.drop (k + op.length) query)))
        (NoQuote_TrimSpace _ (NoQuote_take _ _ (NoQuote_drop _ _ hq)))
      simp only [splitResult, Nat.zero_add, ne_eq]
      rw [if_pos (by omega), e1, e2]
      simp only [hx]
      split
      · exact ⟨_, rfl⟩
      · split
        · exact ⟨_, rfl⟩
        · split
          · exact ⟨_, rfl⟩
          · exact ih1

theorem parseLeaf_ok (L : GoLib) (query : GoString) (hq : NoQuote query) :
    ∃ e, parseLeaf L query = .ok e := by
  obtain ⟨r, hr⟩ := compLoop_ok L query hq [" = ".toList, " > ".toList, " < ".toList] (by decide)
  unfold parseLeaf
  rw [hr]
  simp only [bind, Except.bind]
  split
  · exact ⟨_, rfl⟩
  · split
    · exact ⟨_, rfl⟩
    · split <;> exact ⟨_, rfl⟩

theorem parseOperators_ok (L : GoLib) (query : GoString) (recur : GoString → Result (Expression L))
    (hq : NoQuote query)
    (hr : ∀ x : GoString, x.length < query.length → NoQuote x → ∃ e, recur x = .ok e) :
    ∃ e, parseOperators L recur query = .ok e := by
  cases hor : findFrom " OR ".toList query 0 with
  | some k =>
    have hb : k + 4 ≤ query.length := findFrom_bound _ _ _ _ hor
    obtain ⟨l, hl⟩ := hr (query.take k) (by simp; omega) (NoQuote_take _ _ hq)
    obtain ⟨r, hr'⟩ := hr (query.drop (k + 4)) (by simp; omega) (NoQuote_drop _ _ hq)
    rw [parseOperators_or L query recur k hor, hl, hr']
    exact ⟨_, rfl⟩
  | none =>
    cases hand : findFrom " AND ".toList query 0 with
    | some k =>
      have hb : k + 5 ≤ query.length := findFrom_bound _ _ _ _ hand
      obtain ⟨l, hl⟩ := hr (query.take k) (by simp; omega) (NoQuote_take _ _ hq)
      obtain ⟨r, hr'⟩ := hr (query.drop (k + 5)) (by simp; omega) (NoQuote_drop _ _ hq)
      rw [parseOperators_and L query recur k hor hand, hl, hr']
      exact ⟨_, rfl⟩
    | none =>
      cases hnot : HasPrefix query "NOT ".toList with
      | true =>
        have hl : 4 ≤ query.length := by
          have := List.IsPrefix.length_le (List.isPrefixOf_iff_prefix.mp hnot)
          simpa using this
        obtain ⟨r, hr'⟩ := hr (query.drop 4) (by simp; omega) (NoQuote_drop _ _ hq)
        rw [parseOperators_not L query recur hor hand hnot, hr']
        exact ⟨_, rfl⟩
      | false =>
        rw [parseOperators_leaf L query recur hor hand hnot]
        exact parseLeaf_ok L query hq

/-- The method `Parse` returns an expression on every query that holds no quote
character. -/
theorem Parse_ok_of_NoQuote (L : GoLib) : ∀ (n : Nat) (q : GoString), q.length < n → NoQuote q →
    ∃ e, Parse L q = .ok e := by
  intro n
  induction n with
  | zero => intro q h; omega
  | succ n ih =>
    intro q hn hq
    have hlen := TrimSpace_length_le q
    have ht := NoQuote_TrimSpace q hq
    have hrec : ∀ x : GoString, x.length < (TrimSpace q).length → NoQuote x →
        ∃ e, Parse L x = .ok e := fun x hx hnq => ih x (by omega) hnq
    rw [Parse_unfold, parseBody]
    simp only []
    split
    · exact ⟨_, rfl⟩
    · rename_i hne
      have hpos : 0 < (TrimSpace q).length := List.length_pos.mpr hne
      split
      · rename_i hpar
        split
        · have h2 : 2 ≤ (TrimSpace q).length := by
            simp only [Bool.and_eq_true] at hpar
            obtain ⟨hp, hs⟩ := hpar
            cases hv : TrimSpace q with
            | nil => exact absurd hv hne
            | cons c t =>
              cases t with
              | nil =>
                rw [hv] at hp hs
                simp [HasPrefix, HasSuffix, List.isPrefixOf, List.isSuffixOf] at hp hs
                rw [← hp] at hs
                exact absurd hs (by decide)
              | cons c' t' => simp
          have e := slice_nat (TrimSpace q) 1 ((TrimSpace q).length - 1) (by omega) (by omega)
          have ec : (((TrimSpace q).length - 1 : Nat) : Int) = ((TrimSpace q).length : Int) - 1 := by
            omega
          rw [ec] at e
          simp only [Nat.cast_one] at e
          rw [e]
          exact hrec _ (by simp; omega) (NoQuote_take _ _ (NoQuote_drop _ _ ht))
        · split
          · exact ⟨_, rfl⟩
          · exact parseOperators_ok L _ _ ht hrec
      · exact parseOperators_ok L _ _ ht hrec


/-! ### Queries built from tokens separated by single spaces -/

theorem isPrefixOf_token (kw : GoString) (hkw : ∀ c ∈ kw, c ≠ ' ') : ∀ (t rest : GoString),
    (∀ c ∈ t, c ≠ ' ') → (rest = [] ∨ rest.head? = some ' ') →
    (kw ++ [' ']).isPrefixOf (t ++ rest) = true → t = kw := by
  induction kw with
  | nil =>
    intro t rest ht _ h
    cases t with
    | nil => rfl
    | cons c t' =>
      simp [List.isPrefixOf] at h
      exact absurd h.symm (ht c (List.mem_cons_self _ _))
  | cons k kw' ih =>
    intro t rest ht hrest h
    cases t with
    | nil =>
      exfalso
      rcases hrest with hr | hr
      · subst hr; simp [List.isPrefixOf] at h
      · cases rest with
        | nil => simp at hr
        | cons r rs =>
          simp only [List.head?_cons, Option.some.injEq] at hr
          subst hr
          simp [List.isPrefixOf] at h
          exact hkw k (List.mem_cons_self _ _) h.1
    | cons c t' =>
      simp only [List.cons_append, List.isPrefixOf, Bool.and_eq_true, beq_iff_eq] at h
      have := ih (fun c hc => hkw c (List.mem_cons_of_mem _ hc)) t' rest
        (fun c hc => ht c (List.mem_cons_of_mem _ hc)) hrest h.2
      rw [h.1, this]

theorem CleanChar_ne_space (c : Char) (h : CleanChar c) : c ≠ ' ' := by
  intro hc; subst hc; exact absurd h.1 (by decide)

theorem findFrom_token (kw : GoString) : ∀ (t X : GoString), (∀ c ∈ t, CleanChar c) →
    findFrom (sepOf kw) (t ++ X) 0 = (findFrom (sepOf kw) X 0).map (· + t.length) := by
  intro t
  induction t with
  | nil => intro X _; simp
  | cons c t ih =>
    intro X h
    have hc := h c (List.mem_cons_self _ _)
    have hsp := CleanChar_ne_space c hc
    rw [List.cons_append, findFrom, if_neg hc.2.1, if_neg hc.2.2.1,
      if_neg (by
        intro hh
        have := hh.2
        simp only [sepOf, List.isPrefixOf, Bool.and_eq_true, beq_iff_eq] at this
        exact hsp this.1.symm),
      ih X (fun c hc => h c (List.mem_cons_of_mem _ hc)), map_add_map]
    simp only [List.length_cons]

theorem findFrom_space (kw Y : GoString) :
    findFrom (sepOf kw) (' ' :: Y) 0 =
      if (kw ++ [' ']).isPrefixOf Y = true then some 0
      else (findFrom (sepOf kw) Y 0).map (· + 1) := by
  rw [findFrom, if_neg (by decide), if_neg (by decide)]
  simp [sepOf, List.isPrefixOf]

theorem Phrase_nosplit (kw : GoString) (hkw : ∀ c ∈ kw, c ≠ ' ') (A : GoString)
    (hA : Phrase kw A) : ∀ X : GoString, (X = [] ∨ X.head? = some ' ') →
    findFrom (sepOf kw) (A ++ X) 0 = (findFrom (sepOf kw) X 0).map (· + A.length) := by
  induction hA with
  | single t ht _ => intro X _; exact findFrom_token kw t X ht.2
  | snoc A t _ ht hne ih =>
    intro X hX
    rw [List.append_assoc, ih (' ' :: t ++ X) (Or.inr rfl), List.cons_append, findFrom_space,
      if_neg (fun hh => hne (isPrefixOf_token kw hkw t X
        (fun c hc => CleanChar_ne_space c (ht.2 c hc)) hX hh)),
      findFrom_token kw t X ht.2, map_add_map, map_add_map]
    simp only [List.length_append, List.length_cons]
    congr 1; funext x; omega

theorem findFrom_join (kw : GoString) (hkw : ∀ c ∈ kw, c ≠ ' ') (A B : GoString)
    (hA : Phrase kw A) : findFrom (sepOf kw) (A ++ sepOf kw ++ B) 0 = some A.length := by
  rw [List.append_assoc, Phrase_nosplit kw hkw A hA _ (Or.inr (by simp [sepOf]))]
  have : findFrom (sepOf kw) (sepOf kw ++ B) 0 = some 0 := by
    rw [show sepOf kw ++ B = ' ' :: (kw ++ [' '] ++ B) from rfl, findFrom_space,
      if_pos (by rw [List.isPrefixOf_iff_prefix]; exact List.prefix_append _ _)]
  rw [this]; simp

theorem findFrom_none (kw : GoString) (hkw : ∀ c ∈ kw, c ≠ ' ') (A : GoString)
    (hA : Phrase kw A) : findFrom (sepOf kw) A 0 = none := by
  have := Phrase_nosplit kw hkw A hA [] (Or.inl rfl)
  simpa [findFrom] using this

theorem Phrase_append (kw A B : GoString) (hA : Phrase kw A) (hB : Phrase kw B) :
    Phrase kw (A ++ ' ' :: B) := by
  induction hB with
  | single t ht hne => exact Phrase.snoc A t hA ht hne
  | snoc B t _ ht hne ih =>
    rw [show A ++ ' ' :: (B ++ ' ' :: t) = (A ++ ' ' :: B) ++ ' ' :: t by simp]
    exact Phrase.snoc _ t ih ht hne

theorem Phrase_weaken (kw A : GoString) (hA : Phrase kw A) : Phrase [] A := by
  induction hA with
  | single t ht _ => exact Phrase.single t ht ht.1
  | snoc B t _ ht _ ih => exact Phrase.snoc _ t ih ht ht.1

theorem Phrase_head (kw A : GoString) (hA : Phrase kw A) :
    ∃ c rest, A = c :: rest ∧ CleanChar c := by
  induction hA with
  | single t ht _ =>
    cases t with
    | nil => exact absurd rfl ht.1
    | cons c rest => exact ⟨c, rest, rfl, ht.2 c (List.mem_cons_self _ _)⟩
  | snoc B t _ _ _ ih =>
    obtain ⟨c, rest, e, hc⟩ := ih
    exact ⟨c, rest ++ ' ' :: t, by rw [e]; rfl, hc⟩

theorem Phrase_last (kw A : GoString) (hA : Phrase kw A) :
    ∃ c, A.getLast? = some c ∧ CleanChar c := by
  have key : ∀ t : GoString, Clean t → ∀ pre : GoString,
      ∃ c, (pre ++ t).getLast? = some c ∧ CleanChar c := by
    intro t ht pre
    have hne : t ≠ [] := ht.1
    refine ⟨t.getLast hne, ?_, ht.2 _ (List.getLast_mem hne)⟩
    rw [List.getLast?_append_of_ne_nil _ hne, List.getLast?_eq_getLast _ hne]
  induction hA with
  | single t ht _ => simpa using key t ht []
  | snoc B t _ ht _ _ =>
    have := key t ht (B ++ [' '])
    simpa using this

theorem Phrase_NoQuote (kw A : GoString) (hA : Phrase kw A) : NoQuote A := by
  induction hA with
  | single t ht _ => intro c hc; exact ⟨(ht.2 c hc).2.2.2.1, (ht.2 c hc).2.2.2.2⟩
  | snoc B t _ ht _ ih =>
    intro c hc
    rcases List.mem_append.mp hc with h | h
    · exact ih c h
    · rcases List.mem_cons.mp h with h | h
      · subst h; exact ⟨by decide, by decide⟩
      · exact ⟨(ht.2 c h).2.2.2.1, (ht.2 c h).2.2.2.2⟩

theorem Parse_phrase (L : GoLib) (A : GoString) (hA : Phrase [] A) :
    Parse L A = parseOperators L (Parse L) A := by
  obtain ⟨c, rest, e, hc⟩ := Phrase_head [] A hA
  obtain ⟨d, hd, hdc⟩ := Phrase_last [] A hA
  have htrim : TrimSpace A = A := by
    apply TrimSpace_of_ends
    · intro a ha; rw [e] at ha
      simp only [List.head?_cons, Option.some.injEq] at ha
      subst ha; exact hc.1
    · intro b hb; rw [hd] at hb
      injection hb with hb
      subst hb; exact hdc.1
  have hpre : HasPrefix A "(".toList = false := by
    rw [e]
    simp [HasPrefix, List.isPrefixOf, Ne.symm hc.2.1]
  rw [Parse_unfold, parseBody]
  simp only []
  rw [htrim, if_neg (by rw [e]; simp), hpre]
  simp


theorem Parse_split_or (L : GoLib) (A B : GoString) (hA : Phrase "OR".toList A)
    (hB : Phrase [] B) :
    Parse L (A ++ " OR ".toList ++ B) =
      (Parse L A >>= fun l => Parse L B >>= fun r => pure (.OrExpression l r)) := by
  have hkw : ∀ c ∈ "OR".toList, c ≠ ' ' := by decide
  have hw : Phrase [] (A ++ " OR ".toList ++ B) := by
    have h1 : Phrase [] "OR".toList :=
      Phrase.single _ ⟨by decide, by unfold CleanChar; decide⟩ (by decide)
    have := Phrase_append [] A _ (Phrase_weaken _ A hA) (Phrase_append [] _ B h1 hB)
    simpa using this
  have hf : findFrom " OR ".toList (A ++ " OR ".toList ++ B) 0 = some A.length :=
    findFrom_join "OR".toList hkw A B hA
  rw [Parse_phrase L _ hw, parseOperators_or L _ (Parse L) _ hf]
  have e1 : List.take A.length (A ++ " OR ".toList ++ B) = A := by
    rw [List.append_assoc]; exact List.take_left' rfl
  have e2 : List.drop (A.length + 4) (A ++ " OR ".toList ++ B) = B :=
    List.drop_left' (by simp)
  rw [e1, e2]

theorem Parse_split_and (L : GoLib) (A B : GoString) (hA : Phrase "AND".toList A)
    (hA2 : Phrase "OR".toList A) (hB : Phrase "OR".toList B) :
    Parse L (A ++ " AND ".toList ++ B) =
      (Parse L A >>= fun l => Parse L B >>= fun r => pure (.AndExpression l r)) := by
  have hkw : ∀ c ∈ "OR".toList, c ≠ ' ' := by decide
  have hkw2 : ∀ c ∈ "AND".toList, c ≠ ' ' := by decide
  have hw : Phrase "OR".toList (A ++ " AND ".toList ++ B) := by
    have h1 : Phrase "OR".toList "AND".toList :=
      Phrase.single _ ⟨by decide, by unfold CleanChar; decide⟩ (by decide)
    have := Phrase_append _ A _ hA2 (Phrase_append _ _ B h1 hB)
    simpa using this
  have hn : findFrom " OR ".toList (A ++ " AND ".toList ++ B) 0 = none :=
    findFrom_none "OR".toList hkw _ hw
  have hf : findFrom " AND ".toList (A ++ " AND ".toList ++ B) 0 = some A.length :=
    findFrom_join "AND".toList hkw2 A B hA
  rw [Parse_phrase L _ (Phrase_weaken _ _ hw), parseOperators_and L _ (Parse L) _ hn hf]
  have e1 : List.take A.length (A ++ " AND ".toList ++ B) = A := by
    rw [List.append_assoc]; exact List.take_left' rfl
  have e2 : List.drop (A.length + 5) (A ++ " AND ".toList ++ B) = B :=
    List.drop_left' (by simp)
  rw [e1, e2]

theorem isAlnum_clean (c : Char) (h : isAlnum c = true) : CleanChar c := by
  have hn : (48 ≤ c.toNat ∧ c.toNat ≤ 57) ∨ (65 ≤ c.toNat ∧ c.toNat ≤ 90) ∨
      (97 ≤ c.toNat ∧ c.toNat ≤ 122) := by
    simpa [isAlnum, or_assoc] using h
  refine ⟨?_, ?_, ?_, ?_, ?_⟩
  · simp only [isSpace, Bool.or_eq_false_iff, Bool.and_eq_false_imp, decide_eq_true_eq,
      decide_eq_false_iff_not, beq_eq_false_iff_ne, ne_eq]
    omega
  all_goals (intro hc; subst hc; revert hn; decide)

theorem Token_clean (t : GoString) (h : Token t) : Clean t :=
  ⟨h.1, fun c hc => isAlnum_clean c (h.2.1 c hc)⟩

theorem Atom_phrase (a : Atom) (h : a.Valid) (kw : GoString)
    (hkw : kw = "OR".toList ∨ kw = "AND".toList) : Phrase kw a.render := by
  obtain ⟨hf, hw, hop⟩ := h
  have hopc : Clean a.op ∧ a.op ≠ kw := by
    rcases hop with h | h | h <;> rcases hkw with k | k <;> subst k <;> rw [h] <;>
      exact ⟨⟨by decide, by unfold CleanChar; decide⟩, by decide⟩
  have hfk : a.field ≠ kw := by
    rcases hkw with k | k <;> subst k
    · exact hf.2.2.2.1
    · exact hf.2.2.1
  have hwk : a.word ≠ kw := by
    rcases hkw with k | k <;> subst k
    · exact hw.2.2.2.1
    · exact hw.2.2.1
  have := Phrase.snoc _ a.word
    (Phrase.snoc _ a.op (Phrase.single a.field (Token_clean _ hf) hfk) hopc.1 hopc.2)
    (Token_clean _ hw) hwk
  simpa [Atom.render] using this

theorem Atom_parse (L : GoLib) (ctx : Context L) (a : Atom) (h : a.Valid) :
    ∃ e, Parse L a.render = .ok e ∧ Interpret L e ctx = atomValue L ctx a := by
  obtain ⟨e, he⟩ := Parse_ok_of_NoQuote L (a.render.length + 1) a.render (by omega)
    (Phrase_NoQuote _ _ (Atom_phrase a h _ (Or.inl rfl)))
  refine ⟨e, he, ?_⟩
  simp [atomValue, evalQuery, he, bind, Except.bind, pure, Except.pure]

theorem Group_phrase : ∀ (g : List Atom), g ≠ [] → (∀ a ∈ g, a.Valid) →
    Phrase "OR".toList (renderGroup g) := by
  intro g
  induction g with
  | nil => intro h; exact absurd rfl h
  | cons a rest ih =>
    intro _ hv
    have ha := Atom_phrase a (hv a (List.mem_cons_self _ _)) _ (Or.inl rfl)
    cases rest with
    | nil => simpa [renderGroup, joinWith] using ha
    | cons b rest' =>
      have hb := ih (by simp) (fun x hx => hv x (List.mem_cons_of_mem _ hx))
      have h1 : Phrase "OR".toList "AND".toList :=
        Phrase.single _ ⟨by decide, by unfold CleanChar; decide⟩ (by decide)
      have := Phrase_append _ _ _ ha (Phrase_append _ _ _ h1 hb)
      simpa [renderGroup, joinWith] using this

theorem Group_parse (L : GoLib) (ctx : Context L) : ∀ (g : List Atom), g ≠ [] →
    (∀ a ∈ g, a.Valid) →
    ∃ e, Parse L (renderGroup g) = .ok e ∧ Interpret L e ctx = g.all (atomValue L ctx) := by
  intro g
  induction g with
  | nil => intro h; exact absurd rfl h
  | cons a rest ih =>
    intro _ hv
    have hav := hv a (List.mem_cons_self _ _)
    obtain ⟨ea, hea, hia⟩ := Atom_parse L ctx a hav
    cases rest with
    | nil =>
      refine ⟨ea, by simpa [renderGroup, joinWith] using hea, ?_⟩
      simp [hia]
    | cons b rest' =>
      have hvr : ∀ x ∈ b :: rest', x.Valid := fun x hx => hv x (List.mem_cons_of_mem _ hx)
      obtain ⟨er, her, hir⟩ := ih (by simp) hvr
      have hsplit := Parse_split_and L a.render (renderGroup (b :: rest'))
        (Atom_phrase a hav _ (Or.inr rfl)) (Atom_phrase a hav _ (Or.inl rfl))
        (Group_phrase _ (by simp) hvr)
      rw [hea, her] at hsplit
      refine ⟨.AndExpression ea er, ?_, ?_⟩
      · rw [show renderGroup (a :: b :: rest') =
          a.render ++ " AND ".toList ++ renderGroup (b :: rest') from rfl, hsplit]
        rfl
      · simp only [Interpret, hia, hir, List.all_cons]

theorem Query_phrase : ∀ (groups : List (List Atom)), groups ≠ [] →
    (∀ g ∈ groups, g ≠ [] ∧ ∀ a ∈ g, a.Valid) → Phrase [] (renderQuery groups) := by
  intro groups
  induction groups with
  | nil => intro h; exact absurd rfl h
  | cons g rest ih =>
    intro _ hv
    have hg := hv g (List.mem_cons_self _ _)
    have ha := Phrase_weaken _ _ (Group_phrase g hg.1 hg.2)
    cases rest with
    | nil => simpa [renderQuery, joinWith] using ha
    | cons g' rest' =>
      have hb := ih (by simp) (fun x hx => hv x (List.mem_cons_of_mem _ hx))
      have h1 : Phrase [] "OR".toList :=
        Phrase.single _ ⟨by decide, by unfold CleanChar; decide⟩ (by decide)
      have := Phrase_append _ _ _ ha (Phrase_append _ _ _ h1 hb)
      simpa [renderQuery, joinWith] using this

theorem Query_parse (L : GoLib) (ctx : Context L) : ∀ (groups : List (List Atom)), groups ≠ [] →
    (∀ g ∈ groups, g ≠ [] ∧ ∀ a ∈ g, a.Valid) →
    ∃ e, Parse L (renderQuery groups) = .ok e ∧
      Interpret L e ctx = groups.any (fun g => g.all (atomValue L ctx)) := by
  intro groups
  induction groups with
  | nil => intro h; exact absurd rfl h
  | cons g rest ih =>
    intro _ hv
    have hg := hv g (List.mem_cons_self _ _)
    obtain ⟨eg, heg, hig⟩ := Group_parse L ctx g hg.1 hg.2
    cases rest with
    | nil =>
      refine ⟨eg, by simpa [renderQuery, joinWith] using heg, ?_⟩
      simp [hig]
    | cons g' rest' =>
      have hvr : ∀ x ∈ g' :: rest', x ≠ [] ∧ ∀ a ∈ x, a.Valid :=
        fun x hx => hv x (List.mem_cons_of_mem _ hx)
      obtain ⟨er, her, hir⟩ := ih (by simp) hvr
      have hsplit := Parse_split_or L (renderGroup g) (renderQuery (g' :: rest'))
        (Group_phrase g hg.1 hg.2) (Query_phrase _ (by simp) hvr)
      rw [heg, her] at hsplit
      refine ⟨.OrExpression eg er, ?_, ?_⟩
      · rw [show renderQuery (g :: g' :: rest') =
          renderGroup g ++ " OR ".toList ++ renderQuery (g' :: rest') from rfl, hsplit]
        rfl
      · simp only [Interpret, hig, hir, List.any_cons]

/-- C5. For a non-empty list of non-empty groups of well-formed atoms, the
query that joins each group's atoms with ` AND ` and the groups with ` OR `
parses, `Parse` returns on every atom, and on every context the query's value
is the disjunction over the groups of the conjunction over the group's atoms
of the value of `Parse(atom).Interpret(ctx)`. -/
theorem Parse_or_of_ands (L : GoLib) (groups : List (List Atom)) (ctx : Context L)
    (hne : groups ≠ []) (hv : ∀ g ∈ groups, g ≠ [] ∧ ∀ a ∈ g, a.Valid) :
    (∀ g ∈ groups, ∀ a ∈ g, evalQuery L a.render ctx = .ok (atomValue L ctx a)) ∧
    evalQuery L (renderQuery groups) ctx =
      .ok (groups.any (fun g => g.all (atomValue L ctx))) := by
  constructor
  · intro g hg a ha
    obtain ⟨e, he, hi⟩ := Atom_parse L ctx a ((hv g hg).2 a ha)
    simp [evalQuery, he, bind, Except.bind, pure, Except.pure, hi]
  · obtain ⟨e, he, hi⟩ := Query_parse L ctx groups hne hv
    simp [evalQuery, he, bind, Except.bind, pure, Except.pure, hi]

theorem Parse_or_of_ands_witness :
    ([[⟨"a".toList, "=".toList, "1".toList⟩, ⟨"b".toList, ">".toList, "2".toList⟩],
      [⟨"c".toList, "<".toList, "3".toList⟩]] : List (List Atom)) ≠ [] ∧
    (∀ g ∈ ([[⟨"a".toList, "=".toList, "1".toList⟩, ⟨"b".toList, ">".toList, "2".toList⟩],
      [⟨"c".toList, "<".toList, "3".toList⟩]] : List (List Atom)), g ≠ [] ∧ ∀ a ∈ g, a.Valid) ∧
    evalQuery GoLib.plain "a = 1 AND b > 2 OR c < 3".toList [("c".toList, .int 0)] =
      .ok (([[⟨"a".toList, "=".toList, "1".toList⟩, ⟨"b".toList, ">".toList, "2".toList⟩],
      [⟨"c".toList, "<".toList, "3".toList⟩]] : List (List Atom)).any
        (fun g => g.all (atomValue GoLib.plain [("c".toList, .int 0)]))) :=
  have hv : ∀ g ∈ ([[⟨"a".toList, "=".toList, "1".toList⟩, ⟨"b".toList, ">".toList, "2".toList⟩],
      [⟨"c".toList, "<".toList, "3".toList⟩]] : List (List Atom)), g ≠ [] ∧ ∀ a ∈ g, a.Valid := by
    simp [Atom.Valid, Token, isAlnum]
  ⟨by simp, hv, (Parse_or_of_ands GoLib.plain _ [("c".toList, .int 0)] (by simp) hv).2⟩

/-! ### Comparisons, truthiness and connectives -/

/-- C11. With the field bound to an Integer `n`: for a String target,
`GreaterThanExpression` is true exactly when `Atoi` converts the target to some
`m` with `n > m`, and `LessThanExpression` exactly when `n < m`; for an Integer
target `m` they are `n > m` and `n < m`, so both are false when `n = m`. -/
theorem Ordering_int (L : GoLib) (ctx : Context L) (name s : GoString) (n m : Int)
    (hctx : ctx.lookup name = some (.int n)) :
    (Interpret L (.GreaterThanExpression name (.str s)) ctx = true ↔
      ∃ k, Atoi s = some k ∧ n > k) ∧
    (Interpret L (.LessThanExpression name (.str s)) ctx = true ↔
      ∃ k, Atoi s = some k ∧ n < k) ∧
    (Interpret L (.GreaterThanExpression name (.int m)) ctx = true ↔ n > m) ∧
    (Interpret L (.LessThanExpression name (.int m)) ctx = true ↔ n < m) ∧
    (n = m → Interpret L (.GreaterThanExpression name (.int m)) ctx = false ∧
      Interpret L (.LessThanExpression name (.int m)) ctx = false) := by
  simp only [Interpret, hctx, greaterValue, lessValue]
  refine ⟨?_, ?_, by simp, by simp, ?_⟩
  · cases Atoi s <;> simp
  · cases Atoi s <;> simp
  · intro h; subst h; simp

theorem Ordering_int_witness :
    ([("age".toList, Value.int 30)] : Context GoLib.plain).lookup "age".toList = some (.int 30) ∧
    (Interpret GoLib.plain (.GreaterThanExpression "age".toList (.str "25".toList))
      [("age".toList, .int 30)] = true ↔ ∃ k, Atoi "25".toList = some k ∧ (30 : Int) > k) ∧
    (Interpret GoLib.plain (.LessThanExpression "age".toList (.int 30))
      [("age".toList, .int 30)] = true ↔ (30 : Int) < 30) :=
  ⟨rfl,
    (Ordering_int GoLib.plain [("age".toList, .int 30)] "age".toList "25".toList 30 30 rfl).1,
    (Ordering_int GoLib.plain [("age".toList, .int 30)] "age".toList "25".toList 30 30 rfl).2.2.2.1⟩

/-- C12. On a context with no entry for the field name, `VariableExpression`,
`EqualsExpression`, `GreaterThanExpression` and `LessThanExpression` all
evaluate to false, whatever the target value. -/
theorem Missing_field (L : GoLib) (ctx : Context L) (name : GoString) (v : Value L)
    (hctx : ctx.lookup name = none) :
    Interpret L (.VariableExpression name) ctx = false ∧
    Interpret L (.EqualsExpression name v) ctx = false ∧
    Interpret L (.GreaterThanExpression name v) ctx = false ∧
    Interpret L (.LessThanExpression name v) ctx = false := by
  simp only [Interpret, hctx, and_self]

theorem Missing_field_witness :
    ([("age".toList, Value.int 30)] : Context GoLib.plain).lookup "name".toList = none ∧
    Interpret GoLib.plain (.VariableExpression "name".toList) [("age".toList, .int 30)] = false ∧
    Interpret GoLib.plain (.EqualsExpression "name".toList (.str "John".toList))
      [("age".toList, .int 30)] = false ∧
    Interpret GoLib.plain (.GreaterThanExpression "name".toList (.int 1))
      [("age".toList, .int 30)] = false ∧
    Interpret GoLib.plain (.LessThanExpression "name".toList (.int 1))
      [("age".toList, .int 30)] = false :=
  ⟨rfl, Missing_field GoLib.plain [("age".toList, .int 30)] "name".toList (.str "John".toList) rfl |>.1,
    Missing_field GoLib.plain [("age".toList, .int 30)] "name".toList (.str "John".toList) rfl |>.2.1,
    Missing_field GoLib.plain [("age".toList, .int 30)] "name".toList (.int 1) rfl |>.2.2.1,
    Missing_field GoLib.plain [("age".toList, .int 30)] "name".toList (.int 1) rfl |>.2.2.2⟩

/-- C13. When the field holds a String or a Boolean, `GreaterThanExpression`
and `LessThanExpression` are false for every target; when it holds an Integer
and the target is a String that `Atoi` rejects, both are false as well. -/
theorem Ordering_not_comparable (L : GoLib) (ctx : Context L) (name : GoString)
    (value target : Value L) (hctx : ctx.lookup name = some value)
    (hval : (∃ s, value = .str s) ∨ (∃ b, value = .bool b) ∨
      (∃ n s, value = .int n ∧ target = .str s ∧ Atoi s = none)) :
    Interpret L (.GreaterThanExpression name target) ctx = false ∧
    Interpret L (.LessThanExpression name target) ctx = false := by
  simp only [Interpret, hctx]
  rcases hval with ⟨s, h⟩ | ⟨b, h⟩ | ⟨n, s, h, ht, ha⟩
  · subst h; exact ⟨rfl, rfl⟩
  · subst h; exact ⟨rfl, rfl⟩
  · subst h; subst ht; simp [greaterValue, lessValue, ha]

theorem Ordering_not_comparable_witness :
    ([("name".toList, Value.str "John".toList)] : Context GoLib.plain).lookup "name".toList =
      some (.str "John".toList) ∧
    Interpret GoLib.plain (.GreaterThanExpression "name".toList (.int 1))
      [("name".toList, .str "John".toList)] = false ∧
    Interpret GoLib.plain (.LessThanExpression "name".toList (.int 1))
      [("name".toList, .str "John".toList)] = false :=
  ⟨rfl, Ordering_not_comparable GoLib.plain [("name".toList, .str "John".toList)] "name".toList
    (.str "John".toList) (.int 1) rfl (Or.inl ⟨_, rfl⟩)⟩

/-- C14. With the field bound to a String `s`, `EqualsExpression` against a
String target `t` is true exactly when `s = t` (no case folding, so `john`
does not equal `John`); Integer against Integer and Boolean against Boolean
are exact equality as well. -/
theorem Equals_same_variant (L : GoLib) (name : GoString) :
    (∀ (ctx : Context L) (s t : GoString), ctx.lookup name = some (.str s) →
      (Interpret L (.EqualsExpression name (.str t)) ctx = true ↔ s = t)) ∧
    (∀ (ctx : Context L) (n m : Int), ctx.lookup name = some (.int n) →
      (Interpret L (.EqualsExpression name (.int m)) ctx = true ↔ n = m)) ∧
    (∀ (ctx : Context L) (b c : Bool), ctx.lookup name = some (.bool b) →
      (Interpret L (.EqualsExpression name (.bool c)) ctx = true ↔ b = c)) ∧
    Interpret L (.EqualsExpression "name".toList (.str "John".toList))
      [("name".toList, .str "john".toList)] = false := by
  refine ⟨?_, ?_, ?_, rfl⟩
  · intro ctx s t h
    simp only [Interpret, h, equalsValue, beq_iff_eq]
  · intro ctx n m h
    simp only [Interpret, h, equalsValue, beq_iff_eq]
  · intro ctx b c h
    simp only [Interpret, h, equalsValue, beq_iff_eq]

theorem Equals_same_variant_witness :
    ([("name".toList, Value.str "John".toList)] : Context GoLib.plain).lookup "name".toList =
      some (.str "John".toList) ∧
    (Interpret GoLib.plain (.EqualsExpression "name".toList (.str "John".toList))
      [("name".toList, .str "John".toList)] = true ↔ "John".toList = "John".toList) :=
  ⟨rfl, (Equals_same_variant GoLib.plain "name".toList).1 [("name".toList, .str "John".toList)]
    "John".toList "John".toList rfl⟩

theorem foldRune_comm (L : GoLib) (a b : Char) (hb : b.toNat < 128) :
    foldRune L a b = foldRune L b a := by
  unfold foldRune
  by_cases h : a = b
  · subst h; rfl
  · rw [if_neg h, if_neg (Ne.symm h)]
    simp only [Nat.min_comm a.toNat, Nat.max_comm a.toNat]
    split
    · rfl
    · split
      · rfl
      · rename_i h1 h2
        have : min b.toNat a.toNat ≤ b.toNat := Nat.min_le_left _ _
        omega

theorem EqualFold_comm (L : GoLib) : ∀ (s t : GoString), (∀ c ∈ t, c.toNat < 128) →
    EqualFold L s t = EqualFold L t s := by
  intro s
  induction s with
  | nil => intro t _; cases t <;> rfl
  | cons a s ih =>
    intro t ht
    cases t with
    | nil => rfl
    | cons b t =>
      simp only [EqualFold]
      rw [foldRune_comm L a b (ht b (List.mem_cons_self _ _)),
        ih t (fun c hc => ht c (List.mem_cons_of_mem _ hc))]

theorem EqualFold_length (L : GoLib) : ∀ (s t : GoString), EqualFold L s t = true →
    s.length = t.length := by
  intro s
  induction s with
  | nil => intro t h; cases t with
    | nil => rfl
    | cons b t => simp [EqualFold] at h
  | cons a s ih =>
    intro t h
    cases t with
    | nil => simp [EqualFold] at h
    | cons b t =>
      simp only [EqualFold, Bool.and_eq_true] at h
      simp [ih t h.2]

/-- C15. With the field bound to a Boolean `b` and a String target `t`:
if `t` equals `true` under `strings.EqualFold` then `EqualsExpression`
evaluates to `b`, and if `t` equals `false` under `strings.EqualFold` it
evaluates to `not b`; so the targets `TRUE` and `False` are coerced too. -/
theorem Equals_bool_string (L : GoLib) (ctx : Context L) (name t : GoString) (b : Bool)
    (hctx : ctx.lookup name = some (.bool b)) :
    (EqualFold L t "true".toList = true →
      Interpret L (.EqualsExpression name (.str t)) ctx = b) ∧
    (EqualFold L t "false".toList = true →
      Interpret L (.EqualsExpression name (.str t)) ctx = !b) ∧
    EqualFold L "TRUE".toList "true".toList = true ∧
    EqualFold L "False".toList "false".toList = true := by
  refine ⟨?_, ?_, rfl, rfl⟩
  · intro h
    have hlen := EqualFold_length L _ _ h
    have hcomm := EqualFold_comm L t "true".toList (by decide)
    simp only [Interpret, hctx, equalsValue, toString]
    by_cases h1 : t = "true".toList
    · simp [h1]
    · have h2 : t ≠ "false".toList := by intro h2; rw [h2] at hlen; simp at hlen
      rw [if_neg h1, if_neg h2]
      cases b with
      | true =>
        rw [hcomm] at h
        exact h
      | false =>
        have : EqualFold L (FormatBool false) t ≠ true := by
          intro hh
          have := EqualFold_length L _ _ hh
          rw [← this] at hlen
          simp [FormatBool] at hlen
        simpa using this
  · intro h
    have hlen := EqualFold_length L _ _ h
    have hcomm := EqualFold_comm L t "false".toList (by decide)
    simp only [Interpret, hctx, equalsValue, toString]
    by_cases h2 : t = "false".toList
    · simp [h2]
    · have h1 : t ≠ "true".toList := by intro h1; rw [h1] at hlen; simp at hlen
      rw [if_neg h1, if_neg h2]
      cases b with
      | false =>
        rw [hcomm] at h
        exact h
      | true =>
        have : EqualFold L (FormatBool true) t ≠ true := by
          intro hh
          have := EqualFold_length L _ _ hh
          rw [← this] at hlen
          simp [FormatBool] at hlen
        simpa using this

theorem Equals_bool_string_witness :
    ([("active".toList, Value.bool true)] : Context GoLib.plain).lookup "active".toList =
      some (.bool true) ∧
    EqualFold GoLib.plain "TRUE".toList "true".toList = true ∧
    Interpret GoLib.plain (.EqualsExpression "active".toList (.str "TRUE".toList))
      [("active".toList, .bool true)] = true :=
  ⟨rfl, rfl,
    (Equals_bool_string GoLib.plain [("active".toList, .bool true)] "active".toList
      "TRUE".toList true rfl).1 rfl⟩

/-- C17. Evaluation commutes with the connectives: `And` is the conjunction,
`Or` the disjunction and `Not` the negation of the values of the operands; `And`
is false whenever the left operand is false and `Or` is true whenever the left
operand is true, whatever the right operand. -/
theorem Interpret_connectives (L : GoLib) (l r e : Expression L) (ctx : Context L) :
    Interpret L (.AndExpression l r) ctx = (Interpret L l ctx && Interpret L r ctx) ∧
    Interpret L (.OrExpression l r) ctx = (Interpret L l ctx || Interpret L r ctx) ∧
    Interpret L (.NotExpression e) ctx = (!Interpret L e ctx) ∧
    (Interpret L l ctx = false → Interpret L (.AndExpression l r) ctx = false) ∧
    (Interpret L l ctx = true → Interpret L (.OrExpression l r) ctx = true) := by
  refine ⟨rfl, rfl, rfl, ?_, ?_⟩
  · intro h; simp [Interpret, h]
  · intro h; simp [Interpret, h]

theorem Interpret_connectives_witness :
    Interpret GoLib.plain (.LiteralExpression (.bool false)) [] = false ∧
    Interpret GoLib.plain (.AndExpression (.LiteralExpression (.bool false))
      (.VariableExpression "x".toList)) [] = false :=
  ⟨rfl, (Interpret_connectives GoLib.plain (.LiteralExpression (.bool false))
    (.VariableExpression "x".toList) (.VariableExpression "x".toList) []).2.2.2.1 rfl⟩

/-- C18. `LiteralExpression` evaluates a Boolean to itself, a String to
"non-empty" and an Integer to "non-zero"; and on a context binding the name to a
value `v`, `VariableExpression(name)` evaluates as `LiteralExpression(v)`. -/
theorem Truthiness (L : GoLib) (ctx : Context L) (name : GoString) (v : Value L)
    (hctx : ctx.lookup name = some v) :
    (∀ (c : Context L) (b : Bool), Interpret L (.LiteralExpression (.bool b)) c = b) ∧
    (∀ (c : Context L) (s : GoString),
      Interpret L (.LiteralExpression (.str s)) c = true ↔ s ≠ []) ∧
    (∀ (c : Context L) (n : Int),
      Interpret L (.LiteralExpression (.int n)) c = true ↔ n ≠ 0) ∧
    Interpret L (.VariableExpression name) ctx = Interpret L (.LiteralExpression v) ctx := by
  refine ⟨fun _ _ => rfl, ?_, ?_, ?_⟩
  · intro c s; simp [Interpret, truthy]
  · intro c n; simp [Interpret, truthy]
  · simp only [Interpret, hctx]

theorem Truthiness_witness :
    ([("active".toList, Value.int 0)] : Context GoLib.plain).lookup "active".toList =
      some (.int 0) ∧
    Interpret GoLib.plain (.VariableExpression "active".toList) [("active".toList, .int 0)] =
      Interpret GoLib.plain (.LiteralExpression (.int 0)) [("active".toList, .int 0)] :=
  ⟨rfl, (Truthiness GoLib.plain [("active".toList, .int 0)] "active".toList (.int 0) rfl).2.2.2⟩

/-! ### The literal conversion `tryConvertValue` -/

theorem HasPrefix_singleton (u : GoString) (q : Char) :
    HasPrefix u [q] = (u.head? == some q) := by
  cases u with
  | nil => rfl
  | cons c rest =>
    simp only [HasPrefix, List.isPrefixOf, List.head?_cons, Bool.and_true]
    by_cases h : q = c
    · subst h; simp
    · have : ¬ c = q := fun hh => h hh.symm
      simp [h, this]

theorem HasSuffix_singleton (u : GoString) (q : Char) :
    HasSuffix u [q] = (u.getLast? == some q) := by
  have := HasPrefix_singleton u.reverse q
  simp only [HasPrefix, List.head?_reverse] at this
  simp only [HasSuffix, List.isSuffixOf, List.reverse_singleton]
  exact this

/-- The function `tryConvertValue` panics exactly on a text that trims to a lone
quote character, and otherwise returns the classification of the trimmed text
with one layer of matching quotes removed. -/
theorem tryConvertValue_eq (L : GoLib) (r : GoString) :
    tryConvertValue L r =
      if TrimSpace r = [Char.ofNat 34] ∨ TrimSpace r = [Char.ofNat 39] then .error .panic
      else .ok (classify L (stripQuotes (TrimSpace r))) := by
  unfold tryConvertValue
  simp only [HasPrefix_singleton, HasSuffix_singleton]
  generalize TrimSpace r = u
  have hcl : ∀ w : GoString, (if EqualFold L w "true".toList = true then
        (.ok (.bool true) : Result (Value L))
      else if EqualFold L w "false".toList = true then .ok (.bool false)
      else match Atoi w with
        | some intVal => .ok (.int intVal)
        | none => match ParseFloat L w with
          | some floatVal => .ok (.float floatVal)
          | none => .ok (.str w)) = .ok (classify L w) := by
    intro w
    unfold classify
    split
    · rfl
    · split
      · rfl
      · split
        · rfl
        · split <;> rfl
  cases u with
  | nil =>
    have hcond : (((([] : GoString).head? == some (Char.ofNat 34)) &&
        (([] : GoString).getLast? == some (Char.ofNat 34))) ||
        ((([] : GoString).head? == some (Char.ofNat 39)) &&
        (([] : GoString).getLast? == some (Char.ofNat 39)))) = false := rfl
    rw [hcond]
    simp only [Bool.false_eq_true, if_false, bind, Except.bind, hcl]
    rw [if_neg (by simp)]
    rfl
  | cons c rest =>
    by_cases hq : (c = Char.ofNat 34 ∨ c = Char.ofNat 39) ∧ (c :: rest).getLast? = some c
    · have hcond : ((((c :: rest).head? == some (Char.ofNat 34)) &&
          ((c :: rest).getLast? == some (Char.ofNat 34))) ||
          (((c :: rest).head? == some (Char.ofNat 39)) &&
          ((c :: rest).getLast? == some (Char.ofNat 39)))) = true := by
        rcases hq with ⟨h | h, hl⟩
        · subst h; rw [hl]; rfl
        · subst h; rw [hl]; rfl
      rw [if_pos hcond]
      cases rest with
      | nil =>
        have hs : slice [c] 1 (([c].length : Int) - 1) = .error .panic := rfl
        rw [hs]
        rcases hq.1 with h | h <;> subst h <;> rfl
      | cons d rest' =>
        have hl : (d :: rest').getLast? = some c := by
          have := hq.2
          rwa [List.getLast?_cons_cons] at this
        have hs : slice (c :: d :: rest') 1 (((c :: d :: rest').length : Int) - 1) =
            .ok (d :: rest').dropLast := by
          have := slice_nat (c :: d :: rest') 1 (rest'.length + 1) (by omega) (by simp)
          simp only [List.drop_succ_cons, List.drop_zero, Nat.add_sub_cancel] at this
          rw [List.dropLast_eq_take]
          simp only [List.length_cons, Nat.add_sub_cancel]
          rw [← this]
          congr 1
          push_cast
          omega
        rw [hs]
        have hne : ¬ (c :: d :: rest' = [Char.ofNat 34] ∨ c :: d :: rest' = [Char.ofNat 39]) := by
          simp
        rw [if_neg hne]
        simp only [bind, Except.bind, hcl, stripQuotes]
        rw [if_pos ⟨hq.1, hl⟩]
    · have hcond : ((((c :: rest).head? == some (Char.ofNat 34)) &&
          ((c :: rest).getLast? == some (Char.ofNat 34))) ||
          (((c :: rest).head? == some (Char.ofNat 39)) &&
          ((c :: rest).getLast? == some (Char.ofNat 39)))) = false := by
        by_contra hc
        rw [Bool.not_eq_false, Bool.or_eq_true, Bool.and_eq_true, Bool.and_eq_true] at hc
        simp only [List.head?_cons, beq_iff_eq, Option.some.injEq] at hc
        rcases hc with ⟨h1, h2⟩ | ⟨h1, h2⟩
        · exact hq ⟨Or.inl h1, by rw [h2, h1]⟩
        · exact hq ⟨Or.inr h1, by rw [h2, h1]⟩
      rw [hcond]
      simp only [Bool.false_eq_true, if_false, bind, Except.bind, hcl]
      have hne : ¬ (c :: rest = [Char.ofNat 34] ∨ c :: rest = [Char.ofNat 39]) := by
        rintro (h | h)
        · injection h with h1 h2; subst h1; subst h2; exact hq ⟨Or.inl rfl, rfl⟩
        · injection h with h1 h2; subst h1; subst h2; exact hq ⟨Or.inr rfl, rfl⟩
      rw [if_neg hne]
      have hst : stripQuotes (c :: rest) = c :: rest := by
        rw [stripQuotes, if_neg]
        rintro ⟨h1, h2⟩
        apply hq
        refine ⟨h1, ?_⟩
        cases rest with
        | nil => simp at h2
        | cons d rest' => rw [List.getLast?_cons_cons]; exact h2
      rw [hst]

/-- C16. Whenever `tryConvertValue` returns, its value is the classification
of the text obtained by trimming outer white space and then removing one layer
of matching single or double quotes; so `true`, quoted `true` and quoted `false`
become Booleans and a quoted `30` becomes the Integer 30. -/
theorem tryConvertValue_classify (L : GoLib) (r : GoString) (v : Value L)
    (h : tryConvertValue L r = .ok v) :
    v = classify L (stripQuotes (TrimSpace r)) ∧
    tryConvertValue L "true".toList = .ok (.bool true) ∧
    tryConvertValue L "\"true\"".toList = .ok (.bool true) ∧
    tryConvertValue L [Char.ofNat 39, 'f', 'a', 'l', 's', 'e', Char.ofNat 39] = .ok (.bool false) ∧
    tryConvertValue L "\"30\"".toList = .ok (.int 30) := by
  refine ⟨?_, rfl, rfl, rfl, rfl⟩
  rw [tryConvertValue_eq] at h
  split at h
  · cases h
  · injection h with h
    exact h.symm

theorem tryConvertValue_classify_witness :
    tryConvertValue GoLib.plain " 'John' ".toList = .ok (.str "John".toList) ∧
    (Value.str "John".toList : Value GoLib.plain) =
      classify GoLib.plain (stripQuotes (TrimSpace " 'John' ".toList)) :=
  ⟨rfl, (tryConvertValue_classify GoLib.plain " 'John' ".toList (.str "John".toList) rfl).1⟩

/-! ### The two scenarios of the spec -/

/-- C19. Filtering the John and Sarah records with
`department = Engineering AND age > 30` returns the slice holding exactly the
John record. -/
theorem Filter_engineers_over_30 (L : GoLib) :
    Filter L [recordJohn L, recordSarah L] "department = Engineering AND age > 30".toList =
      .ok (.mk [recordJohn L]) := by
  rfl

/-- C20. Filtering the John and Sarah records with
`NOT department = Engineering` returns the slice holding exactly the Sarah
record. -/
theorem Filter_not_engineering (L : GoLib) :
    Filter L [recordJohn L, recordSarah L] "NOT department = Engineering".toList =
      .ok (.mk [recordSarah L]) := by
  rfl

/-! ### The operator search finds the left-most depth-0 occurrence -/

theorem findFrom_spec (c : Char) (tl : GoString) (hc1 : c ≠ '(') (hc2 : c ≠ ')') :
    ∀ (s : GoString) (level : Int),
    (∀ k, findFrom (c :: tl) s level = some k →
      ((c :: tl).isPrefixOf (s.drop k) = true ∧ level + depthOf (s.take k) = 0) ∧
      ∀ j, j < k → ¬ ((c :: tl).isPrefixOf (s.drop j) = true ∧ level + depthOf (s.take j) = 0)) ∧
    (findFrom (c :: tl) s level = none →
      ∀ j, ¬ ((c :: tl).isPrefixOf (s.drop j) = true ∧ level + depthOf (s.take j) = 0)) := by
  intro s
  induction s with
  | nil =>
    intro level
    constructor
    · intro k h; simp [findFrom] at h
    · intro _ j h
      simp [List.isPrefixOf] at h
  | cons x rest ih =>
    intro level
    have hzero : ∀ (P : Prop), (x = '(' ∨ x = ')') →
        ¬ ((c :: tl).isPrefixOf ((x :: rest).drop 0) = true ∧ P) := by
      intro P hx h
      have := h.1
      simp only [List.drop_zero, List.isPrefixOf, Bool.and_eq_true, beq_iff_eq] at this
      rcases hx with e | e
      · exact hc1 (this.1.trans e)
      · exact hc2 (this.1.trans e)
    -- shifting an occurrence by one position
    have shift : ∀ (lv : Int) (j : Nat),
        ((c :: tl).isPrefixOf ((x :: rest).drop (j + 1)) = true ∧
          level + depthOf ((x :: rest).take (j + 1)) = 0) ↔
        ((c :: tl).isPrefixOf (rest.drop j) = true ∧
          (level + (if x = '(' then 1 else if x = ')' then -1 else 0)) +
            depthOf (rest.take j) = 0) := by
      intro lv j
      simp only [List.drop_succ_cons, List.take_succ_cons, depthOf]
      constructor <;> rintro ⟨h1, h2⟩ <;> exact ⟨h1, by omega⟩
    have step : ∀ (lv : Int), lv = level + (if x = '(' then 1 else if x = ')' then -1 else 0) →
        (¬ ((c :: tl).isPrefixOf ((x :: rest).drop 0) = true ∧
          level + depthOf ((x :: rest).take 0) = 0)) →
        (∀ k, (findFrom (c :: tl) rest lv).map (· + 1) = some k →
          ((c :: tl).isPrefixOf ((x :: rest).drop k) = true ∧
            level + depthOf ((x :: rest).take k) = 0) ∧
          ∀ j, j < k → ¬ ((c :: tl).isPrefixOf ((x :: rest).drop j) = true ∧
            level + depthOf ((x :: rest).take j) = 0)) ∧
        ((findFrom (c :: tl) rest lv).map (· + 1) = none →
          ∀ j, ¬ ((c :: tl).isPrefixOf ((x :: rest).drop j) = true ∧
            level + depthOf ((x :: rest).take j) = 0)) := by
      intro lv hlv h0
      obtain ⟨i1, i2⟩ := ih lv
      constructor
      · intro k hk
        cases hf : findFrom (c :: tl) rest lv with
        | none => rw [hf] at hk; cases hk
        | some k' =>
          rw [hf] at hk
          simp only [Option.map_some', Option.some.injEq] at hk
          subst hk
          obtain ⟨a, b⟩ := i1 k' hf
          refine ⟨(shift lv k').mpr (by rw [← hlv]; exact a), ?_⟩
          intro j hj
          cases j with
          | zero => exact h0
          | succ j =>
            intro hh
            exact b j (by omega) (by rw [hlv]; exact (shift lv j).mp hh)
      · intro hn j
        have hn' : findFrom (c :: tl) rest lv = none := by
          cases hf : findFrom (c :: tl) rest lv with
          | none => rfl
          | some k' => rw [hf] at hn; cases hn
        cases j with
        | zero => exact h0
        | succ j =>
          intro hh
          exact i2 hn' j (by rw [hlv]; exact (shift lv j).mp hh)
    rw [findFrom]
    by_cases h1 : x = '('
    · rw [if_pos h1]
      exact step (level + 1) (by simp [h1]) (hzero _ (Or.inl h1))
    · rw [if_neg h1]
      by_cases h2 : x = ')'
      · rw [if_pos h2]
        exact step (level - 1) (by simp [h1, h2]; omega) (hzero _ (Or.inr h2))
      · rw [if_neg h2]
        by_cases h3 : level = 0 ∧ (c :: tl).isPrefixOf (x :: rest) = true
        · rw [if_pos h3]
          constructor
          · intro k hk
            injection hk with hk
            subst hk
            exact ⟨⟨h3.2, by simp [depthOf, h3.1]⟩, fun j hj => absurd hj (Nat.not_lt_zero j)⟩
          · intro h; cases h
        · rw [if_neg h3]
          refine step level (by simp [h1, h2]) ?_
          rintro ⟨a, b⟩
          apply h3
          simp only [List.take_zero, depthOf, add_zero] at b
          exact ⟨b, a⟩

/-- The index found by the pure search is the left-most depth-0 occurrence. -/
theorem findFrom_LeftMost (c : Char) (tl q : GoString) (hc1 : c ≠ '(') (hc2 : c ≠ ')') :
    (∀ k, findFrom (c :: tl) q 0 = some k ↔ LeftMost (c :: tl) q k) ∧
    (findFrom (c :: tl) q 0 = none ↔ ∀ j, ¬ OccursAt (c :: tl) q j) := by
  obtain ⟨s1, s2⟩ := findFrom_spec c tl hc1 hc2 q 0
  simp only [zero_add] at s1 s2
  have fwd : ∀ k, findFrom (c :: tl) q 0 = some k → LeftMost (c :: tl) q k := fun k hk => s1 k hk
  constructor
  · intro k
    refine ⟨fwd k, ?_⟩
    intro hl
    cases hf : findFrom (c :: tl) q 0 with
    | none => exact absurd hl.1 (s2 hf k)
    | some k' =>
      have hl' := fwd k' hf
      have : k' = k := by
        rcases Nat.lt_trichotomy k' k with h | h | h
        · exact absurd hl'.1 (hl.2 k' h)
        · exact h
        · exact absurd hl.1 (hl'.2 k h)
      rw [this]
  · refine ⟨s2, ?_⟩
    intro hn
    cases hf : findFrom (c :: tl) q 0 with
    | none => rfl
    | some k' => exact absurd (fwd k' hf).1 (hn k')

/-! ### The steps of `Parse` at the left-most depth-0 operator -/

theorem Parse_operators (L : GoLib) (q : GoString) (ht : TrimSpace q = q) (hne : q ≠ [])
    (hp : parenStepApplies q = false) : Parse L q = parseOperators L (Parse L) q := by
  rw [Parse_unfold, parseBody]
  simp only []
  rw [ht, if_neg hne]
  unfold parenStepApplies at hp
  by_cases hw : (HasPrefix q "(".toList && HasSuffix q ")".toList) = true
  · rw [if_pos hw]
    rw [hw, Bool.true_and] at hp
    simp only [Bool.or_eq_false_iff] at hp
    rw [if_neg (by rw [hp.1]; simp)]
    rw [if_neg (by simpa using hp.2)]
  · rw [if_neg hw]

theorem Parse_split_at_or (L : GoLib) (q : GoString) (i : Nat) (ht : TrimSpace q = q)
    (hne : q ≠ []) (hp : parenStepApplies q = false) (h : LeftMost " OR ".toList q i) :
    Parse L q = (Parse L (q.take i) >>= fun l => Parse L (q.drop (i + 4)) >>= fun r =>
      pure (.OrExpression l r)) := by
  rw [Parse_operators L q ht hne hp]
  exact parseOperators_or L q (Parse L) i
    (((findFrom_LeftMost ' ' "OR ".toList q (by decide) (by decide)).1 i).2 h)

theorem Parse_split_at_and (L : GoLib) (q : GoString) (i : Nat) (ht : TrimSpace q = q)
    (hne : q ≠ []) (hp : parenStepApplies q = false)
    (hor : ∀ j, ¬ OccursAt " OR ".toList q j) (h : LeftMost " AND ".toList q i) :
    Parse L q = (Parse L (q.take i) >>= fun l => Parse L (q.drop (i + 5)) >>= fun r =>
      pure (.AndExpression l r)) := by
  rw [Parse_operators L q ht hne hp]
  exact parseOperators_and L q (Parse L) i
    ((findFrom_LeftMost ' ' "OR ".toList q (by decide) (by decide)).2.2 hor)
    (((findFrom_LeftMost ' ' "AND ".toList q (by decide) (by decide)).1 i).2 h)

/-- C27. For a trimmed, non-empty query not consumed by the outer-parenthesis
step: when `i` is the left-most depth-0 position of ` OR `, `Parse` returns the
`Or` of the parses of `q[0..i)` and `q[i+4..]` (and panics exactly when one of
them does, left first); when there is no depth-0 ` OR ` and `i` is the
left-most depth-0 position of ` AND `, it returns the `And` of the parses of
`q[0..i)` and `q[i+5..]`; and `a OR b OR c` parses right-nested. -/
theorem Parse_leftmost_split (L : GoLib) (q : GoString) (i : Nat) (ht : TrimSpace q = q)
    (hne : q ≠ []) (hp : parenStepApplies q = false) :
    (LeftMost " OR ".toList q i →
      Parse L q = (Parse L (q.take i) >>= fun l => Parse L (q.drop (i + 4)) >>= fun r =>
        pure (.OrExpression l r))) ∧
    ((∀ j, ¬ OccursAt " OR ".toList q j) → LeftMost " AND ".toList q i →
      Parse L q = (Parse L (q.take i) >>= fun l => Parse L (q.drop (i + 5)) >>= fun r =>
        pure (.AndExpression l r))) ∧
    Parse L "a OR b OR c".toList =
      .ok (.OrExpression (.VariableExpression "a".toList)
        (.OrExpression (.VariableExpression "b".toList) (.VariableExpression "c".toList))) :=
  ⟨Parse_split_at_or L q i ht hne hp, Parse_split_at_and L q i ht hne hp, by rfl⟩

theorem Parse_leftmost_split_witness :
    LeftMost " OR ".toList "a OR b OR c".toList 1 ∧
    Parse GoLib.plain "a OR b OR c".toList =
      (Parse GoLib.plain ("a OR b OR c".toList.take 1) >>= fun l =>
        Parse GoLib.plain ("a OR b OR c".toList.drop (1 + 4)) >>= fun r =>
          pure (.OrExpression l r)) :=
  have h : LeftMost " OR ".toList "a OR b OR c".toList 1 :=
    ((findFrom_LeftMost ' ' "OR ".toList "a OR b OR c".toList (by decide) (by decide)).1 1).1 rfl
  ⟨h, (Parse_leftmost_split GoLib.plain "a OR b OR c".toList 1 rfl (by decide) rfl).1 h⟩

/-- On the code points: for an operator whose first rune is not a parenthesis,
`findSplitIndex` returns without panicking, whatever the lengths of query and
operator; a non-negative result is the smallest code point index at which the
operator occurs with as many `(` as `)` before it, and the result is -1
exactly when there is no such index. -/
theorem findSplitIndex_leftmost (c : Char) (tl query : GoString) (hc1 : c ≠ '(') (hc2 : c ≠ ')') :
    ∃ r : Int, findSplitIndex query (c :: tl) = .ok r ∧
      (r = -1 ∨ ∃ i : Nat, r = (i : Int) ∧ LeftMost (c :: tl) query i) ∧
      (r = -1 ↔ ∀ j, ¬ OccursAt (c :: tl) query j) ∧
      (∀ i : Nat, LeftMost (c :: tl) query i → r = (i : Int)) := by
  obtain ⟨f1, f2⟩ := findFrom_LeftMost c tl query hc1 hc2
  refine ⟨_, findSplitIndex_eq query (c :: tl) (by simp), ?_⟩
  cases hf : findFrom (c :: tl) query 0 with
  | none =>
    refine ⟨Or.inl rfl, ⟨fun _ => f2.1 hf, fun _ => rfl⟩, ?_⟩
    intro i hi
    exact absurd hi.1 (f2.1 hf i)
  | some k =>
    have hk := (f1 k).1 hf
    refine ⟨Or.inr ⟨k, by simp [splitResult], hk⟩, ⟨?_, ?_⟩, ?_⟩
    · intro h
      simp only [splitResult] at h
      omega
    · intro h
      exact absurd hk.1 (h k)
    · intro i hi
      have := (f1 i).2 hi
      rw [hf] at this
      injection this with this
      simp [splitResult, this]

/-! ### The operator search on bytes -/

theorem byteSlice_nat (s : ByteString) (lo hi : Nat) (h1 : lo ≤ hi) (h2 : hi ≤ s.length) :
    byteSlice s lo hi = .ok ((s.drop lo).take (hi - lo)) := by
  unfold byteSlice
  rw [if_pos (by omega)]
  simp

theorem byteAt_append (pre suf : ByteString) (b : Nat) :
    byteAt (pre ++ b :: suf) pre.length = .ok b := by
  unfold byteAt
  rw [if_pos (by simp)]
  have : (pre ++ b :: suf).get? pre.length = some b := by
    rw [List.get?_eq_getElem?, List.getElem?_append_right (le_refl _)]; simp
  simp only [Int.toNat_ofNat, this]

theorem findFromBytes_short (op : ByteString) : ∀ (s : ByteString) (level : Int),
    s.length < op.length → findFromBytes op s level = none := by
  intro s
  induction s with
  | nil => intro level _; rfl
  | cons c rest ih =>
    intro level h
    have h1 : rest.length < op.length := by simp at h; omega
    have h2 : op.isPrefixOf (c :: rest) = false := by
      by_contra hc
      rw [Bool.not_eq_false] at hc
      have := List.IsPrefix.length_le (List.isPrefixOf_iff_prefix.mp hc)
      omega
    simp [findFromBytes, ih _ h1, h2]

theorem take_eq_iff_isPrefixOf_bytes (op s : ByteString) :
    (s.take op.length = op) ↔ op.isPrefixOf s = true := by
  rw [List.isPrefixOf_iff_prefix]
  constructor
  · intro h1; rw [← h1]; exact List.take_prefix _ _
  · intro h1; exact List.prefix_iff_eq_take.mp h1 |>.symm

theorem findSplitLoopBytes_eq (op : ByteString) (hop : op ≠ []) :
    ∀ (suf pre : ByteString) (level : Int),
    findSplitLoopBytes (pre ++ suf) op (suf.length + 1 - op.length) pre.length level =
      .ok (splitResult pre.length (findFromBytes op suf level)) := by
  have hlen : 0 < op.length := List.length_pos.mpr hop
  intro suf
  induction suf with
  | nil =>
    intro pre level
    have : ([] : ByteString).length + 1 - op.length = 0 := by simp; omega
    rw [this]; simp [findSplitLoopBytes, findFromBytes, splitResult]
  | cons c rest ih =>
    intro pre level
    by_cases hshort : (c :: rest).length < op.length
    · have : (c :: rest).length + 1 - op.length = 0 := by omega
      rw [this, findFromBytes_short op _ level hshort]; simp [findSplitLoopBytes, splitResult]
    · have hcount : (c :: rest).length + 1 - op.length = (rest.length + 1 - op.length) + 1 := by
        simp at hshort ⊢; omega
      rw [hcount]
      have hpre : pre ++ c :: rest = (pre ++ [c]) ++ rest := by simp
      have ih1 : ∀ lv, findSplitLoopBytes (pre ++ c :: rest) op (rest.length + 1 - op.length)
          ((pre.length : Int) + 1) lv =
            .ok (splitResult (pre.length + 1) (findFromBytes op rest lv)) := by
        intro lv
        have := ih (pre ++ [c]) lv
        simpa [← hpre] using this
      rw [findSplitLoopBytes, byteAt_append]
      simp only [Except.bind, bind]
      by_cases h1 : c = 40
      · subst h1
        rw [if_pos rfl, ih1, findFromBytes, if_pos rfl, splitResult_map]
      · by_cases h2 : c = 41
        · subst h2
          rw [if_neg (by decide), if_pos rfl, ih1, findFromBytes, if_neg (by decide), if_pos rfl,
            splitResult_map]
        · rw [if_neg h1, if_neg h2, findFromBytes, if_neg h1, if_neg h2]
          by_cases h3 : level = 0
          · have hs : byteSlice (pre ++ c :: rest) pre.length (pre.length + op.length) =
                .ok ((c :: rest).take op.length) := by
              have := byteSlice_nat (pre ++ c :: rest) pre.length (pre.length + op.length)
                (by omega) (by simp at hshort ⊢; omega)
              simpa using this
            rw [if_pos h3, hs]
            simp only []
            by_cases h4 : op.isPrefixOf (c :: rest) = true
            · have := (take_eq_iff_isPrefixOf_bytes op (c :: rest)).mpr h4
              rw [if_pos this, if_pos ⟨h3, h4⟩]
              simp [splitResult]
            · have h5 : ¬ ((c :: rest).take op.length = op) := fun h =>
                h4 ((take_eq_iff_isPrefixOf_bytes op (c :: rest)).mp h)
              rw [if_neg h5, if_neg (fun h => h4 h.2), h3, ih1, splitResult_map]
          · rw [if_neg h3, if_neg (fun h => h3 h.1), ih1, splitResult_map]

/-- On bytes, `findSplitIndex` never indexes out of range and reports the
left-most depth-0 occurrence of a non-empty operator, or -1. -/
theorem findSplitIndexBytes_eq (query op : ByteString) (hop : op ≠ []) :
    findSplitIndexBytes query op = .ok (splitResult 0 (findFromBytes op query 0)) := by
  have h := findSplitLoopBytes_eq op hop query [] 0
  simp only [List.nil_append, List.length_nil] at h
  unfold findSplitIndexBytes
  have hc : ((query.length : Int) - op.length + 1).toNat = query.length + 1 - op.length := by omega
  rw [hc]
  exact h

theorem findFromBytes_spec (c : Nat) (tl : ByteString) (hc1 : c ≠ 40) (hc2 : c ≠ 41) :
    ∀ (s : ByteString) (level : Int),
    (∀ k, findFromBytes (c :: tl) s level = some k →
      ((c :: tl).isPrefixOf (s.drop k) = true ∧ level + depthOfBytes (s.take k) = 0) ∧
      ∀ j, j < k →
        ¬ ((c :: tl).isPrefixOf (s.drop j) = true ∧ level + depthOfBytes (s.take j) = 0)) ∧
    (findFromBytes (c :: tl) s level = none →
      ∀ j, ¬ ((c :: tl).isPrefixOf (s.drop j) = true ∧ level + depthOfBytes (s.take j) = 0)) := by
  intro s
  induction s with
  | nil =>
    intro level
    constructor
    · intro k h; simp [findFromBytes] at h
    · intro _ j h
      simp [List.isPrefixOf] at h
  | cons x rest ih =>
    intro level
    have hzero : ∀ (P : Prop), (x = 40 ∨ x = 41) →
        ¬ ((c :: tl).isPrefixOf ((x :: rest).drop 0) = true ∧ P) := by
      intro P hx h
      have := h.1
      simp only [List.drop_zero, List.isPrefixOf, Bool.and_eq_true, beq_iff_eq] at this
      rcases hx with e | e
      · exact hc1 (this.1.trans e)
      · exact hc2 (this.1.trans e)
    have shift : ∀ (j : Nat),
        ((c :: tl).isPrefixOf ((x :: rest).drop (j + 1)) = true ∧
          level + depthOfBytes ((x :: rest).take (j + 1)) = 0) ↔
        ((c :: tl).isPrefixOf (rest.drop j) = true ∧
          (level + (if x = 40 then 1 else if x = 41 then -1 else 0)) +
            depthOfBytes (rest.take j) = 0) := by
      intro j
      simp only [List.drop_succ_cons, List.take_succ_cons, depthOfBytes]
      constructor <;> rintro ⟨h1, h2⟩ <;> exact ⟨h1, by omega⟩
    have step : ∀ (lv : Int), lv = level + (if x = 40 then 1 else if x = 41 then -1 else 0) →
        (¬ ((c :: tl).isPrefixOf ((x :: rest).drop 0) = true ∧
          level + depthOfBytes ((x :: rest).take 0) = 0)) →
        (∀ k, (findFromBytes (c :: tl) rest lv).map (· + 1) = some k →
          ((c :: tl).isPrefixOf ((x :: rest).drop k) = true ∧
            level + depthOfBytes ((x :: rest).take k) = 0) ∧
          ∀ j, j < k → ¬ ((c :: tl).isPrefixOf ((x :: rest).drop j) = true ∧
            level + depthOfBytes ((x :: rest).take j) = 0)) ∧
        ((findFromBytes (c :: tl) rest lv).map (· + 1) = none →
          ∀ j, ¬ ((c :: tl).isPrefixOf ((x :: rest).drop j) = true ∧
            level + depthOfBytes ((x :: rest).take j) = 0)) := by
      intro lv hlv h0
      obtain ⟨i1, i2⟩ := ih lv
      constructor
      · intro k hk
        cases hf : findFromBytes (c :: tl) rest lv with
        | none => rw [hf] at hk; cases hk
        | some k' =>
          rw [hf] at hk
          simp only [Option.map_some', Option.some.injEq] at hk
          subst hk
          obtain ⟨a, b⟩ := i1 k' hf
          refine ⟨(shift k').mpr (by rw [← hlv]; exact a), ?_⟩
          intro j hj
          cases j with
          | zero => exact h0
          | succ j =>
            intro hh
            exact b j (by omega) (by rw [hlv]; exact (shift j).mp hh)
      · intro hn j
        have hn' : findFromBytes (c :: tl) rest lv = none := by
          cases hf : findFromBytes (c :: tl) rest lv with
          | none => rfl
          | some k' => rw [hf] at hn; cases hn
        cases j with
        | zero => exact h0
        | succ j =>
          intro hh
          exact i2 hn' j (by rw [hlv]; exact (shift j).mp hh)
    rw [findFromBytes]
    by_cases h1 : x = 40
    · rw [if_pos h1]
      exact step (level + 1) (by simp [h1]) (hzero _ (Or.inl h1))
    · rw [if_neg h1]
      by_cases h2 : x = 41
      · rw [if_pos h2]
        exact step (level - 1) (by simp [h1, h2]; omega) (hzero _ (Or.inr h2))
      · rw [if_neg h2]
        by_cases h3 : level = 0 ∧ (c :: tl).isPrefixOf (x :: rest) = true
        · rw [if_pos h3]
          constructor
          · intro k hk
            injection hk with hk
            subst hk
            exact ⟨⟨h3.2, by simp [depthOfBytes, h3.1]⟩,
              fun j hj => absurd hj (Nat.not_lt_zero j)⟩
          · intro h; cases h
        · rw [if_neg h3]
          refine step level (by simp [h1, h2]) ?_
          rintro ⟨a, b⟩
          apply h3
          simp only [List.take_zero, depthOfBytes, add_zero] at b
          exact ⟨b, a⟩

/-- On bytes, the index found by the pure search is the left-most depth-0
occurrence. -/
theorem findFromBytes_LeftMost (c : Nat) (tl q : ByteString) (hc1 : c ≠ 40) (hc2 : c ≠ 41) :
    (∀ k, findFromBytes (c :: tl) q 0 = some k ↔ LeftMostBytes (c :: tl) q k) ∧
    (findFromBytes (c :: tl) q 0 = none ↔ ∀ j, ¬ OccursAtBytes (c :: tl) q j) := by
  obtain ⟨s1, s2⟩ := findFromBytes_spec c tl hc1 hc2 q 0
  simp only [zero_add] at s1 s2
  have fwd : ∀ k, findFromBytes (c :: tl) q 0 = some k → LeftMostBytes (c :: tl) q k :=
    fun k hk => s1 k hk
  constructor
  · intro k
    refine ⟨fwd k, ?_⟩
    intro hl
    cases hf : findFromBytes (c :: tl) q 0 with
    | none => exact absurd hl.1 (s2 hf k)
    | some k' =>
      have hl' := fwd k' hf
      have : k' = k := by
        rcases Nat.lt_trichotomy k' k with h | h | h
        · exact absurd hl'.1 (hl.2 k' h)
        · exact h
        · exact absurd hl.1 (hl'.2 k h)
      rw [this]
  · refine ⟨s2, ?_⟩
    intro hn
    cases hf : findFromBytes (c :: tl) q 0 with
    | none => rfl
    | some k' => exact absurd (fwd k' hf).1 (hn k')

/-- C28. On the bytes of the strings, as Go indexes them: for an operator whose
first byte is not a parenthesis, `findSplitIndex` returns without panicking,
whatever the lengths of query and operator; a non-negative result is the
smallest byte index `i` with `query[i:i+len(op)] == op` and as many `(` as `)`
in `query[0:i]`, and the result is -1 exactly when there is no such index. -/
theorem findSplitIndexBytes_leftmost (b : Nat) (tl query : ByteString)
    (hb1 : b ≠ 40) (hb2 : b ≠ 41) :
    ∃ r : Int, findSplitIndexBytes query (b :: tl) = .ok r ∧
      (r = -1 ∨ ∃ i : Nat, r = (i : Int) ∧ LeftMostBytes (b :: tl) query i) ∧
      (r = -1 ↔ ∀ j, ¬ OccursAtBytes (b :: tl) query j) ∧
      (∀ i : Nat, LeftMostBytes (b :: tl) query i → r = (i : Int)) := by
  obtain ⟨f1, f2⟩ := findFromBytes_LeftMost b tl query hb1 hb2
  refine ⟨_, findSplitIndexBytes_eq query (b :: tl) (by simp), ?_⟩
  cases hf : findFromBytes (b :: tl) query 0 with
  | none =>
    refine ⟨Or.inl rfl, ⟨fun _ => f2.1 hf, fun _ => rfl⟩, ?_⟩
    intro i hi
    exact absurd hi.1 (f2.1 hf i)
  | some k =>
    have hk := (f1 k).1 hf
    refine ⟨Or.inr ⟨k, by simp [splitResult], hk⟩, ⟨?_, ?_⟩, ?_⟩
    · intro h
      simp only [splitResult] at h
      omega
    · intro h
      exact absurd hk.1 (h k)
    · intro i hi
      have := (f1 i).2 hi
      rw [hf] at this
      injection this with this
      simp [splitResult, this]

theorem findSplitIndexBytes_leftmost_witness :
    utf8Encode [Char.ofNat 233, ' ', 'O', 'R', ' ', 'b'] = [195, 169, 32, 79, 82, 32, 98] ∧
    utf8Encode " OR ".toList = [32, 79, 82, 32] ∧
    findSplitIndexBytes [195, 169, 32, 79, 82, 32, 98] [32, 79, 82, 32] = .ok 2 ∧
    ∃ r : Int, findSplitIndexBytes [195, 169, 32, 79, 82, 32, 98] (32 :: [79, 82, 32]) = .ok r ∧
      (r = -1 ∨ ∃ i : Nat, r = (i : Int) ∧
        LeftMostBytes (32 :: [79, 82, 32]) [195, 169, 32, 79, 82, 32, 98] i) ∧
      (r = -1 ↔ ∀ j, ¬ OccursAtBytes (32 :: [79, 82, 32]) [195, 169, 32, 79, 82, 32, 98] j) ∧
      (∀ i : Nat, LeftMostBytes (32 :: [79, 82, 32]) [195, 169, 32, 79, 82, 32, 98] i →
        r = (i : Int)) :=
  ⟨by rfl, by rfl, by rfl,
    findSplitIndexBytes_leftmost 32 [79, 82, 32] [195, 169, 32, 79, 82, 32, 98]
      (by decide) (by decide)⟩

/-! ### The search on code points and the search on bytes find the same cut -/

theorem Char_eq_of_toNat (a b : Char) (h : a.toNat = b.toNat) : a = b := by
  rw [← Char.ofNat_toNat a, ← Char.ofNat_toNat b, h]

/-- The encoding of a code point is a first byte that is no continuation byte,
followed by continuation bytes only; the first byte is a parenthesis exactly
when the code point is. -/
theorem utf8EncodeRune_shape (x : Char) :
    ∃ b0 conts, utf8EncodeRune x = b0 :: conts ∧ (∀ b ∈ conts, 128 ≤ b ∧ b < 192) ∧
      ¬ (128 ≤ b0 ∧ b0 < 192) ∧ (b0 = 40 ↔ x = '(') ∧ (b0 = 41 ↔ x = ')') := by
  have p1 : x = '(' → x.toNat = 40 := fun h => by rw [h]; rfl
  have p2 : x = ')' → x.toNat = 41 := fun h => by rw [h]; rfl
  unfold utf8EncodeRune
  split
  · refine ⟨_, _, rfl, by simp, by omega, ⟨fun h => Char_eq_of_toNat _ _ h, p1⟩,
      ⟨fun h => Char_eq_of_toNat _ _ h, p2⟩⟩
  · split
    · refine ⟨_, _, rfl, ?_, by omega, ⟨fun h => by omega, fun h => by have := p1 h; omega⟩,
        ⟨fun h => by omega, fun h => by have := p2 h; omega⟩⟩
      intro b hb
      simp only [List.mem_singleton] at hb
      omega
    · split
      · refine ⟨_, _, rfl, ?_, by omega, ⟨fun h => by omega, fun h => by have := p1 h; omega⟩,
          ⟨fun h => by omega, fun h => by have := p2 h; omega⟩⟩
        intro b hb
        simp only [List.mem_cons, List.mem_singleton, List.not_mem_nil, or_false] at hb
        omega
      · refine ⟨_, _, rfl, ?_, by omega, ⟨fun h => by omega, fun h => by have := p1 h; omega⟩,
          ⟨fun h => by omega, fun h => by have := p2 h; omega⟩⟩
        intro b hb
        simp only [List.mem_cons, List.mem_singleton, List.not_mem_nil, or_false] at hb
        omega

/-- Unique decoding: two byte strings that start with the encodings of two
code points and are equal start with the same code point. -/
theorem utf8EncodeRune_inj (a x : Char) (A B : ByteString)
    (h : utf8EncodeRune a ++ A = utf8EncodeRune x ++ B) : a = x := by
  apply Char_eq_of_toNat
  unfold utf8EncodeRune at h
  split at h <;> split at h <;> (try split at h) <;> (try split at h) <;> (try split at h) <;>
    (try split at h) <;>
    simp only [List.cons_append, List.nil_append, List.cons.injEq] at h <;> omega

theorem utf8Encode_append (a b : GoString) :
    utf8Encode (a ++ b) = utf8Encode a ++ utf8Encode b := by
  induction a with
  | nil => rfl
  | cons c t ih =>
    show utf8EncodeRune c ++ utf8Encode (t ++ b) =
      (utf8EncodeRune c ++ utf8Encode t) ++ utf8Encode b
    rw [ih, List.append_assoc]

theorem isPrefixOf_append_left (l a b : ByteString) :
    (l ++ a).isPrefixOf (l ++ b) = a.isPrefixOf b := by
  induction l with
  | nil => rfl
  | cons x t ih =>
    show ((x == x) && (t ++ a).isPrefixOf (t ++ b)) = _
    rw [ih, beq_self_eq_true, Bool.true_and]

/-- The encoding is a prefix code: the bytes of `op` start the bytes of `s`
exactly when the code points of `op` start those of `s`. -/
theorem isPrefixOf_utf8Encode : ∀ (op s : GoString),
    (utf8Encode op).isPrefixOf (utf8Encode s) = op.isPrefixOf s := by
  intro op
  induction op with
  | nil => intro s; simp [utf8Encode, List.isPrefixOf]
  | cons a op ih =>
    intro s
    cases s with
    | nil =>
      obtain ⟨b0, conts, e, _⟩ := utf8EncodeRune_shape a
      simp [utf8Encode, e, List.isPrefixOf]
    | cons x s =>
      by_cases hax : a = x
      · subst hax
        simp only [utf8Encode, isPrefixOf_append_left, ih s, List.isPrefixOf, beq_self_eq_true,
          Bool.true_and]
      · have hr : (a :: op).isPrefixOf (x :: s) = false := by
          simp [List.isPrefixOf, hax]
        rw [hr]
        by_contra hc
        rw [Bool.not_eq_false] at hc
        obtain ⟨t, ht⟩ := List.isPrefixOf_iff_prefix.mp hc
        simp only [utf8Encode, List.append_assoc] at ht
        exact hax (utf8EncodeRune_inj a x _ _ ht)

/-- Continuation bytes are skipped by the search for an encoded operator. -/
theorem findFromBytes_skip (op : ByteString) (b0 : Nat) (tl : ByteString)
    (hop : op = b0 :: tl) (hb0 : ¬ (128 ≤ b0 ∧ b0 < 192)) :
    ∀ (conts B : ByteString) (level : Int), (∀ b ∈ conts, 128 ≤ b ∧ b < 192) →
    findFromBytes op (conts ++ B) level = (findFromBytes op B level).map (· + conts.length) := by
  intro conts
  induction conts with
  | nil => intro B level _; simp
  | cons b t ih =>
    intro B level h
    have hb := h b (List.mem_cons_self _ _)
    have hpre : op.isPrefixOf (b :: (t ++ B)) = false := by
      rw [hop]
      simp only [List.isPrefixOf, Bool.and_eq_false_imp, beq_iff_eq]
      intro e
      omega
    rw [List.cons_append, findFromBytes, if_neg (by omega), if_neg (by omega),
      if_neg (fun hh => by rw [hpre] at hh; exact absurd hh.2 (by decide)),
      ih B level (fun c hc => h c (List.mem_cons_of_mem _ hc)), map_add_map, List.length_cons]

/-- The search on the bytes finds the byte offset of the code point the search
on the code points finds. -/
theorem findFromBytes_utf8Encode (c : Char) (tl : GoString) : ∀ (s : GoString) (level : Int),
    findFromBytes (utf8Encode (c :: tl)) (utf8Encode s) level =
      (findFrom (c :: tl) s level).map (fun k => (utf8Encode (s.take k)).length) := by
  obtain ⟨o0, oconts, eo, _, ho0, _, _⟩ := utf8EncodeRune_shape c
  have hop : utf8Encode (c :: tl) = o0 :: (oconts ++ utf8Encode tl) := by
    simp only [utf8Encode, eo, List.cons_append]
  intro s
  induction s with
  | nil => intro level; rfl
  | cons x rest ih =>
    intro level
    obtain ⟨b0, conts, e, hconts, hb0, hp1, hp2⟩ := utf8EncodeRune_shape x
    have hlen : ∀ k, (utf8Encode ((x :: rest).take (k + 1))).length =
        (utf8Encode (rest.take k)).length + (conts.length + 1) := by
      intro k
      simp only [List.take_succ_cons, utf8Encode, e, List.length_append, List.length_cons]
      omega
    have hmap : ∀ lv, ((findFromBytes (utf8Encode (c :: tl)) (utf8Encode rest) lv).map
          (· + conts.length)).map (· + 1) =
        ((findFrom (c :: tl) rest lv).map (· + 1)).map
          (fun k => (utf8Encode ((x :: rest).take k)).length) := by
      intro lv
      rw [ih lv]
      cases findFrom (c :: tl) rest lv with
      | none => rfl
      | some k =>
        simp only [Option.map_some', Option.some.injEq]
        rw [hlen k]
        omega
    have hstep : ∀ lv, (findFromBytes (utf8Encode (c :: tl)) (conts ++ utf8Encode rest) lv).map
          (· + 1) =
        ((findFrom (c :: tl) rest lv).map (· + 1)).map
          (fun k => (utf8Encode ((x :: rest).take k)).length) := by
      intro lv
      rw [findFromBytes_skip _ o0 _ hop ho0 conts _ lv hconts]
      exact hmap lv
    have henc : utf8Encode (x :: rest) = b0 :: (conts ++ utf8Encode rest) := by
      simp only [utf8Encode, e, List.cons_append]
    rw [henc, findFromBytes, findFrom]
    by_cases h1 : x = '('
    · rw [if_pos (hp1.mpr h1), if_pos h1]
      exact hstep _
    · rw [if_neg (fun h => h1 (hp1.mp h)), if_neg h1]
      by_cases h2 : x = ')'
      · rw [if_pos (hp2.mpr h2), if_pos h2]
        exact hstep _
      · rw [if_neg (fun h => h2 (hp2.mp h)), if_neg h2]
        have hpre : (utf8Encode (c :: tl)).isPrefixOf (b0 :: (conts ++ utf8Encode rest)) =
            (c :: tl).isPrefixOf (x :: rest) := by
          rw [← henc]
          exact isPrefixOf_utf8Encode _ _
        rw [hpre]
        by_cases h3 : level = 0 ∧ (c :: tl).isPrefixOf (x :: rest) = true
        · rw [if_pos h3, if_pos h3]
          rfl
        · rw [if_neg h3, if_neg h3]
          exact hstep _

/-- The search of `findSplitIndex` on the code points of a text and its search
on the bytes find the same place: both report -1, or the first reports the
code point index `i` and the second the byte offset of that code point, the
length of the encoding of `query[0..i)`. -/
theorem findSplitIndex_utf8Encode (c : Char) (tl query : GoString) :
    (findSplitIndex query (c :: tl) = .ok (-1) ∧
      findSplitIndexBytes (utf8Encode query) (utf8Encode (c :: tl)) = .ok (-1)) ∨
    ∃ i : Nat, findSplitIndex query (c :: tl) = .ok (i : Int) ∧
      findSplitIndexBytes (utf8Encode query) (utf8Encode (c :: tl)) =
        .ok (((utf8Encode (query.take i)).length : Nat) : Int) ∧
      (utf8Encode query).take (utf8Encode (query.take i)).length = utf8Encode (query.take i) ∧
      (utf8Encode query).drop (utf8Encode (query.take i)).length = utf8Encode (query.drop i) := by
  obtain ⟨o0, oconts, eo, _⟩ := utf8EncodeRune_shape c
  have hne : utf8Encode (c :: tl) ≠ [] := by
    simp only [utf8Encode, eo, List.cons_append]
    exact List.cons_ne_nil _ _
  rw [findSplitIndex_eq query (c :: tl) (by simp), findSplitIndexBytes_eq _ _ hne,
    findFromBytes_utf8Encode c tl query 0]
  cases findFrom (c :: tl) query 0 with
  | none => left; exact ⟨rfl, rfl⟩
  | some k =>
    right
    have hq : utf8Encode query = utf8Encode (query.take k) ++ utf8Encode (query.drop k) := by
      rw [← utf8Encode_append, List.take_append_drop]
    refine ⟨k, by simp [splitResult], by simp [splitResult], ?_, ?_⟩
    · rw [hq]
      exact List.take_left' rfl
    · rw [hq]
      exact List.drop_left' rfl

/-! ### Comparison operators are tried in the order `=`, `>`, `<` -/

theorem compLoop_equals (L : GoLib) (q : GoString) (i : Nat)
    (h : findFrom " = ".toList q 0 = some i) :
    compLoop L q [" = ".toList, " > ".toList, " < ".toList] =
      (tryConvertValue L (TrimSpace (q.drop (i + 3))) >>= fun v =>
        pure (some (.EqualsExpression (TrimSpace (q.take i)) v))) := by
  have hb : i + 3 ≤ q.length := findFrom_bound _ _ _ _ h
  rw [compLoop, findSplitIndex_eq q _ (by decide), h]
  have e1 := slice_nat q 0 i (by omega) (by omega)
  have e2 := slice_nat q (i + 3) q.length (by omega) (by omega)
  simp only [List.drop_zero, Nat.sub_zero, Nat.cast_zero] at e1
  rw [List.take_of_length_le (by simp)] at e2
  simp only [splitResult, Nat.zero_add, bind, Except.bind, ne_eq]
  rw [if_pos (by omega)]
  push_cast at e2
  have e3 : (" = ".toList : GoString).length = 3 := rfl
  rw [e1, e3]
  simp only [Nat.cast_ofNat]
  rw [e2]
  simp only [if_true]

theorem Parse_equals (L : GoLib) (q : GoString) (i : Nat) (ht : TrimSpace q = q)
    (hp : parenStepApplies q = false)
    (hor : ∀ j, ¬ OccursAt " OR ".toList q j) (hand : ∀ j, ¬ OccursAt " AND ".toList q j)
    (hnot : HasPrefix q "NOT ".toList = false) (heq : LeftMost " = ".toList q i) :
    Parse L q = (tryConvertValue L (TrimSpace (q.drop (i + 3))) >>= fun v =>
      pure (.EqualsExpression (TrimSpace (q.take i)) v)) := by
  have hne : q ≠ [] := by
    intro e
    have h := heq.1.1
    rw [e] at h
    simp [List.isPrefixOf] at h
  rw [Parse_operators L q ht hne hp, parseOperators_leaf L q (Parse L)
    ((findFrom_LeftMost ' ' "OR ".toList q (by decide) (by decide)).2.2 hor)
    ((findFrom_LeftMost ' ' "AND ".toList q (by decide) (by decide)).2.2 hand) hnot]
  unfold parseLeaf
  rw [compLoop_equals L q i
    (((findFrom_LeftMost ' ' "= ".toList q (by decide) (by decide)).1 i).2 heq)]
  cases tryConvertValue L (TrimSpace (q.drop (i + 3))) with
  | error e => rfl
  | ok v => rfl

/-- C30. For a trimmed query to which the parenthesis, OR, AND and
NOT steps do not apply and whose left-most depth-0 ` = ` is at index `i`,
`Parse` returns `Equals(trim(q[0..i)), v)` where `v` is the value
`tryConvertValue` returns on `trim(q[i+3..])` (and panics when that call
does), also when ` > ` or ` < ` occurs earlier: `a > b = c` parses to `Equals`
with the variable `a > b` and the String target `c`. -/
theorem Parse_comparison_order (L : GoLib) (q : GoString) (i : Nat) (ht : TrimSpace q = q)
    (hp : parenStepApplies q = false)
    (hor : ∀ j, ¬ OccursAt " OR ".toList q j) (hand : ∀ j, ¬ OccursAt " AND ".toList q j)
    (hnot : HasPrefix q "NOT ".toList = false) (heq : LeftMost " = ".toList q i) :
    Parse L q = (tryConvertValue L (TrimSpace (q.drop (i + 3))) >>= fun v =>
      pure (.EqualsExpression (TrimSpace (q.take i)) v)) ∧
    Parse L "a > b = c".toList = .ok (.EqualsExpression "a > b".toList (.str "c".toList)) :=
  ⟨Parse_equals L q i ht hp hor hand hnot heq, by rfl⟩

theorem Parse_comparison_order_witness :
    LeftMost " = ".toList "a > b = c".toList 5 ∧
    Parse GoLib.plain "a > b = c".toList =
      (tryConvertValue GoLib.plain (TrimSpace ("a > b = c".toList.drop (5 + 3))) >>= fun v =>
        pure (.EqualsExpression (TrimSpace ("a > b = c".toList.take 5)) v)) :=
  have h : LeftMost " = ".toList "a > b = c".toList 5 :=
    ((findFrom_LeftMost ' ' "= ".toList "a > b = c".toList (by decide) (by decide)).1 5).1 rfl
  ⟨h, (Parse_comparison_order GoLib.plain "a > b = c".toList 5 rfl rfl
    ((findFrom_LeftMost ' ' "OR ".toList "a > b = c".toList (by decide) (by decide)).2.1 rfl)
    ((findFrom_LeftMost ' ' "AND ".toList "a > b = c".toList (by decide) (by decide)).2.1 rfl)
    rfl h).1⟩

/-! ### A wrapped query whose parentheses do not balance -/

theorem parenLoop_full (len : Nat) : ∀ (s : GoString) (i level : Int),
    (∀ k, 0 < k → k ≤ s.length → i + k - 1 < (len : Int) - 1 → level + depthOf (s.take k) ≠ 0) →
    parenLoop len s i level = (level + depthOf s, true) := by
  intro s
  induction s with
  | nil => intro i level _; simp [parenLoop, depthOf]
  | cons c t ih =>
    intro i level h
    have e : (if c = '(' then level + 1 else if c = ')' then level - 1 else level) =
        level + (if c = '(' then 1 else if c = ')' then -1 else 0) := by
      split
      · rfl
      · split <;> omega
    rw [parenLoop]
    simp only [e]
    have h1 := h 1 (by omega) (by simp)
    simp only [List.take_succ_cons, List.take_zero, depthOf, add_zero] at h1
    rw [if_neg (fun hh => h1 (by omega) hh.1)]
    rw [ih (i + 1) _ (fun k hk1 hk2 hk3 => by
      have := h (k + 1) (by omega) (by simp; omega) (by push_cast; omega)
      rw [depthOf_take_succ] at this
      omega)]
    simp only [depthOf]
    congr 1
    omega

/-- C25. A trimmed query that starts with `(` and ends with `)`, whose depth is
not 0 after any proper non-empty prefix and is not 0 at the end, parses to
`Literal(false)`, which is false on every context. -/
theorem Parse_wrapped_unbalanced (L : GoLib) (q : GoString) (ht : TrimSpace q = q)
    (hpre : HasPrefix q "(".toList = true) (hsuf : HasSuffix q ")".toList = true)
    (hin : ∀ k, k < q.length → 0 < k → depthOf (q.take k) ≠ 0) (hfin : depthOf q ≠ 0) :
    Parse L q = .ok (.LiteralExpression (.bool false)) ∧
    ∀ ctx : Context L, evalQuery L q ctx = .ok false := by
  have hscan : parenLoop q.length q 0 0 = (depthOf q, true) := by
    rw [parenLoop_full q.length q 0 0 (fun k hk1 hk2 hk3 => by
      rw [zero_add]; exact hin k (by omega) hk1), zero_add]
  have hparse : Parse L q = .ok (.LiteralExpression (.bool false)) := by
    rw [Parse_unfold, parseBody]
    simp only []
    rw [ht, hpre, hsuf, hscan]
    by_cases hne : q = []
    · rw [if_pos hne]
    · rw [if_neg hne]
      simp [hfin]
  refine ⟨hparse, fun ctx => ?_⟩
  unfold evalQuery
  rw [hparse]
  rfl

theorem Parse_wrapped_unbalanced_witness :
    TrimSpace "((a = 1)".toList = "((a = 1)".toList ∧
    depthOf "((a = 1)".toList ≠ 0 ∧
    Parse GoLib.plain "((a = 1)".toList = .ok (.LiteralExpression (.bool false)) ∧
    ∀ ctx : Context GoLib.plain, evalQuery GoLib.plain "((a = 1)".toList ctx = .ok false :=
  ⟨by rfl, by decide,
    Parse_wrapped_unbalanced GoLib.plain "((a = 1)".toList (by rfl) (by rfl) (by rfl)
      (by decide) (by decide)⟩

/-! ### White space around a query -/

theorem dropWhile_blank_append (w x : GoString) (hw : ∀ c ∈ w, isSpace c = true) :
    (w ++ x).dropWhile isSpace = x.dropWhile isSpace := by
  induction w with
  | nil => rfl
  | cons a t ih =>
    rw [List.cons_append, List.dropWhile_cons_of_pos (hw a (List.mem_cons_self _ _))]
    exact ih (fun c hc => hw c (List.mem_cons_of_mem _ hc))

theorem dropWhile_append_of_mem (a b : GoString) (h : ∃ c ∈ a, isSpace c = false) :
    (a ++ b).dropWhile isSpace = a.dropWhile isSpace ++ b := by
  induction a with
  | nil => obtain ⟨c, hc, _⟩ := h; cases hc
  | cons x t ih =>
    by_cases hx : isSpace x = true
    · rw [List.cons_append, List.dropWhile_cons_of_pos hx, List.dropWhile_cons_of_pos hx]
      apply ih
      obtain ⟨c, hc, hcs⟩ := h
      rcases List.mem_cons.mp hc with e | e
      · subst e; rw [hx] at hcs; cases hcs
      · exact ⟨c, e, hcs⟩
    · rw [List.cons_append, List.dropWhile_cons_of_neg hx, List.dropWhile_cons_of_neg hx]
      rfl

theorem TrimSpace_blank_left (w x : GoString) (hw : ∀ c ∈ w, isSpace c = true) :
    TrimSpace (w ++ x) = TrimSpace x := by
  unfold TrimSpace
  rw [dropWhile_blank_append w x hw]

theorem TrimSpace_blank_right (x w : GoString) (hw : ∀ c ∈ w, isSpace c = true) :
    TrimSpace (x ++ w) = TrimSpace x := by
  by_cases h : ∃ c ∈ x, isSpace c = false
  · unfold TrimSpace
    rw [dropWhile_append_of_mem x w h, List.reverse_append,
      dropWhile_blank_append _ _ (fun c hc => hw c (List.mem_reverse.mp hc))]
  · have hx : ∀ c ∈ x, isSpace c = true := by
      intro c hc
      by_contra hcs
      exact h ⟨c, hc, by simpa using hcs⟩
    rw [TrimSpace_blank x hx, TrimSpace_blank (x ++ w)]
    intro c hc
    rcases List.mem_append.mp hc with e | e
    · exact hx c e
    · exact hw c e

theorem Parse_congr_TrimSpace (L : GoLib) (a b : GoString) (h : TrimSpace a = TrimSpace b) :
    Parse L a = Parse L b := by
  rw [Parse_unfold L a, Parse_unfold L b]
  unfold parseBody
  simp only [h]

/-! ### Balanced texts -/

theorem depthOf_append (a b : GoString) : depthOf (a ++ b) = depthOf a + depthOf b := by
  induction a with
  | nil => simp [depthOf]
  | cons c t ih =>
    rw [List.cons_append]
    show _ + depthOf (t ++ b) = (_ + depthOf t) + depthOf b
    rw [ih]; omega

theorem depthOf_blank (w : GoString) (hw : ∀ c ∈ w, isSpace c = true) : depthOf w = 0 := by
  induction w with
  | nil => rfl
  | cons c t ih =>
    have hc := hw c (List.mem_cons_self _ _)
    have h1 : c ≠ '(' := by intro e; subst e; revert hc; decide
    have h2 : c ≠ ')' := by intro e; subst e; revert hc; decide
    simp only [depthOf, if_neg h1, if_neg h2, ih (fun d hd => hw d (List.mem_cons_of_mem _ hd))]
    rfl

theorem Balanced_take (s : GoString) (h : Balanced s) (k : Nat) : 0 ≤ depthOf (s.take k) := by
  by_cases hk : k ≤ s.length
  · exact h.1 k hk
  · rw [List.take_of_length_le (by omega), h.2]

theorem Balanced_blank (w : GoString) (hw : ∀ c ∈ w, isSpace c = true) : Balanced w :=
  ⟨fun _ _ => le_of_eq (depthOf_blank _ (fun c hc => hw c (List.mem_of_mem_take hc))).symm,
    depthOf_blank w hw⟩

theorem Balanced_append (a b : GoString) (ha : Balanced a) (hb : Balanced b) :
    Balanced (a ++ b) := by
  refine ⟨fun k _ => ?_, by rw [depthOf_append, ha.2, hb.2]; rfl⟩
  rw [List.take_append_eq_append_take, depthOf_append]
  have := Balanced_take a ha k
  have := Balanced_take b hb (k - a.length)
  omega

theorem Balanced_paren (x : GoString) (hx : Balanced x) : Balanced ('(' :: (x ++ [')'])) := by
  constructor
  · intro k _
    cases k with
    | zero => simp [depthOf]
    | succ k =>
      rw [depthOf_take_succ, List.take_append_eq_append_take, depthOf_append]
      have h1 := Balanced_take x hx k
      have h2 : -1 ≤ depthOf (List.take (k - x.length) [')']) := by
        cases (k - x.length) with
        | zero => simp [depthOf]
        | succ j => simp [depthOf]
      simp only [if_true]
      omega
  · simp only [depthOf, depthOf_append, hx.2, if_true]
    rfl

theorem Balanced_wrapParens (q : GoString) (hq : Balanced q) :
    ∀ layers : List (GoString × GoString),
    (∀ l ∈ layers, (∀ c ∈ l.1, isSpace c = true) ∧ ∀ c ∈ l.2, isSpace c = true) →
    Balanced (wrapParens layers q) := by
  intro layers
  induction layers with
  | nil => intro _; exact hq
  | cons l ls ih =>
    intro h
    have hl := h l (List.mem_cons_self _ _)
    have hW := ih (fun m hm => h m (List.mem_cons_of_mem _ hm))
    have e : wrapParens (l :: ls) q = l.1 ++ (('(' :: (wrapParens ls q ++ [')'])) ++ l.2) := by
      simp [wrapParens]
    rw [e]
    exact Balanced_append _ _ (Balanced_blank _ hl.1)
      (Balanced_append _ _ (Balanced_paren _ hW) (Balanced_blank _ hl.2))

theorem Parse_wrapParens (L : GoLib) (q : GoString) (hq : Balanced q) :
    ∀ layers : List (GoString × GoString),
    (∀ l ∈ layers, (∀ c ∈ l.1, isSpace c = true) ∧ ∀ c ∈ l.2, isSpace c = true) →
    Parse L (wrapParens layers q) = Parse L q := by
  intro layers
  induction layers with
  | nil => intro _; rfl
  | cons l ls ih =>
    intro h
    have hl := h l (List.mem_cons_self _ _)
    have hls := fun m hm => h m (List.mem_cons_of_mem _ hm)
    have hW := Balanced_wrapParens q hq ls hls
    have e : wrapParens (l :: ls) q = l.1 ++ (('(' :: (wrapParens ls q ++ [')'])) ++ l.2) := by
      simp [wrapParens]
    rw [e, Parse_congr_TrimSpace L _ ('(' :: (wrapParens ls q ++ [')']))
      (by rw [TrimSpace_blank_left _ _ hl.1, TrimSpace_blank_right _ _ hl.2]),
      Parse_paren L _ hW]
    exact ih hls

/-- C26. For a query `q` with balanced parentheses, `(q)` parses to what `q`
parses to, and so does `q` inside any number of parenthesis pairs, each pair
with any white space around it. -/
theorem Parse_redundant_parens (L : GoLib) (q : GoString) (hq : Balanced q)
    (layers : List (GoString × GoString))
    (hws : ∀ l ∈ layers, (∀ c ∈ l.1, isSpace c = true) ∧ ∀ c ∈ l.2, isSpace c = true) :
    Parse L ("(".toList ++ q ++ ")".toList) = Parse L q ∧
    Parse L (wrapParens layers q) = Parse L q :=
  ⟨Parse_paren L q hq, Parse_wrapParens L q hq layers hws⟩

theorem Balanced_example : Balanced "a = 1 AND (b = 2 OR c = 3)".toList := by
  constructor
  · intro k hk
    have hk2 : k ≤ 26 := hk
    interval_cases k <;> decide
  · decide

theorem Parse_redundant_parens_witness :
    wrapParens [(" ".toList, []), ([], "  ".toList)] "a = 1 AND (b = 2 OR c = 3)".toList =
      " ((a = 1 AND (b = 2 OR c = 3))  )".toList ∧
    Parse GoLib.plain ("(".toList ++ "a = 1 AND (b = 2 OR c = 3)".toList ++ ")".toList) =
      Parse GoLib.plain "a = 1 AND (b = 2 OR c = 3)".toList ∧
    Parse GoLib.plain
        (wrapParens [(" ".toList, []), ([], "  ".toList)] "a = 1 AND (b = 2 OR c = 3)".toList) =
      Parse GoLib.plain "a = 1 AND (b = 2 OR c = 3)".toList :=
  ⟨by rfl, Parse_redundant_parens GoLib.plain "a = 1 AND (b = 2 OR c = 3)".toList
    Balanced_example [(" ".toList, []), ([], "  ".toList)] (by decide)⟩

/-! ### `NOT` binds tighter than `AND` and `OR` -/

theorem OccursAt_append (op t w : GoString) (j : Nat) (hop : op ≠ [])
    (h : OccursAt op t j) : OccursAt op (t ++ w) j := by
  obtain ⟨h1, h2⟩ := h
  have hj : j < t.length := by
    by_contra hlt
    rw [List.drop_of_length_le (by omega)] at h1
    cases op with
    | nil => exact hop rfl
    | cons a r => simp [List.isPrefixOf] at h1
  constructor
  · rw [List.drop_append_of_le_length (by omega)]
    obtain ⟨r, hr⟩ := List.isPrefixOf_iff_prefix.mp h1
    exact List.isPrefixOf_iff_prefix.mpr ⟨r ++ w, by rw [← List.append_assoc, hr]⟩
  · rw [List.take_append_of_le_length (by omega)]
    exact h2

theorem TrimSpace_NOT (q : GoString) (hq : ∃ c ∈ q, isSpace c = false) :
    ∃ r w : GoString, q = r ++ w ∧ (∀ c ∈ w, isSpace c = true) ∧
      TrimSpace ("NOT ".toList ++ q) = "NOT ".toList ++ r := by
  refine ⟨(q.reverse.dropWhile isSpace).reverse, (q.reverse.takeWhile isSpace).reverse, ?_, ?_, ?_⟩
  · rw [← List.reverse_append, List.takeWhile_append_dropWhile, List.reverse_reverse]
  · intro c hc
    exact List.mem_takeWhile_imp (List.mem_reverse.mp hc)
  · unfold TrimSpace
    have e1 : ("NOT ".toList ++ q).dropWhile isSpace = "NOT ".toList ++ q := by
      show ('N' :: (['O', 'T', ' '] ++ q)).dropWhile isSpace = _
      rw [List.dropWhile_cons_of_neg (by decide)]
      rfl
    obtain ⟨c, hc, hcs⟩ := hq
    rw [e1, List.reverse_append,
      dropWhile_append_of_mem _ _ ⟨c, List.mem_reverse.mpr hc, hcs⟩, List.reverse_append,
      List.reverse_reverse]

theorem Parse_NOT (L : GoLib) (q : GoString) (hq : ∃ c ∈ q, isSpace c = false)
    (hor : ∀ j, ¬ OccursAt " OR ".toList ("NOT ".toList ++ q) j)
    (hand : ∀ j, ¬ OccursAt " AND ".toList ("NOT ".toList ++ q) j) :
    Parse L ("NOT ".toList ++ q) = (Parse L q >>= fun e => pure (.NotExpression e)) := by
  obtain ⟨r, w, hrw, hw, htrim⟩ := TrimSpace_NOT q hq
  have hwhole : "NOT ".toList ++ q = ("NOT ".toList ++ r) ++ w := by
    rw [hrw, List.append_assoc]
  have hor2 : findFrom " OR ".toList ("NOT ".toList ++ r) 0 = none := by
    apply (findFrom_LeftMost ' ' "OR ".toList _ (by decide) (by decide)).2.2
    intro j hj
    apply hor j
    rw [hwhole]
    exact OccursAt_append _ _ w j (by decide) hj
  have hand2 : findFrom " AND ".toList ("NOT ".toList ++ r) 0 = none := by
    apply (findFrom_LeftMost ' ' "AND ".toList _ (by decide) (by decide)).2.2
    intro j hj
    apply hand j
    rw [hwhole]
    exact OccursAt_append _ _ w j (by decide) hj
  have hpre : HasPrefix ("NOT ".toList ++ r) "NOT ".toList = true := by
    unfold HasPrefix
    exact List.isPrefixOf_iff_prefix.mpr ⟨r, rfl⟩
  have hparen : (HasPrefix ("NOT ".toList ++ r) "(".toList &&
      HasSuffix ("NOT ".toList ++ r) ")".toList) = false := by
    have : HasPrefix ("NOT ".toList ++ r) "(".toList = false := by
      simp [HasPrefix, List.isPrefixOf]
    rw [this]; rfl
  rw [Parse_unfold, parseBody]
  simp only []
  rw [htrim, if_neg (by simp), hparen]
  simp only [Bool.false_eq_true, if_false]
  rw [parseOperators_not L _ (Parse L) hor2 hand2 hpre]
  have hdrop : List.drop 4 ("NOT ".toList ++ r) = r := rfl
  rw [hdrop, Parse_congr_TrimSpace L r q (by rw [hrw, TrimSpace_blank_right r w hw])]

/-- C29. For a non-blank `q` such that `NOT ` followed by `q` has no depth-0
occurrence of ` OR ` or ` AND `, `Parse` returns on it the `Not` of what it
returns on `q`, so its value on every context is the negation of the value of
`q` (and it panics when `Parse` panics on `q`). The query
`NOT a = 1 AND b = 2` parses to `And(Not(Equals(a,1)), Equals(b,2))`, which on
the context `a = 0, b = 0` is false while `Not(And(Equals(a,1), Equals(b,2)))`
is true. -/
theorem Parse_not_binds_tighter (L : GoLib) (q : GoString) (hq : ∃ c ∈ q, isSpace c = false)
    (hor : ∀ j, ¬ OccursAt " OR ".toList ("NOT ".toList ++ q) j)
    (hand : ∀ j, ¬ OccursAt " AND ".toList ("NOT ".toList ++ q) j) :
    (Parse L ("NOT ".toList ++ q) = (Parse L q >>= fun e => pure (.NotExpression e))) ∧
    (∀ ctx : Context L, evalQuery L ("NOT ".toList ++ q) ctx =
      (evalQuery L q ctx >>= fun b => pure (!b))) ∧
    Parse L "NOT a = 1 AND b = 2".toList =
      .ok (.AndExpression (.NotExpression (.EqualsExpression "a".toList (.int 1)))
        (.EqualsExpression "b".toList (.int 2))) ∧
    Interpret L (.AndExpression (.NotExpression (.EqualsExpression "a".toList (.int 1)))
        (.EqualsExpression "b".toList (.int 2)))
      [("a".toList, .int 0), ("b".toList, .int 0)] = false ∧
    Interpret L (.NotExpression (.AndExpression (.EqualsExpression "a".toList (.int 1))
        (.EqualsExpression "b".toList (.int 2))))
      [("a".toList, .int 0), ("b".toList, .int 0)] = true := by
  have h := Parse_NOT L q hq hor hand
  refine ⟨h, fun ctx => ?_, by rfl, by rfl, by rfl⟩
  unfold evalQuery
  rw [h]
  cases Parse L q with
  | error e => rfl
  | ok e => rfl

theorem Parse_not_binds_tighter_witness :
    (∃ c ∈ "a = 1".toList, isSpace c = false) ∧
    Parse GoLib.plain ("NOT ".toList ++ "a = 1".toList) =
      .ok (.NotExpression (.EqualsExpression "a".toList (.int 1))) ∧
    ∀ ctx : Context GoLib.plain, evalQuery GoLib.plain ("NOT ".toList ++ "a = 1".toList) ctx =
      (evalQuery GoLib.plain "a = 1".toList ctx >>= fun b => pure (!b)) :=
  have hq : ∃ c ∈ "a = 1".toList, isSpace c = false := ⟨'a', by decide, by decide⟩
  have h := Parse_not_binds_tighter GoLib.plain "a = 1".toList hq
    ((findFrom_LeftMost ' ' "OR ".toList _ (by decide) (by decide)).2.1 rfl)
    ((findFrom_LeftMost ' ' "AND ".toList _ (by decide) (by decide)).2.1 rfl)
  ⟨hq, h.1.trans rfl, h.2.1⟩

/-! ### Termination of `Parse` -/

theorem ParseWF_eq_Parse (L : GoLib) : ∀ (n : Nat) (q : GoString), q.length < n →
    ParseWF L q = Parse L q := by
  intro n
  induction n with
  | zero => intro q h; omega
  | succ n ih =>
    intro q h
    rw [ParseWF, Parse_unfold]
    apply parseBody_congr
    intro x hx
    have hq := TrimSpace_length_le q
    rw [dif_pos (by omega)]
    exact ih x (by omega)

/-- C33. Every recursive call of `Parse` is on a text strictly shorter than the
trimmed query: the body yields the same result for any two recursive-call
functions that agree on the strictly shorter texts. Hence `Parse` is the
function defined by well-founded recursion on the query length, its result
does not depend on the recursion budget once that exceeds the length, and it
never ends for want of budget. -/
theorem Parse_terminates (L : GoLib) (q : GoString) :
    (∀ r1 r2 : GoString → Result (Expression L),
      (∀ x : GoString, x.length < (TrimSpace q).length → r1 x = r2 x) →
        parseBody L r1 q = parseBody L r2 q) ∧
    (TrimSpace q).length ≤ q.length ∧
    ParseWF L q = Parse L q ∧
    (∀ n, q.length < n → ParseFuel L n q = Parse L q) ∧
    Parse L q ≠ .error .outOfFuel ∧
    Parse L q = parseBody L (Parse L) q := by
  refine ⟨parseBody_congr L q, TrimSpace_length_le q, ParseWF_eq_Parse L _ q (Nat.lt_succ_self _),
    fun n hn => ParseFuel_stable L n _ q hn (Nat.lt_succ_self _), ?_, Parse_unfold L q⟩
  intro h
  have := Parse_fault L _ q (Nat.lt_succ_self _) _ h
  cases this

/-! ### The comparison step and the bare tokens -/

theorem compLoop_skip (L : GoLib) (q op : GoString) (ops : List GoString) (hop : op ≠ [])
    (h : findFrom op q 0 = none) : compLoop L q (op :: ops) = compLoop L q ops := by
  rw [compLoop, findSplitIndex_eq q op hop, h]
  simp only [splitResult, bind, Except.bind, ne_eq, not_true_eq_false, if_false]

theorem compLoop_greater (L : GoLib) (q : GoString) (i : Nat)
    (he : findFrom " = ".toList q 0 = none) (h : findFrom " > ".toList q 0 = some i) :
    compLoop L q [" = ".toList, " > ".toList, " < ".toList] =
      (tryConvertValue L (TrimSpace (q.drop (i + 3))) >>= fun v =>
        pure (some (.GreaterThanExpression (TrimSpace (q.take i)) v))) := by
  have hb : i + 3 ≤ q.length := findFrom_bound _ _ _ _ h
  rw [compLoop_skip L q _ _ (by decide) he, compLoop, findSplitIndex_eq q _ (by decide), h]
  have e1 := slice_nat q 0 i (by omega) (by omega)
  have e2 := slice_nat q (i + 3) q.length (by omega) (by omega)
  simp only [List.drop_zero, Nat.sub_zero, Nat.cast_zero] at e1
  rw [List.take_of_length_le (by simp)] at e2
  simp only [splitResult, Nat.zero_add, bind, Except.bind, ne_eq]
  rw [if_pos (by omega)]
  push_cast at e2
  have e3 : (" > ".toList : GoString).length = 3 := rfl
  rw [e1, e3]
  simp only [Nat.cast_ofNat]
  rw [e2]
  have n1 : ¬ (" > ".toList = " = ".toList) := by decide
  simp only [n1, if_false, if_true]

theorem compLoop_less (L : GoLib) (q : GoString) (i : Nat)
    (he : findFrom " = ".toList q 0 = none) (hg : findFrom " > ".toList q 0 = none)
    (h : findFrom " < ".toList q 0 = some i) :
    compLoop L q [" = ".toList, " > ".toList, " < ".toList] =
      (tryConvertValue L (TrimSpace (q.drop (i + 3))) >>= fun v =>
        pure (some (.LessThanExpression (TrimSpace (q.take i)) v))) := by
  have hb : i + 3 ≤ q.length := findFrom_bound _ _ _ _ h
  rw [compLoop_skip L q _ _ (by decide) he, compLoop_skip L q _ _ (by decide) hg, compLoop,
    findSplitIndex_eq q _ (by decide), h]
  have e1 := slice_nat q 0 i (by omega) (by omega)
  have e2 := slice_nat q (i + 3) q.length (by omega) (by omega)
  simp only [List.drop_zero, Nat.sub_zero, Nat.cast_zero] at e1
  rw [List.take_of_length_le (by simp)] at e2
  simp only [splitResult, Nat.zero_add, bind, Except.bind, ne_eq]
  rw [if_pos (by omega)]
  push_cast at e2
  have e3 : (" < ".toList : GoString).length = 3 := rfl
  rw [e1, e3]
  simp only [Nat.cast_ofNat]
  rw [e2]
  have n1 : ¬ (" < ".toList = " = ".toList) := by decide
  have n2 : ¬ (" < ".toList = " > ".toList) := by decide
  simp only [n1, n2, if_false, if_true]

theorem compLoop_none (L : GoLib) (q : GoString)
    (he : findFrom " = ".toList q 0 = none) (hg : findFrom " > ".toList q 0 = none)
    (hl : findFrom " < ".toList q 0 = none) :
    compLoop L q [" = ".toList, " > ".toList, " < ".toList] = .ok none := by
  rw [compLoop_skip L q _ _ (by decide) he, compLoop_skip L q _ _ (by decide) hg,
    compLoop_skip L q _ _ (by decide) hl, compLoop]

/-- A bare token: a boolean literal when the text folds to `true` or `false`,
a variable otherwise. -/
theorem parseLeaf_bare (L : GoLib) (q : GoString)
    (he : findFrom " = ".toList q 0 = none) (hg : findFrom " > ".toList q 0 = none)
    (hl : findFrom " < ".toList q 0 = none) :
    parseLeaf L q = .ok (if EqualFold L q "true".toList then .LiteralExpression (.bool true)
      else if EqualFold L q "false".toList then .LiteralExpression (.bool false)
      else .VariableExpression q) := by
  unfold parseLeaf
  rw [compLoop_none L q he hg hl]
  simp only [bind, Except.bind, pure, Except.pure]
  split
  · rfl
  · split <;> rfl

theorem Parse_leaf (L : GoLib) (q : GoString) (ht : TrimSpace q = q) (hne : q ≠ [])
    (hp : parenStepApplies q = false)
    (hor : ∀ j, ¬ OccursAt " OR ".toList q j) (hand : ∀ j, ¬ OccursAt " AND ".toList q j)
    (hnot : HasPrefix q "NOT ".toList = false) : Parse L q = parseLeaf L q := by
  rw [Parse_operators L q ht hne hp, parseOperators_leaf L q (Parse L)
    ((findFrom_LeftMost ' ' "OR ".toList q (by decide) (by decide)).2.2 hor)
    ((findFrom_LeftMost ' ' "AND ".toList q (by decide) (by decide)).2.2 hand) hnot]

theorem Parse_bare (L : GoLib) (q : GoString) (ht : TrimSpace q = q) (hne : q ≠ [])
    (hp : parenStepApplies q = false)
    (hor : ∀ j, ¬ OccursAt " OR ".toList q j) (hand : ∀ j, ¬ OccursAt " AND ".toList q j)
    (hnot : HasPrefix q "NOT ".toList = false)
    (he : ∀ j, ¬ OccursAt " = ".toList q j) (hg : ∀ j, ¬ OccursAt " > ".toList q j)
    (hl : ∀ j, ¬ OccursAt " < ".toList q j) :
    Parse L q = .ok (if EqualFold L q "true".toList then .LiteralExpression (.bool true)
      else if EqualFold L q "false".toList then .LiteralExpression (.bool false)
      else .VariableExpression q) := by
  rw [Parse_leaf L q ht hne hp hor hand hnot]
  exact parseLeaf_bare L q
    ((findFrom_LeftMost ' ' "= ".toList q (by decide) (by decide)).2.2 he)
    ((findFrom_LeftMost ' ' "> ".toList q (by decide) (by decide)).2.2 hg)
    ((findFrom_LeftMost ' ' "< ".toList q (by decide) (by decide)).2.2 hl)

theorem Parse_greater (L : GoLib) (q : GoString) (i : Nat) (ht : TrimSpace q = q)
    (hne : q ≠ []) (hp : parenStepApplies q = false)
    (hor : ∀ j, ¬ OccursAt " OR ".toList q j) (hand : ∀ j, ¬ OccursAt " AND ".toList q j)
    (hnot : HasPrefix q "NOT ".toList = false)
    (he : ∀ j, ¬ OccursAt " = ".toList q j) (h : LeftMost " > ".toList q i) :
    Parse L q = (tryConvertValue L (TrimSpace (q.drop (i + 3))) >>= fun v =>
      pure (.GreaterThanExpression (TrimSpace (q.take i)) v)) := by
  rw [Parse_leaf L q ht hne hp hor hand hnot]
  unfold parseLeaf
  rw [compLoop_greater L q i
    ((findFrom_LeftMost ' ' "= ".toList q (by decide) (by decide)).2.2 he)
    (((findFrom_LeftMost ' ' "> ".toList q (by decide) (by decide)).1 i).2 h)]
  cases tryConvertValue L (TrimSpace (q.drop (i + 3))) with
  | error e => rfl
  | ok v => rfl

theorem Parse_less (L : GoLib) (q : GoString) (i : Nat) (ht : TrimSpace q = q)
    (hne : q ≠ []) (hp : parenStepApplies q = false)
    (hor : ∀ j, ¬ OccursAt " OR ".toList q j) (hand : ∀ j, ¬ OccursAt " AND ".toList q j)
    (hnot : HasPrefix q "NOT ".toList = false)
    (he : ∀ j, ¬ OccursAt " = ".toList q j) (hg : ∀ j, ¬ OccursAt " > ".toList q j)
    (h : LeftMost " < ".toList q i) :
    Parse L q = (tryConvertValue L (TrimSpace (q.drop (i + 3))) >>= fun v =>
      pure (.LessThanExpression (TrimSpace (q.take i)) v)) := by
  rw [Parse_leaf L q ht hne hp hor hand hnot]
  unfold parseLeaf
  rw [compLoop_less L q i
    ((findFrom_LeftMost ' ' "= ".toList q (by decide) (by decide)).2.2 he)
    ((findFrom_LeftMost ' ' "> ".toList q (by decide) (by decide)).2.2 hg)
    (((findFrom_LeftMost ' ' "< ".toList q (by decide) (by decide)).1 i).2 h)]
  cases tryConvertValue L (TrimSpace (q.drop (i + 3))) with
  | error e => rfl
  | ok v => rfl

/-- C31 (counterexample). The query `x(a = 1)y` is trimmed, the parenthesis,
OR, AND and NOT steps do not apply to it and it holds ` = ` at index 3, inside
the parentheses; `Parse` returns the variable named `x(a = 1)y`, not an
`Equals` node. -/
theorem Parse_comparison_inside_parens :
    TrimSpace "x(a = 1)y".toList = "x(a = 1)y".toList ∧
    parenStepApplies "x(a = 1)y".toList = false ∧
    findSplitIndex "x(a = 1)y".toList " OR ".toList = .ok (-1) ∧
    findSplitIndex "x(a = 1)y".toList " AND ".toList = .ok (-1) ∧
    HasPrefix "x(a = 1)y".toList "NOT ".toList = false ∧
    " = ".toList.isPrefixOf ("x(a = 1)y".toList.drop 3) = true ∧
    depthOf ("x(a = 1)y".toList.take 3) = 1 ∧
    Parse GoLib.plain "x(a = 1)y".toList = .ok (.VariableExpression "x(a = 1)y".toList) := by
  refine ⟨by rfl, by rfl, by rfl, by rfl, by rfl, by rfl, by rfl, by rfl⟩

/-- C31 (amended). A comparison operator is found at parenthesis depth 0 only.
For a trimmed, non-empty query to which the parenthesis, OR, AND and NOT steps
do not apply: with the left-most depth-0 ` = ` at `i`, `Parse` returns the
`Equals` node split there; with no depth-0 ` = ` and the left-most depth-0
` > ` at `i`, the `GreaterThan` node; with neither and the left-most depth-0
` < ` at `i`, the `LessThan` node (the target is what `tryConvertValue`
returns, and `Parse` panics when that call does); with no depth-0 comparison
operator it returns a literal or a variable, also when an operator stands
inside parentheses, as in `x(a = 1)y`. -/
theorem Parse_comparison_depth0 (L : GoLib) (q : GoString) (i : Nat) (ht : TrimSpace q = q)
    (hne : q ≠ []) (hp : parenStepApplies q = false)
    (hor : ∀ j, ¬ OccursAt " OR ".toList q j) (hand : ∀ j, ¬ OccursAt " AND ".toList q j)
    (hnot : HasPrefix q "NOT ".toList = false) :
    (LeftMost " = ".toList q i →
      Parse L q = (tryConvertValue L (TrimSpace (q.drop (i + 3))) >>= fun v =>
        pure (.EqualsExpression (TrimSpace (q.take i)) v))) ∧
    ((∀ j, ¬ OccursAt " = ".toList q j) → LeftMost " > ".toList q i →
      Parse L q = (tryConvertValue L (TrimSpace (q.drop (i + 3))) >>= fun v =>
        pure (.GreaterThanExpression (TrimSpace (q.take i)) v))) ∧
    ((∀ j, ¬ OccursAt " = ".toList q j) → (∀ j, ¬ OccursAt " > ".toList q j) →
      LeftMost " < ".toList q i →
      Parse L q = (tryConvertValue L (TrimSpace (q.drop (i + 3))) >>= fun v =>
        pure (.LessThanExpression (TrimSpace (q.take i)) v))) ∧
    ((∀ j, ¬ OccursAt " = ".toList q j) → (∀ j, ¬ OccursAt " > ".toList q j) →
      (∀ j, ¬ OccursAt " < ".toList q j) →
      Parse L q = .ok (if EqualFold L q "true".toList then .LiteralExpression (.bool true)
        else if EqualFold L q "false".toList then .LiteralExpression (.bool false)
        else .VariableExpression q)) ∧
    Parse L "x(a = 1)y".toList = .ok (.VariableExpression "x(a = 1)y".toList) :=
  ⟨Parse_equals L q i ht hp hor hand hnot,
    Parse_greater L q i ht hne hp hor hand hnot,
    Parse_less L q i ht hne hp hor hand hnot,
    Parse_bare L q ht hne hp hor hand hnot, by rfl⟩

theorem Parse_comparison_depth0_witness :
    LeftMost " > ".toList "(a) > 1".toList 3 ∧
    Parse GoLib.plain "(a) > 1".toList =
      .ok (.GreaterThanExpression "(a)".toList (.int 1)) :=
  have hq : ∀ (c : Char) (tl : GoString), c ≠ '(' → c ≠ ')' →
      findFrom (c :: tl) "(a) > 1".toList 0 = none → ∀ j, ¬ OccursAt (c :: tl) "(a) > 1".toList j :=
    fun c tl h1 h2 h => (findFrom_LeftMost c tl _ h1 h2).2.1 h
  have h : LeftMost " > ".toList "(a) > 1".toList 3 :=
    ((findFrom_LeftMost ' ' "> ".toList "(a) > 1".toList (by decide) (by decide)).1 3).1 rfl
  ⟨h, ((Parse_comparison_depth0 GoLib.plain "(a) > 1".toList 3 rfl (by decide) rfl
    (hq ' ' "OR ".toList (by decide) (by decide) rfl)
    (hq ' ' "AND ".toList (by decide) (by decide) rfl) rfl).2.1
    (hq ' ' "= ".toList (by decide) (by decide) rfl) h).trans rfl⟩

/-- C32. For a trimmed, non-empty query to which none of the parenthesis, OR,
AND, NOT and comparison steps applies, `Parse` returns `Literal(true)` when the
query equals `true` under `strings.EqualFold`, `Literal(false)` when it equals
`false` under `strings.EqualFold`, and the variable named by the query
otherwise. The keywords are matched with their case: `a and b` and `not x` are
each one variable whose name is the whole text. -/
theorem Parse_bare_token (L : GoLib) (q : GoString) (ht : TrimSpace q = q) (hne : q ≠ [])
    (hp : parenStepApplies q = false)
    (hor : ∀ j, ¬ OccursAt " OR ".toList q j) (hand : ∀ j, ¬ OccursAt " AND ".toList q j)
    (hnot : HasPrefix q "NOT ".toList = false)
    (he : ∀ j, ¬ OccursAt " = ".toList q j) (hg : ∀ j, ¬ OccursAt " > ".toList q j)
    (hl : ∀ j, ¬ OccursAt " < ".toList q j) :
    (EqualFold L q "true".toList = true → Parse L q = .ok (.LiteralExpression (.bool true))) ∧
    (EqualFold L q "false".toList = true → Parse L q = .ok (.LiteralExpression (.bool false))) ∧
    (EqualFold L q "true".toList = false → EqualFold L q "false".toList = false →
      Parse L q = .ok (.VariableExpression q)) ∧
    Parse L "a and b".toList = .ok (.VariableExpression "a and b".toList) ∧
    Parse L "not x".toList = .ok (.VariableExpression "not x".toList) := by
  have h := Parse_bare L q ht hne hp hor hand hnot he hg hl
  refine ⟨fun h1 => ?_, fun h2 => ?_, fun h1 h2 => ?_, by rfl, by rfl⟩
  · rw [h, if_pos h1]
  · have h1 : EqualFold L q "true".toList = false := by
      cases h1 : EqualFold L q "true".toList with
      | false => rfl
      | true =>
        have l1 := EqualFold_length L _ _ h1
        have l2 := EqualFold_length L _ _ h2
        rw [l1] at l2
        revert l2; decide
    rw [h, h1, h2]
    rfl
  · rw [h, h1, h2]
    rfl

theorem Parse_bare_token_witness :
    EqualFold GoLib.plain "TRUE".toList "true".toList = true ∧
    Parse GoLib.plain "TRUE".toList = .ok (.LiteralExpression (.bool true)) :=
  have hq : ∀ (c : Char) (tl : GoString), c ≠ '(' → c ≠ ')' →
      findFrom (c :: tl) "TRUE".toList 0 = none → ∀ j, ¬ OccursAt (c :: tl) "TRUE".toList j :=
    fun c tl h1 h2 h => (findFrom_LeftMost c tl _ h1 h2).2.1 h
  ⟨rfl, (Parse_bare_token GoLib.plain "TRUE".toList rfl (by decide) rfl
    (hq ' ' "OR ".toList (by decide) (by decide) rfl)
    (hq ' ' "AND ".toList (by decide) (by decide) rfl) rfl
    (hq ' ' "= ".toList (by decide) (by decide) rfl)
    (hq ' ' "> ".toList (by decide) (by decide) rfl)
    (hq ' ' "< ".toList (by decide) (by decide) rfl)).1 rfl⟩

/-! ### Equality fallback, numeric kinds and trichotomy -/

theorem foldRune_refl (L : GoLib) (a : Char) : foldRune L a a = true := by
  unfold foldRune
  rw [if_pos rfl]

theorem EqualFold_refl (L : GoLib) : ∀ s : GoString, EqualFold L s s = true := by
  intro s
  induction s with
  | nil => rfl
  | cons a s ih => simp only [EqualFold, foldRune_refl, ih, Bool.and_self]

theorem Itoa_ascii (n : Int) : ∀ c ∈ Itoa n, c.toNat = 45 ∨ (48 ≤ c.toNat ∧ c.toNat ≤ 57) := by
  obtain ⟨_, hdig, _⟩ := natDigits_spec n.natAbs
  intro c hc
  unfold Itoa at hc
  split at hc
  · rcases List.mem_cons.mp hc with hc | hc
    · left; subst hc; rfl
    · right; exact hdig c hc
  · right; exact hdig c hc

theorem EqualFold_Itoa_iff (L : GoLib) (n : Int) (s : GoString) :
    EqualFold L s (Itoa n) = true ↔ s = Itoa n := by
  constructor
  · intro h
    rw [EqualFold_comm L s (Itoa n) (fun c hc => by
      rcases Itoa_ascii n c hc with h1 | h1 <;> omega)] at h
    exact EqualFold_Itoa L n s h
  · intro h
    rw [h]
    exact EqualFold_refl L _

theorem equalsValue_str (L : GoLib) (s : GoString) (target : Value L)
    (ht : ∀ t, target ≠ .str t) :
    equalsValue L (.str s) target = EqualFold L s (toString L target) := by
  cases target with
  | str t => exact absurd rfl (ht t)
  | nil => rfl
  | bool b => rfl
  | int n => rfl
  | float f => rfl
  | other o => rfl

/-- C34. With the field bound to a String `s` and a target that is not a
String, `EqualsExpression` evaluates to `strings.EqualFold` of `s` and the
text `toString` gives for the target: for an Integer target `n` it is true
exactly when `s` is the decimal text of `n`, and for a Boolean target `b`
exactly when `s` equals the text of `b` under `strings.EqualFold`; so `30`
matches Integer 30 and `TRUE` matches Boolean true. -/
theorem Equals_fallback (L : GoLib) (ctx : Context L) (name s : GoString)
    (hctx : ctx.lookup name = some (.str s)) :
    (∀ target : Value L, (∀ t, target ≠ .str t) →
      Interpret L (.EqualsExpression name target) ctx = EqualFold L s (toString L target)) ∧
    (∀ n : Int, Interpret L (.EqualsExpression name (.int n)) ctx = true ↔ s = Itoa n) ∧
    (∀ b : Bool, Interpret L (.EqualsExpression name (.bool b)) ctx = true ↔
      EqualFold L s (if b then "true".toList else "false".toList) = true) ∧
    Itoa 30 = "30".toList ∧
    Interpret L (.EqualsExpression "age".toList (.int 30)) [("age".toList, .str "30".toList)] =
      true ∧
    Interpret L (.EqualsExpression "age".toList (.int 30)) [("age".toList, .str "31".toList)] =
      false ∧
    Interpret L (.EqualsExpression "on".toList (.bool true)) [("on".toList, .str "TRUE".toList)] =
      true ∧
    Interpret L (.EqualsExpression "on".toList (.bool true)) [("on".toList, .str "yes".toList)] =
      false := by
  have h : ∀ target : Value L, (∀ t, target ≠ .str t) →
      Interpret L (.EqualsExpression name target) ctx = EqualFold L s (toString L target) := by
    intro target ht
    simp only [Interpret, hctx]
    exact equalsValue_str L s target ht
  refine ⟨h, ?_, ?_, by rfl, by rfl, by rfl, by rfl, by rfl⟩
  · intro n
    rw [h (.int n) (fun t e => by cases e)]
    exact EqualFold_Itoa_iff L n s
  · intro b
    rw [h (.bool b) (fun t e => by cases e)]
    rfl

theorem Equals_fallback_witness :
    ([("age".toList, Value.str "30".toList)] : Context GoLib.plain).lookup "age".toList =
      some (.str "30".toList) ∧
    (Interpret GoLib.plain (.EqualsExpression "age".toList (.int 30))
      [("age".toList, .str "30".toList)] = true ↔ "30".toList = Itoa 30) :=
  ⟨rfl, (Equals_fallback GoLib.plain [("age".toList, .str "30".toList)] "age".toList
    "30".toList rfl).2.1 30⟩

/-- C35. Quotes protect neither operators nor parentheses. For every library,
`name = "a OR b"` parses to `Or(Equals(name, String "a), Variable b")`, each
half keeping its quote character, and is false on the record whose `name` is
`a OR b`, on which `Equals(name, String(a OR b))` is true; likewise
`name = "a AND b"` splits at ` AND `; and in `a = "(" OR b = c` the quoted
parenthesis opens a group, so the ` OR ` is not at depth 0 and the whole rest
is the String target of one `Equals`. -/
theorem Parse_quotes_do_not_protect (L : GoLib) :
    Parse L ("name = ".toList ++ Char.ofNat 34 :: "a OR b".toList ++ [Char.ofNat 34]) =
      .ok (.OrExpression (.EqualsExpression "name".toList (.str (Char.ofNat 34 :: "a".toList)))
        (.VariableExpression ("b".toList ++ [Char.ofNat 34]))) ∧
    Interpret L (.OrExpression
        (.EqualsExpression "name".toList (.str (Char.ofNat 34 :: "a".toList)))
        (.VariableExpression ("b".toList ++ [Char.ofNat 34])))
      [("name".toList, .str "a OR b".toList)] = false ∧
    Interpret L (.EqualsExpression "name".toList (.str "a OR b".toList))
      [("name".toList, .str "a OR b".toList)] = true ∧
    Parse L ("name = ".toList ++ Char.ofNat 34 :: "a AND b".toList ++ [Char.ofNat 34]) =
      .ok (.AndExpression (.EqualsExpression "name".toList (.str (Char.ofNat 34 :: "a".toList)))
        (.VariableExpression ("b".toList ++ [Char.ofNat 34]))) ∧
    Parse L ("a = ".toList ++ Char.ofNat 34 :: '(' :: Char.ofNat 34 :: " OR b = c".toList) =
      .ok (.EqualsExpression "a".toList
        (.str (Char.ofNat 34 :: '(' :: Char.ofNat 34 :: " OR b = c".toList))) :=
  ⟨by rfl, by rfl, by rfl, by rfl, by rfl⟩

theorem tryConvertValue_25_5 (L : GoLib) :
    tryConvertValue L "25.5".toList =
      match L.parseFloat "25.5".toList with
      | some f => .ok (.float f)
      | none => .ok (.str "25.5".toList) := by
  rfl

theorem evalQuery_age (L : GoLib) (c : Context L) (m : Int)
    (h : c.lookup "age".toList = some (.int m)) :
    evalQuery L "age > 25.5".toList c = .ok false := by
  have hq : ∀ (a : Char) (tl : GoString), a ≠ '(' → a ≠ ')' →
      findFrom (a :: tl) "age > 25.5".toList 0 = none →
      ∀ j, ¬ OccursAt (a :: tl) "age > 25.5".toList j :=
    fun a tl h1 h2 h => (findFrom_LeftMost a tl _ h1 h2).2.1 h
  have hp := Parse_greater L "age > 25.5".toList 3 rfl (by decide) rfl
    (hq ' ' "OR ".toList (by decide) (by decide) rfl)
    (hq ' ' "AND ".toList (by decide) (by decide) rfl) rfl
    (hq ' ' "= ".toList (by decide) (by decide) rfl)
    (((findFrom_LeftMost ' ' "> ".toList _ (by decide) (by decide)).1 3).1 rfl)
  have e1 : TrimSpace (List.drop (3 + 3) "age > 25.5".toList) = "25.5".toList := rfl
  have e2 : TrimSpace (List.take 3 "age > 25.5".toList) = "age".toList := rfl
  unfold evalQuery
  rw [hp, e1, e2, tryConvertValue_25_5]
  cases L.parseFloat "25.5".toList with
  | none =>
    show Except.ok (Interpret L (.GreaterThanExpression "age".toList (.str "25.5".toList)) c) = _
    simp only [Interpret, h, greaterValue]
    rfl
  | some f =>
    show Except.ok (Interpret L (.GreaterThanExpression "age".toList (.float f)) c) = _
    simp only [Interpret, h, greaterValue]

theorem evalQuery_price (L : GoLib) (c : Context L) (g : L.Float64)
    (h : c.lookup "price".toList = some (.float g)) :
    evalQuery L "price < 10".toList c = .ok false := by
  have hp : Parse L "price < 10".toList =
      .ok (.LessThanExpression "price".toList (.int 10)) := rfl
  unfold evalQuery
  rw [hp]
  show Except.ok (Interpret L (.LessThanExpression "price".toList (.int 10)) c) = _
  simp only [Interpret, h, lessValue]

/-- C36. `GreaterThanExpression` and `LessThanExpression` are false when the
field holds an Integer and the target is a Float, and when the field holds a
Float and the target is an Integer. For every library, the query `age > 25.5`
is false on every record whose `age` is an Integer and `price < 10` is false
on every record whose `price` is a Float, so `Filter` keeps no such record. -/
theorem Ordering_never_crosses_kinds (L : GoLib) (n : Int) (f : L.Float64) :
    (∀ (ctx : Context L) (name : GoString), ctx.lookup name = some (.int n) →
      Interpret L (.GreaterThanExpression name (.float f)) ctx = false ∧
      Interpret L (.LessThanExpression name (.float f)) ctx = false) ∧
    (∀ (ctx : Context L) (name : GoString), ctx.lookup name = some (.float f) →
      Interpret L (.GreaterThanExpression name (.int n)) ctx = false ∧
      Interpret L (.LessThanExpression name (.int n)) ctx = false) ∧
    (∀ c : Context L, c.lookup "age".toList = some (.int n) →
      evalQuery L "age > 25.5".toList c = .ok false) ∧
    (∀ c : Context L, c.lookup "price".toList = some (.float f) →
      evalQuery L "price < 10".toList c = .ok false) ∧
    (∀ data : List (Context L), ∃ e, Parse L "age > 25.5".toList = .ok e ∧
      Filter L data "age > 25.5".toList = .ok (.mk (data.filter (fun r => Interpret L e r))) ∧
      ∀ r ∈ data.filter (fun r => Interpret L e r), ∀ k, r.lookup "age".toList ≠ some (.int k)) ∧
    (∀ data : List (Context L), ∃ e, Parse L "price < 10".toList = .ok e ∧
      Filter L data "price < 10".toList = .ok (.mk (data.filter (fun r => Interpret L e r))) ∧
      ∀ r ∈ data.filter (fun r => Interpret L e r), ∀ g,
        r.lookup "price".toList ≠ some (.float g)) := by
  refine ⟨?_, ?_, fun c h => evalQuery_age L c n h, fun c h => evalQuery_price L c f h, ?_, ?_⟩
  · intro ctx name h
    simp only [Interpret, h, greaterValue, lessValue, and_self]
  · intro ctx name h
    simp only [Interpret, h, greaterValue, lessValue, and_self]
  · intro data
    cases hp : Parse L "age > 25.5".toList with
    | error e =>
      have := evalQuery_age L [("age".toList, .int 0)] 0 rfl
      unfold evalQuery at this
      rw [hp] at this
      cases this
    | ok e =>
      refine ⟨e, rfl, Filter_of_Parse L data _ e hp, ?_⟩
      intro r hr k hk
      have h1 := (List.mem_filter.mp hr).2
      have h2 := evalQuery_age L r k hk
      unfold evalQuery at h2
      rw [hp] at h2
      injection h2 with h2
      rw [h2] at h1
      cases h1
  · intro data
    refine ⟨.LessThanExpression "price".toList (.int 10), rfl,
      Filter_of_Parse L data _ _ rfl, ?_⟩
    intro r hr g hg
    have h1 := (List.mem_filter.mp hr).2
    simp only [Interpret, hg, lessValue] at h1
    cases h1

/-- C37. With the field bound to an Integer `n` and an Integer target `m`,
exactly one of `EqualsExpression`, `GreaterThanExpression` and
`LessThanExpression` evaluates to true: the first when `n = m`, the second
when `n > m`, the third when `n < m`. -/
theorem Integer_trichotomy (L : GoLib) (ctx : Context L) (name : GoString) (n m : Int)
    (hctx : ctx.lookup name = some (.int n)) :
    ((Interpret L (.EqualsExpression name (.int m)) ctx = true ∧
        Interpret L (.GreaterThanExpression name (.int m)) ctx = false ∧
        Interpret L (.LessThanExpression name (.int m)) ctx = false) ∨
      (Interpret L (.EqualsExpression name (.int m)) ctx = false ∧
        Interpret L (.GreaterThanExpression name (.int m)) ctx = true ∧
        Interpret L (.LessThanExpression name (.int m)) ctx = false) ∨
      (Interpret L (.EqualsExpression name (.int m)) ctx = false ∧
        Interpret L (.GreaterThanExpression name (.int m)) ctx = false ∧
        Interpret L (.LessThanExpression name (.int m)) ctx = true)) ∧
    (Interpret L (.EqualsExpression name (.int m)) ctx = true ↔ n = m) ∧
    (Interpret L (.GreaterThanExpression name (.int m)) ctx = true ↔ n > m) ∧
    (Interpret L (.LessThanExpression name (.int m)) ctx = true ↔ n < m) := by
  simp only [Interpret, hctx, equalsValue, greaterValue, lessValue, beq_iff_eq,
    decide_eq_true_eq, beq_eq_false_iff_ne, decide_eq_false_iff_not, iff_self, and_true]
  rcases lt_trichotomy n m with h | h | h
  · right; right; exact ⟨by omega, by omega, h⟩
  · left; exact ⟨h, by omega, by omega⟩
  · right; left; exact ⟨by omega, h, by omega⟩

theorem Integer_trichotomy_witness :
    ([("age".toList, Value.int 34)] : Context GoLib.plain).lookup "age".toList = some (.int 34) ∧
    (Interpret GoLib.plain (.EqualsExpression "age".toList (.int 30))
      [("age".toList, .int 34)] = true ↔ (34 : Int) = 30) ∧
    (Interpret GoLib.plain (.GreaterThanExpression "age".toList (.int 30))
      [("age".toList, .int 34)] = true ↔ (34 : Int) > 30) :=
  ⟨rfl, (Integer_trichotomy GoLib.plain [("age".toList, .int 34)] "age".toList 34 30 rfl).2.1,
    (Integer_trichotomy GoLib.plain [("age".toList, .int 34)] "age".toList 34 30 rfl).2.2.1⟩

/-- C38. For every Float `f`, `LiteralExpression(f)` evaluates to true, and so
does `VariableExpression(name)` on every context binding the name to `f`.
Among the Boolean, String, Integer and Float values exactly Boolean false, the
empty String and Integer 0 are falsy; the only other falsy value of the code
is the untyped nil, which is no value of the query language. -/
theorem Float_truthy (L : GoLib) (f : L.Float64) :
    (∀ ctx : Context L, Interpret L (.LiteralExpression (.float f)) ctx = true) ∧
    (∀ (ctx : Context L) (name : GoString), ctx.lookup name = some (.float f) →
      Interpret L (.VariableExpression name) ctx = true) ∧
    (∀ v : Value L, truthy L v = false ↔
      (v = .bool false ∨ v = .str [] ∨ v = .int 0 ∨ v = .nil)) := by
  refine ⟨fun _ => rfl, ?_, ?_⟩
  · intro ctx name h
    simp only [Interpret, h, truthy]
  · intro v
    cases v with
    | nil => simp [truthy]
    | bool b => cases b <;> simp [truthy]
    | str s => cases s <;> simp [truthy]
    | int n => simp [truthy]
    | float g => simp [truthy]
    | other o => simp [truthy]

end QueryLanguage

/-! ## Theorems on the document editor -/

namespace DocumentEditor

theorem indexAt_last {α : Type} (l : List α) (m : α) :
    indexAt (l ++ [m]) (((l ++ [m]).length : Int) - 1) = some m := by
  unfold indexAt
  rw [if_pos (by simp)]
  have : (((l ++ [m]).length : Int) - 1).toNat = l.length := by simp
  rw [this, List.get?_eq_getElem?, List.getElem?_append_right (le_refl _)]
  simp

theorem sliceTo_last {α : Type} (l : List α) (m : α) :
    sliceTo (l ++ [m]) (((l ++ [m]).length : Int) - 1) = some l := by
  unfold sliceTo
  rw [if_pos (by simp)]
  have : (((l ++ [m]).length : Int) - 1).toNat = l.length := by simp
  rw [this]
  simp

theorem Undo_snoc (hist redo : List Memento) (doc : String) (p m : Memento) :
    Undo ⟨hist ++ [p] ++ [m], redo, doc⟩ = some ⟨hist ++ [p], redo ++ [m], p.state⟩ := by
  unfold Undo
  rw [if_neg (by simp; omega)]
  simp only []
  rw [indexAt_last, sliceTo_last]
  simp only [Option.bind]
  rw [indexAt_last]

theorem Redo_snoc (hist redo : List Memento) (doc : String) (m : Memento) :
    Redo ⟨hist, redo ++ [m], doc⟩ = some ⟨hist ++ [m], redo, m.state⟩ := by
  unfold Redo
  rw [if_neg (by simp; omega)]
  simp only []
  rw [indexAt_last, sliceTo_last]
  rfl

theorem two_snoc {α : Type} (l : List α) (h : 2 ≤ l.length) :
    ∃ init p m, l = init ++ [p] ++ [m] := by
  have h1 : l ≠ [] := by intro e; subst e; simp at h
  obtain ⟨l1, m, e1⟩ : ∃ l1 m, l = l1 ++ [m] :=
    ⟨l.dropLast, l.getLast h1, (List.dropLast_append_getLast h1).symm⟩
  subst e1
  have h2 : l1 ≠ [] := by intro e; subst e; simp at h
  exact ⟨l1.dropLast, l1.getLast h2, m, by rw [List.dropLast_append_getLast h2]⟩

/-- C21. For a history holding at least two saved states, `Undo` followed by
`Redo` returns, leaves the undo history and the redo stack as they were and
sets the document to the state of the last memento of the history; `Redo` on an
empty redo stack and `Undo` on a history of at most one entry change nothing. -/
theorem Undo_then_Redo (h : History) (hlen : 2 ≤ h.history.length) :
    (∃ h1 h2 m, Undo h = some h1 ∧ Redo h1 = some h2 ∧
      h2.history = h.history ∧ h2.redoStack = h.redoStack ∧
      h.history.getLast? = some m ∧ h2.document = m.state) ∧
    (∀ g : History, g.redoStack = [] → Redo g = some g) ∧
    (∀ g : History, g.history.length ≤ 1 → Undo g = some g) := by
  refine ⟨?_, ?_, ?_⟩
  · obtain ⟨hist, redo, doc⟩ := h
    obtain ⟨init, p, m, e⟩ := two_snoc hist hlen
    subst e
    exact ⟨_, _, m, Undo_snoc init redo doc p m, Redo_snoc _ redo _ m, rfl, rfl, by simp, rfl⟩
  · intro g hg
    unfold Redo
    rw [if_pos (by simp [hg])]
  · intro g hg
    unfold Undo
    rw [if_pos (by omega)]

theorem Undo_then_Redo_witness :
    2 ≤ (History.mk [⟨"", 0⟩, ⟨"Hello", 1⟩, ⟨"Hello World", 2⟩] [] "Hello World!").history.length ∧
    (∃ h1 h2 m, Undo ⟨[⟨"", 0⟩, ⟨"Hello", 1⟩, ⟨"Hello World", 2⟩], [], "Hello World!"⟩ = some h1 ∧
      Redo h1 = some h2 ∧
      h2.history = [⟨"", 0⟩, ⟨"Hello", 1⟩, ⟨"Hello World", 2⟩] ∧ h2.redoStack = [] ∧
      ([⟨"", 0⟩, ⟨"Hello", 1⟩, ⟨"Hello World", 2⟩] : List Memento).getLast? = some m ∧
      h2.document = m.state) :=
  ⟨by decide,
    (Undo_then_Redo ⟨[⟨"", 0⟩, ⟨"Hello", 1⟩, ⟨"Hello World", 2⟩], [], "Hello World!"⟩
      (by decide)).1⟩

end DocumentEditor

/-! ## Theorems on the order state machine -/

namespace OrderProcessing

/-- C22. An order in `DeliveredState` or `CancelledState` is left unchanged,
state and items, by `AddItem`, `ProcessPayment`, `Ship`, `Deliver` and `Cancel`;
and `Cancel` on an order in `ShippedState` leaves it in `ShippedState`. -/
theorem Terminal_states (o : Order) (item : String)
    (h : o.state = .DeliveredState ∨ o.state = .CancelledState) :
    (AddItem o item = o ∧ ProcessPayment o = o ∧ Ship o = o ∧ Deliver o = o ∧ Cancel o = o) ∧
    (∀ s : Order, s.state = .ShippedState →
      (Cancel s).state = .ShippedState ∧ (Cancel s).items = s.items) := by
  constructor
  · rcases h with h | h <;> simp [AddItem, ProcessPayment, Ship, Deliver, Cancel, h]
  · intro s hs
    simp [Cancel, hs]

theorem Terminal_states_witness :
    ((Deliver (Ship (ProcessPayment (AddItem (NewOrder "T") "Eraser")))).state = .DeliveredState ∨
      (Deliver (Ship (ProcessPayment (AddItem (NewOrder "T") "Eraser")))).state =
        .CancelledState) ∧
    AddItem (Deliver (Ship (ProcessPayment (AddItem (NewOrder "T") "Eraser")))) "Ruler" =
      Deliver (Ship (ProcessPayment (AddItem (NewOrder "T") "Eraser"))) ∧
    Cancel (Deliver (Ship (ProcessPayment (AddItem (NewOrder "T") "Eraser")))) =
      Deliver (Ship (ProcessPayment (AddItem (NewOrder "T") "Eraser"))) :=
  ⟨Or.inl rfl,
    (Terminal_states (Deliver (Ship (ProcessPayment (AddItem (NewOrder "T") "Eraser")))) "Ruler"
      (Or.inl rfl)).1.1,
    (Terminal_states (Deliver (Ship (ProcessPayment (AddItem (NewOrder "T") "Eraser")))) "Ruler"
      (Or.inl rfl)).1.2.2.2.2⟩

/-! ### The invariant of the reachable orders -/

theorem perform_PaidHasItems (o : Order) (c : Call) (h : PaidHasItems o) :
    PaidHasItems (perform o c) := by
  obtain ⟨items, state, id⟩ := o
  unfold PaidHasItems at h ⊢
  cases c <;> cases state <;>
    simp [perform, AddItem, ProcessPayment, Ship, Deliver, Cancel, setState] at h ⊢ <;>
    first
    | exact h
    | (split <;> simp_all)

theorem performAll_PaidHasItems (calls : List Call) :
    ∀ o : Order, PaidHasItems o → PaidHasItems (performAll o calls) := by
  induction calls with
  | nil => intro o h; exact h
  | cons c cs ih =>
    intro o h
    exact ih (perform o c) (perform_PaidHasItems o c h)

theorem perform_items (o : Order) (c : Call) (h : (perform o c).items ≠ o.items) :
    o.state = .NewOrderState ∧ ∃ item, c = .AddItem item := by
  obtain ⟨items, state, id⟩ := o
  cases c <;> cases state <;>
    simp [perform, AddItem, ProcessPayment, Ship, Deliver, Cancel, setState] at h ⊢
  all_goals (split at h <;> simp at h)

/-- C39. After any sequence of `AddItem`, `ProcessPayment`, `Ship`, `Deliver`
and `Cancel` calls on a new order, an order in `PendingPaymentState`,
`ShippedState` or `DeliveredState` holds at least one item; and a further call
changes the item list only when the order is in `NewOrderState` (and the call
is `AddItem`). -/
theorem Order_invariant (orderID : String) (calls : List Call) :
    ((performAll (NewOrder orderID) calls).state = .PendingPaymentState ∨
      (performAll (NewOrder orderID) calls).state = .ShippedState ∨
      (performAll (NewOrder orderID) calls).state = .DeliveredState →
        (performAll (NewOrder orderID) calls).items ≠ []) ∧
    (∀ c : Call,
      (perform (performAll (NewOrder orderID) calls) c).items ≠
          (performAll (NewOrder orderID) calls).items →
        (performAll (NewOrder orderID) calls).state = .NewOrderState ∧
          ∃ item, c = .AddItem item) :=
  ⟨performAll_PaidHasItems calls (NewOrder orderID) (by
      intro h
      rcases h with h | h | h <;> cases h),
    fun c h => perform_items _ c h⟩

end OrderProcessing

/-! ## Theorems on the file system composite -/

namespace FileSystem

theorem wrapInt_idem (x : Int) : wrapInt (wrapInt x) = wrapInt x := by
  unfold wrapInt; omega

theorem wrapInt_of_range (x : Int) (h : -(2 : Int) ^ 63 ≤ x ∧ x < (2 : Int) ^ 63) :
    wrapInt x = x := by
  unfold wrapInt; omega

theorem wrapInt_step (t g l r : Int) (h : wrapInt g = wrapInt l) :
    wrapInt (wrapInt (t + g) + r) = wrapInt (t + (l + r)) := by
  unfold wrapInt at *; omega

theorem sizeLoop_range : ∀ (cs : List Component) (t : Int), wrapInt t = t →
    wrapInt (sizeLoop cs t) = sizeLoop cs t
  | [], t, h => by rw [sizeLoop]; exact h
  | c :: rest, t, _ => by
    rw [sizeLoop]
    exact sizeLoop_range rest _ (wrapInt_idem _)

mutual
theorem GetSize_congr : ∀ c : Component, wrapInt (GetSize c) = wrapInt (leafSum c)
  | .file _ _ _ => by rw [GetSize, leafSum]
  | .dir _ _ cs => by
    rw [GetSize, leafSum]
    have := sizeLoop_congr cs 0
    simpa using this
theorem sizeLoop_congr : ∀ (cs : List Component) (t : Int),
    wrapInt (sizeLoop cs t) = wrapInt (t + leafSumList cs)
  | [], t => by rw [sizeLoop, leafSumList]; simp
  | c :: rest, t => by
    rw [sizeLoop, sizeLoop_congr rest, leafSumList]
    exact wrapInt_step t _ _ _ (GetSize_congr c)
end

theorem GetSize_dir (p : Nat) (n : String) (cs : List Component) :
    GetSize (.dir p n cs) = wrapInt (leafSum (.dir p n cs)) := by
  have h1 := GetSize_congr (.dir p n cs)
  have h2 : wrapInt (GetSize (.dir p n cs)) = GetSize (.dir p n cs) := by
    rw [GetSize]
    exact sizeLoop_range cs 0 (by unfold wrapInt; omega)
  rw [← h2, h1]

theorem removeLoop_spec (c : Component) : ∀ (rest before : List Component),
    ((removeLoop c before rest).2 = true ↔ ∃ x ∈ rest, sameComponent x c = true) ∧
    ((removeLoop c before rest).2 = true →
      ∃ pre x post, rest = pre ++ x :: post ∧ sameComponent x c = true ∧
        (∀ y ∈ pre, sameComponent y c = false) ∧
        (removeLoop c before rest).1 = before ++ (pre ++ post)) ∧
    ((removeLoop c before rest).2 = false → (removeLoop c before rest).1 = before ++ rest) := by
  intro rest
  induction rest with
  | nil => intro before; simp [removeLoop]
  | cons x rest ih =>
    intro before
    rw [removeLoop]
    by_cases hx : sameComponent x c = true
    · rw [if_pos hx]
      refine ⟨⟨fun _ => ⟨x, List.mem_cons_self _ _, hx⟩, fun _ => rfl⟩, ?_, ?_⟩
      · intro _
        exact ⟨[], x, rest, rfl, hx, by simp, by simp⟩
      · intro h; cases h
    · rw [if_neg hx]
      obtain ⟨i1, i2, i3⟩ := ih (before ++ [x])
      refine ⟨?_, ?_, ?_⟩
      · rw [i1]
        constructor
        · rintro ⟨y, hy, hs⟩; exact ⟨y, List.mem_cons_of_mem _ hy, hs⟩
        · rintro ⟨y, hy, hs⟩
          rcases List.mem_cons.mp hy with e | e
          · subst e; exact absurd hs hx
          · exact ⟨y, e, hs⟩
      · intro h
        obtain ⟨pre, y, post, e1, e2, e3, e4⟩ := i2 h
        refine ⟨x :: pre, y, post, by rw [e1]; rfl, e2, ?_, by rw [e4]; simp⟩
        intro z hz
        rcases List.mem_cons.mp hz with e | e
        · subst e; simpa using hx
        · exact e3 z e
      · intro h
        rw [i3 h]; simp

/-- C23 (counterexample). A directory holding two files of `2^62` bytes each
reports the size `-2^63`, while the sum of the sizes of its files is `2^63`. -/
theorem GetSize_wraps :
    GetSize (.dir 0 "big" [.file 1 "a" (2 ^ 62), .file 2 "b" (2 ^ 62)]) = -(2 ^ 63) ∧
    leafSum (.dir 0 "big" [.file 1 "a" (2 ^ 62), .file 2 "b" (2 ^ 62)]) = 2 ^ 63 := by
  constructor
  · simp [GetSize, sizeLoop, wrapInt]
  · simp [leafSum, leafSumList]

/-- C23 (amended). For every directory tree, `Directory.GetSize` is the sum of
the sizes of the files of its subtree reduced to the 64-bit `int`, hence the
exact sum whenever that lies in the range of `int`, and 0 for an empty
directory; `Directory.Remove` returns true exactly when a child is the
component, and then removes the first such child and keeps the others in
order, and otherwise leaves the children as they are. -/
theorem Directory_GetSize_Remove (p : Nat) (n : String) (cs : List Component) (c : Component) :
    GetSize (.dir p n cs) = wrapInt (leafSum (.dir p n cs)) ∧
    (-(2 : Int) ^ 63 ≤ leafSum (.dir p n cs) ∧ leafSum (.dir p n cs) < (2 : Int) ^ 63 →
      GetSize (.dir p n cs) = leafSum (.dir p n cs)) ∧
    GetSize (.dir p n []) = 0 ∧
    ((Remove cs c).2 = true ↔ ∃ x ∈ cs, sameComponent x c = true) ∧
    ((Remove cs c).2 = true →
      ∃ pre x post, cs = pre ++ x :: post ∧ sameComponent x c = true ∧
        (∀ y ∈ pre, sameComponent y c = false) ∧ (Remove cs c).1 = pre ++ post) ∧
    ((Remove cs c).2 = false → (Remove cs c).1 = cs) := by
  obtain ⟨r1, r2, r3⟩ := removeLoop_spec c cs []
  refine ⟨GetSize_dir p n cs, ?_, ?_, r1, ?_, ?_⟩
  · intro h
    rw [GetSize_dir, wrapInt_of_range _ h]
  · rw [GetSize, sizeLoop]
  · intro h
    obtain ⟨pre, x, post, e1, e2, e3, e4⟩ := r2 h
    exact ⟨pre, x, post, e1, e2, e3, by simpa [Remove] using e4⟩
  · intro h
    simpa [Remove] using r3 h

end FileSystem

/-! ## Theorems on the data stream iterator -/

namespace DataStreamProcessor

theorem foldl_AddChunk {α : Type} : ∀ (chunks : List α) (ds : DataStream α),
    (chunks.foldl AddChunk ds).dataChunks = ds.dataChunks ++ chunks := by
  intro chunks
  induction chunks with
  | nil => intro ds; simp
  | cons c rest ih => intro ds; simp [List.foldl, ih, AddChunk]

theorem streamOf_chunks {α : Type} (chunks : List α) : (streamOf chunks).dataChunks = chunks := by
  simp [streamOf, foldl_AddChunk, NewDataStream]

theorem Get_append {α : Type} (pre suf : List α) (c : α) :
    Get ⟨pre ++ c :: suf⟩ pre.length = .ok c := by
  unfold Get
  rw [if_neg (by simp)]
  have : (pre ++ c :: suf).get? ((pre.length : Int)).toNat = some c := by
    rw [Int.toNat_ofNat, List.get?_eq_getElem?, List.getElem?_append_right (le_refl _)]; simp
  simp only [this]

theorem drain_from {α : Type} : ∀ (suf pre : List α) (fuel : Nat), suf.length ≤ fuel →
    drain fuel ⟨⟨pre ++ suf⟩, pre.length⟩ =
      some (suf.map .ok, ⟨⟨pre ++ suf⟩, (pre ++ suf).length⟩) := by
  intro suf
  induction suf with
  | nil =>
    intro pre fuel _
    have hn : HasNext (⟨⟨pre ++ []⟩, pre.length⟩ : StreamIterator α) = false := by
      simp [HasNext, GetCount]
    cases fuel <;> rw [drain, hn] <;> simp
  | cons c rest ih =>
    intro pre fuel hf
    cases fuel with
    | zero => simp at hf
    | succ fuel =>
      have hn : HasNext (⟨⟨pre ++ c :: rest⟩, pre.length⟩ : StreamIterator α) = true := by
        simp [HasNext, GetCount]
      have hnext : Next (⟨⟨pre ++ c :: rest⟩, pre.length⟩ : StreamIterator α) =
          (.ok c, ⟨⟨pre ++ c :: rest⟩, (pre.length : Int) + 1⟩) := by
        unfold Next
        rw [hn]
        simp only [Bool.not_true, Bool.false_eq_true, if_false, Get_append]
      have := ih (pre ++ [c]) fuel (by simpa using hf)
      simp only [List.append_assoc, List.singleton_append, List.length_append,
        List.length_singleton, Nat.cast_add, Nat.cast_one] at this
      rw [drain, if_pos hn, hnext]
      simp only [this, Option.map_some', List.map_cons, List.length_append, List.length_cons,
        Nat.cast_add, Nat.cast_one]

theorem Get_error_iff {α : Type} (ds : DataStream α) (i : Int) :
    (∃ e, Get ds i = .error e) ↔ (i < 0 ∨ i ≥ GetCount ds) := by
  unfold Get GetCount
  constructor
  · rintro ⟨e, he⟩
    by_contra hc
    rw [if_neg hc] at he
    have hlt : i.toNat < ds.dataChunks.length := by omega
    rw [List.get?_eq_getElem?, List.getElem?_eq_getElem hlt] at he
    cases he
  · intro h
    exact ⟨_, if_pos h⟩

/-- C24. On the stream built by `AddChunk` from any sequence of chunks, calling
`Next` on a fresh iterator while `HasNext` holds ends within as many
iterations as there are chunks and returns exactly the chunks in insertion
order, each without error; afterwards `HasNext` is false and `Next` returns an
error; and `Get(i)` returns an error exactly when `i < 0` or `i >= GetCount()`. -/
theorem Iterator_drains {α : Type} (chunks : List α) (fuel : Nat) (i : Int)
    (hfuel : chunks.length ≤ fuel) :
    ∃ final, drain fuel (CreateIterator (streamOf chunks)) = some (chunks.map .ok, final) ∧
      HasNext final = false ∧
      (Next final).1 = .error "no more elements" ∧
      ((∃ e, Get (streamOf chunks) i = .error e) ↔ (i < 0 ∨ i ≥ GetCount (streamOf chunks))) := by
  have hs : streamOf chunks = ⟨[] ++ chunks⟩ := by
    have := streamOf_chunks chunks
    cases h : streamOf chunks with
    | mk d => rw [h] at this; simp at this; simp [this]
  have hd := drain_from chunks [] fuel hfuel
  refine ⟨⟨⟨[] ++ chunks⟩, (([] : List α) ++ chunks).length⟩, ?_, ?_, ?_, Get_error_iff _ i⟩
  · rw [CreateIterator, hs]
    exact hd
  · simp [HasNext, GetCount]
  · have hn : HasNext (⟨⟨[] ++ chunks⟩, (([] : List α) ++ chunks).length⟩ : StreamIterator α)
        = false := by simp [HasNext, GetCount]
    unfold Next
    rw [hn]
    rfl

theorem Iterator_drains_witness :
    (["Chunk A", "Chunk B", "Chunk C"] : List String).length ≤ 3 ∧
    ∃ final, drain 3 (CreateIterator (streamOf ["Chunk A", "Chunk B", "Chunk C"])) =
        some ([.ok "Chunk A", .ok "Chunk B", .ok "Chunk C"], final) ∧
      HasNext final = false ∧
      (Next final).1 = .error "no more elements" ∧
      ((∃ e, Get (streamOf ["Chunk A", "Chunk B", "Chunk C"]) 3 = .error e) ↔
        ((3 : Int) < 0 ∨ (3 : Int) ≥ GetCount (streamOf ["Chunk A", "Chunk B", "Chunk C"]))) :=
  ⟨by decide, Iterator_drains ["Chunk A", "Chunk B", "Chunk C"] 3 3 (by decide)⟩

end DataStreamProcessor
